import Mathlib

/-!
# pylsqpack binding (binding.c): a shallow embedding

The source file is the CPython binding around the ls-qpack codec.  The codec
itself (the lsqpack_* functions declared in lsqpack.h) is not part of the
source file, so it is a parameter of the embedding: a record of functions over
two abstract codec states.  Everything the binding does on top of the codec
(argument checks, working buffers, offsets, the queue of pending header
blocks) is translated from binding.c.  Where a property depends on what the
codec computes (the round trip, the statuses given to feed_header), the codec
is instantiated with qpack_codec, the codec as the spec describes it.

Conventions of the embedding:

* a method takes the object and its parsed arguments and returns the Python
  result (a value or the exception raised) together with the object after the
  call; a stream id is the uint64_t value that argument parsing produced;
* the tail queue of pending header blocks is a list, head first;
* a C array is a map from offsets to bytes, and every write checks the size of
  the array: a write that would pass its end is the result undefined;
* size_t arithmetic that can wrap is written with size_sub, size_add and
  to_size_t, modulo 2^64;
* memory allocation is taken to succeed.
-/

namespace Pylsqpack

/-! ## Constants and basic types -/

abbrev Bytes := List UInt8

def DEC_BUF_SZ : Nat := 4096
def ENC_BUF_SZ : Nat := 4096
def HDR_BUF_SZ : Nat := 4096
def XHDR_BUF_SZ : Nat := 4096
def PREFIX_MAX_SIZE : Nat := 16

/-- Modulus of size_t and uint64_t arithmetic. -/
def SIZE_MOD : Nat := 2 ^ 64

/-- Subtraction of two size_t values, wrapping modulo 2^64 as in C. -/
def size_sub (a b : Nat) : Nat := (a % SIZE_MOD + SIZE_MOD - b % SIZE_MOD) % SIZE_MOD

/-- Addition of two size_t values, wrapping modulo 2^64 as in C. -/
def size_add (a b : Nat) : Nat := (a + b) % SIZE_MOD

/-- Conversion of a signed ssize_t result to size_t, as done by the assignment to pfx_len. -/
def to_size_t (r : Int) : Nat := (r % (SIZE_MOD : Int)).toNat

/-- The statuses of enum lsqpack_read_header_status. -/
inductive lsqpack_read_header_status
  | LQRHS_DONE
  | LQRHS_BLOCKED
  | LQRHS_NEED
  | LQRHS_ERROR
  deriving DecidableEq, Repr

/-- The statuses of enum lsqpack_enc_status. -/
inductive lsqpack_enc_status
  | LQES_OK
  | LQES_NOBUF_ENC
  | LQES_NOBUF_HEAD
  deriving DecidableEq, Repr

open lsqpack_read_header_status lsqpack_enc_status

/-- What one call of lsqpack_dec_header_in or lsqpack_dec_header_read reports back to the
binding: the status, by how many bytes the read cursor was advanced, the headers handed to the
dhi_process_header callback (in call order), the bytes written to dec_buf (dec_len of them)
and the new codec state. -/
structure ReadOut (D : Type) where
  status : lsqpack_read_header_status
  consumed : Nat
  processed : List (Bytes × Bytes)
  dec_out : Bytes
  dec : D

/-- The ls-qpack codec as the binding sees it.  The functions are those the binding calls;
output buffers are returned as the bytes the codec wrote into them.  A header block handle
(the opaque pointer given to the codec) is represented by the stream id of the block. -/
structure Lsqpack (E D : Type) where
  /-- lsqpack_enc_preinit -/
  enc_preinit : E
  /-- lsqpack_enc_init: max_table_size, dyn_table_size, max_risked_streams; returns the
  result code, the bytes written to tsu_buf and the new state -/
  enc_init : E → Nat → Nat → Nat → Int × Bytes × E
  /-- lsqpack_enc_start_header: stream_id, seqno -/
  enc_start_header : E → Nat → Nat → Int × E
  /-- lsqpack_enc_encode: room in the encoder buffer, room in the header buffer, name, value;
  returns the status, the bytes written to the encoder buffer, the bytes written to the header
  buffer and the new state -/
  enc_encode : E → Nat → Nat → Bytes → Bytes → lsqpack_enc_status × Bytes × Bytes × E
  /-- lsqpack_enc_end_header: size of the prefix buffer; returns the signed byte count, the
  bytes written to the prefix buffer and the new state -/
  enc_end_header : E → Nat → Int × Bytes × E
  /-- lsqpack_enc_decoder_in -/
  enc_decoder_in : E → Bytes → Int × E
  /-- lsqpack_dec_init: dyn_table_size, max_risked_streams -/
  dec_init : Nat → Nat → D
  /-- lsqpack_dec_enc_in: returns the result code, the handles on which dhi_unblocked was
  called and the new state -/
  dec_enc_in : D → Bytes → Int × List Nat × D
  /-- lsqpack_dec_header_in: handle, stream id, header block size, the bytes at the cursor -/
  dec_header_in : D → Nat → Nat → Nat → Bytes → ReadOut D
  /-- lsqpack_dec_header_read: handle, the bytes at the cursor -/
  dec_header_read : D → Nat → Bytes → ReadOut D

/-! ## Header blocks of the decoder -/

/-- The struct header_block: the fields the binding reads and writes; data_ptr is kept as the
offset of the cursor into data.  The scratch header buffer and xhdr are owned by the callbacks
and carry no state across calls that the binding inspects. -/
structure header_block where
  blocked : Bool
  data : Bytes
  data_ptr : Nat
  stream_id : Nat
  headers : List (Bytes × Bytes)
  deriving DecidableEq, Repr

/-- header_block_new: zeroed block holding a copy of data, cursor at the start. -/
def header_block_new (stream_id : Nat) (data : Bytes) : header_block :=
  { blocked := false, data := data, data_ptr := 0, stream_id := stream_id, headers := [] }

/-- header_block_unblocked: the dhi_unblocked callback. -/
def header_block_unblocked (hblock : header_block) : header_block :=
  { hblock with blocked := false }

/-- header_block_process_header: the dhi_process_header callback appends one (name, value)
tuple to the headers of the block. -/
def header_block_process_header (hblock : header_block) (xhdr : Bytes × Bytes) : header_block :=
  { hblock with headers := hblock.headers ++ [xhdr] }

/-- The effect of one codec read call on the block it was given: every processed header goes
through header_block_process_header and the cursor moves by the consumed bytes. -/
def header_block_after_read {D : Type} (hblock : header_block) (r : ReadOut D) : header_block :=
  { (r.processed.foldl header_block_process_header hblock) with
      data_ptr := hblock.data_ptr + r.consumed }

/-! ## Decoder -/

/-- The DecoderObject: codec state and the tail queue of pending header blocks. -/
structure DecoderObject (D : Type) where
  dec : D
  pending_blocks : List header_block
  deriving DecidableEq

/-- What a decoder method returns to Python: a value or the exception raised. -/
inductive DecoderResult
  | unblocked (ids : List Nat)
  | decoded (control : Bytes) (headers : List (Bytes × Bytes))
  | ValueError
  | StreamBlocked
  | DecompressionFailed
  | EncoderStreamError
  deriving DecidableEq, Repr

/-- Decoder_init: initialise the codec and the empty queue. -/
def Decoder_init {E D : Type} (q : Lsqpack E D) (max_table_capacity blocked_streams : Nat) :
    DecoderObject D :=
  { dec := q.dec_init max_table_capacity blocked_streams, pending_blocks := [] }

/-- STAILQ_FOREACH search for the first block of a stream id. -/
def find_block (stream_id : Nat) : List header_block → Option header_block
  | [] => none
  | hblock :: rest =>
    if hblock.stream_id = stream_id then some hblock else find_block stream_id rest

/-- Write through the pointer found by find_block: replace the first block of the stream id. -/
def update_block (stream_id : Nat) (f : header_block → header_block) :
    List header_block → List header_block
  | [] => []
  | hblock :: rest =>
    if hblock.stream_id = stream_id then f hblock :: rest
    else hblock :: update_block stream_id f rest

/-- STAILQ_REMOVE of the block found by find_block: drop the first block of the stream id. -/
def remove_block (stream_id : Nat) : List header_block → List header_block
  | [] => []
  | hblock :: rest =>
    if hblock.stream_id = stream_id then rest
    else hblock :: remove_block stream_id rest

/-- The dhi_unblocked callbacks issued during lsqpack_dec_enc_in, applied to the queue. -/
def apply_unblocked (handles : List Nat) (pending : List header_block) : List header_block :=
  pending.map fun hblock =>
    if hblock.stream_id ∈ handles then header_block_unblocked hblock else hblock

/-- Decoder_feed_encoder. -/
def Decoder_feed_encoder {E D : Type} (q : Lsqpack E D) (self : DecoderObject D) (data : Bytes) :
    DecoderResult × DecoderObject D :=
  match q.dec_enc_in self.dec data with
  | (rc, handles, dec) =>
    let self1 : DecoderObject D :=
      { dec := dec, pending_blocks := apply_unblocked handles self.pending_blocks }
    if rc < 0 then (DecoderResult.EncoderStreamError, self1)
    else
      (DecoderResult.unblocked
        ((self1.pending_blocks.filter fun hblock => !hblock.blocked).map header_block.stream_id),
       self1)

/-- Decoder_feed_header. -/
def Decoder_feed_header {E D : Type} (q : Lsqpack E D) (self : DecoderObject D)
    (stream_id : Nat) (data : Bytes) : DecoderResult × DecoderObject D :=
  match find_block stream_id self.pending_blocks with
  | some _ => (DecoderResult.ValueError, self)
  | none =>
    let hblock := header_block_new stream_id data
    let r := q.dec_header_in self.dec stream_id stream_id hblock.data.length
      (hblock.data.drop hblock.data_ptr)
    let hblock := header_block_after_read hblock r
    match r.status with
    | LQRHS_BLOCKED | LQRHS_NEED =>
      (DecoderResult.StreamBlocked,
       { dec := r.dec, pending_blocks := self.pending_blocks ++ [{ hblock with blocked := true }] })
    | LQRHS_DONE =>
      (DecoderResult.decoded r.dec_out hblock.headers,
       { dec := r.dec, pending_blocks := self.pending_blocks })
    | LQRHS_ERROR =>
      (DecoderResult.DecompressionFailed, { dec := r.dec, pending_blocks := self.pending_blocks })

/-- Decoder_resume_header. -/
def Decoder_resume_header {E D : Type} (q : Lsqpack E D) (self : DecoderObject D)
    (stream_id : Nat) : DecoderResult × DecoderObject D :=
  match find_block stream_id self.pending_blocks with
  | none => (DecoderResult.ValueError, self)
  | some hblock =>
    if hblock.blocked then
      (DecoderResult.StreamBlocked,
       { self with pending_blocks :=
           update_block stream_id (fun b => { b with blocked := true }) self.pending_blocks })
    else
      let r := q.dec_header_read self.dec stream_id (hblock.data.drop hblock.data_ptr)
      let pending := update_block stream_id (fun b => header_block_after_read b r)
        self.pending_blocks
      match r.status with
      | LQRHS_BLOCKED | LQRHS_NEED =>
        (DecoderResult.StreamBlocked,
         { dec := r.dec, pending_blocks :=
             update_block stream_id (fun b => { b with blocked := true }) pending })
      | LQRHS_DONE =>
        (DecoderResult.decoded r.dec_out (header_block_after_read hblock r).headers,
         { dec := r.dec, pending_blocks := remove_block stream_id pending })
      | LQRHS_ERROR =>
        (DecoderResult.DecompressionFailed,
         { dec := r.dec, pending_blocks := remove_block stream_id pending })

/-- One call on a decoder, as issued by the application. -/
inductive DecoderCall
  | feed_encoder (data : Bytes)
  | feed_header (stream_id : Nat) (data : Bytes)
  | resume_header (stream_id : Nat)
  deriving DecidableEq, Repr

/-- Dispatch of one call to the method of that name. -/
def Decoder_call {E D : Type} (q : Lsqpack E D) (self : DecoderObject D) :
    DecoderCall → DecoderResult × DecoderObject D
  | DecoderCall.feed_encoder data => Decoder_feed_encoder q self data
  | DecoderCall.feed_header stream_id data => Decoder_feed_header q self stream_id data
  | DecoderCall.resume_header stream_id => Decoder_resume_header q self stream_id

/-- The decoder after a sequence of calls, whatever each of them returned or raised. -/
def Decoder_run {E D : Type} (q : Lsqpack E D) (self : DecoderObject D) :
    List DecoderCall → DecoderObject D
  | [] => self
  | call :: rest => Decoder_run q (Decoder_call q self call).2 rest

/-- The stream ids of the pending blocks, in queue order. -/
def pending_ids {D : Type} (self : DecoderObject D) : List Nat :=
  self.pending_blocks.map header_block.stream_id

/-! ## Encoder -/

/-- A fixed-size C array, as a map from offsets to bytes; the size is checked where the
array is accessed. -/
abbrev Buffer := Nat → UInt8

/-- The bytes of buf at offsets off, off + 1, ..., off + len - 1. -/
def buf_read (buf : Buffer) (off len : Nat) : Bytes :=
  (List.range len).map fun i => buf (off + i)

/-- The buffer after src was written at offset off. -/
def buf_write (buf : Buffer) (off : Nat) (src : Bytes) : Buffer :=
  fun i => if off ≤ i ∧ i < off + src.length then src.getD (i - off) 0 else buf i

/-- A write of src at offset off into an array of cap bytes: none when it would
pass the end of the array. -/
def memcpy (cap : Nat) (buf : Buffer) (off : Nat) (src : Bytes) : Option Buffer :=
  if off + src.length ≤ cap then some (buf_write buf off src) else none

/-- An item of a header tuple: a bytes object or any other Python object. -/
inductive PyItem
  | bytes (b : Bytes)
  | other
  deriving DecidableEq, Repr

/-- An element of the headers list: a tuple or any other Python object. -/
inductive PyObject
  | tuple (items : List PyItem)
  | other
  deriving DecidableEq, Repr

/-- The headers argument: a list or any other Python object. -/
inductive PyArg
  | list (items : List PyObject)
  | other
  deriving DecidableEq, Repr

/-- The messages of the ValueError exceptions raised by Encoder_encode. -/
inductive ValueMsg
  | headers_must_be_a_list
  | header_must_be_a_two_tuple
  | name_and_value_must_be_bytes
  | name_and_value_are_too_long
  deriving DecidableEq, Repr

/-- The messages of the RuntimeError exceptions raised by the encoder methods. -/
inductive RuntimeMsg
  | lsqpack_enc_init_failed
  | lsqpack_enc_start_header_failed
  | lsqpack_enc_encode_failed
  deriving DecidableEq, Repr

/-- What an encoder method returns to Python: a value, the exception raised, or undefined
behaviour of the C code (a memory access outside an array). -/
inductive EncoderResult
  | settings (tsu : Bytes)
  | encoded (enc_stream : Bytes) (header_block : Bytes)
  | none
  | ValueError (msg : ValueMsg)
  | RuntimeError (msg : RuntimeMsg)
  | DecoderStreamError
  | undefined
  deriving DecidableEq, Repr

/-- The EncoderObject: codec state and the four working arrays. -/
structure EncoderObject (E : Type) where
  enc : E
  hdr_buf : Buffer
  enc_buf : Buffer
  pfx_buf : Buffer
  xhdr_buf : Buffer

/-- Encoder_init on freshly allocated (zeroed) object memory. -/
def Encoder_init {E D : Type} (q : Lsqpack E D) : EncoderObject E :=
  { enc := q.enc_preinit, hdr_buf := fun _ => 0, enc_buf := fun _ => 0, pfx_buf := fun _ => 0,
    xhdr_buf := fun _ => 0 }

/-- Encoder_apply_settings. -/
def Encoder_apply_settings {E D : Type} (q : Lsqpack E D) (self : EncoderObject E)
    (max_table_capacity blocked_streams : Nat) : EncoderResult × EncoderObject E :=
  match q.enc_init self.enc max_table_capacity max_table_capacity blocked_streams with
  | (rc, tsu, enc) =>
    if rc ≠ 0 then (EncoderResult.RuntimeError RuntimeMsg.lsqpack_enc_init_failed, { self with enc := enc })
    else (EncoderResult.settings tsu, { self with enc := enc })

/-- The two memcpy calls that copy name and then value into xhdr_buf. -/
def xhdr_copy (xhdr_buf : Buffer) (name value : Bytes) : Option Buffer :=
  match memcpy XHDR_BUF_SZ xhdr_buf 0 name with
  | Option.none => Option.none
  | some buf => memcpy XHDR_BUF_SZ buf name.length value

/-- How one iteration of the loop of Encoder_encode ends: with the next offsets, or by
returning from the function. -/
inductive Loop (E : Type)
  | next (self : EncoderObject E) (enc_off hdr_off : Nat)
  | raise (result : EncoderResult) (self : EncoderObject E)

/-- The body of the for loop of Encoder_encode, for one element of the list.  The lengths are
those of Python bytes objects (at most 2^63 - 1 each), so name_len + value_len does not wrap. -/
def encode_step {E D : Type} (q : Lsqpack E D) (self : EncoderObject E) (enc_off hdr_off : Nat)
    (tuple : PyObject) : Loop E :=
  match tuple with
  | PyObject.tuple [PyItem.bytes name, PyItem.bytes value] =>
    let name_len := name.length
    let value_len := value.length
    if name_len + value_len > XHDR_BUF_SZ then
      Loop.raise (EncoderResult.ValueError ValueMsg.name_and_value_are_too_long) self
    else
      match xhdr_copy self.xhdr_buf name value with
      | Option.none => Loop.raise EncoderResult.undefined self
      | some xhdr_buf =>
        let self := { self with xhdr_buf := xhdr_buf }
        let enc_len := size_sub ENC_BUF_SZ enc_off
        let hdr_len := size_sub HDR_BUF_SZ hdr_off
        match q.enc_encode self.enc enc_len hdr_len
            (buf_read self.xhdr_buf 0 name_len) (buf_read self.xhdr_buf name_len value_len) with
        | (status, enc_out, hdr_out, enc) =>
          match memcpy ENC_BUF_SZ self.enc_buf enc_off enc_out,
                memcpy HDR_BUF_SZ self.hdr_buf hdr_off hdr_out with
          | some enc_buf, some hdr_buf =>
            let self := { self with enc := enc, enc_buf := enc_buf, hdr_buf := hdr_buf }
            if status ≠ LQES_OK then
              Loop.raise (EncoderResult.RuntimeError RuntimeMsg.lsqpack_enc_encode_failed) self
            else Loop.next self (size_add enc_off enc_out.length) (size_add hdr_off hdr_out.length)
          | _, _ => Loop.raise EncoderResult.undefined { self with enc := enc }
  | PyObject.tuple [_, _] =>
    Loop.raise (EncoderResult.ValueError ValueMsg.name_and_value_must_be_bytes) self
  | _ => Loop.raise (EncoderResult.ValueError ValueMsg.header_must_be_a_two_tuple) self

/-- The for loop of Encoder_encode over the elements of the list. -/
def encode_loop {E D : Type} (q : Lsqpack E D) :
    EncoderObject E → Nat → Nat → List PyObject → Loop E
  | self, enc_off, hdr_off, [] => Loop.next self enc_off hdr_off
  | self, enc_off, hdr_off, tuple :: rest =>
    match encode_step q self enc_off hdr_off tuple with
    | Loop.next self enc_off hdr_off => encode_loop q self enc_off hdr_off rest
    | Loop.raise result self => Loop.raise result self

/-- The end of Encoder_encode, after the loop: end the header, place the prefix in front of
the field bytes and build the two bytestrings. -/
def encode_finish {E D : Type} (q : Lsqpack E D) (self : EncoderObject E) (enc_off hdr_off : Nat) :
    EncoderResult × EncoderObject E :=
  match q.enc_end_header self.enc PREFIX_MAX_SIZE with
  | (r, pfx_out, enc) =>
    match memcpy PREFIX_MAX_SIZE self.pfx_buf 0 pfx_out with
    | Option.none => (EncoderResult.undefined, { self with enc := enc })
    | some pfx_buf =>
      let self := { self with enc := enc, pfx_buf := pfx_buf }
      let pfx_len := to_size_t r
      if pfx_len ≤ 0 then
        (EncoderResult.RuntimeError RuntimeMsg.lsqpack_enc_start_header_failed, self)
      else
        let pfx_off := size_sub PREFIX_MAX_SIZE pfx_len
        if pfx_len > PREFIX_MAX_SIZE then (EncoderResult.undefined, self)
        else
          match memcpy HDR_BUF_SZ self.hdr_buf pfx_off (buf_read self.pfx_buf 0 pfx_len) with
          | Option.none => (EncoderResult.undefined, self)
          | some hdr_buf =>
            let self := { self with hdr_buf := hdr_buf }
            (EncoderResult.encoded (buf_read self.enc_buf 0 enc_off)
              (buf_read self.hdr_buf pfx_off (size_sub hdr_off pfx_off)), self)

/-- Encoder_encode. -/
def Encoder_encode {E D : Type} (q : Lsqpack E D) (self : EncoderObject E) (stream_id : Nat)
    (list : PyArg) : EncoderResult × EncoderObject E :=
  match list with
  | PyArg.other => (EncoderResult.ValueError ValueMsg.headers_must_be_a_list, self)
  | PyArg.list items =>
    match q.enc_start_header self.enc stream_id 0 with
    | (rc, enc) =>
      let self := { self with enc := enc }
      if rc ≠ 0 then
        (EncoderResult.RuntimeError RuntimeMsg.lsqpack_enc_start_header_failed, self)
      else
        match encode_loop q self 0 PREFIX_MAX_SIZE items with
        | Loop.raise result self => (result, self)
        | Loop.next self enc_off hdr_off => encode_finish q self enc_off hdr_off

/-- Encoder_feed_decoder. -/
def Encoder_feed_decoder {E D : Type} (q : Lsqpack E D) (self : EncoderObject E) (data : Bytes) :
    EncoderResult × EncoderObject E :=
  match q.enc_decoder_in self.enc data with
  | (rc, enc) =>
    if rc < 0 then (EncoderResult.DecoderStreamError, { self with enc := enc })
    else (EncoderResult.none, { self with enc := enc })

/-- The Python two-tuple of bytes objects for a field. -/
def header_tuple (f : Bytes × Bytes) : PyObject :=
  PyObject.tuple [PyItem.bytes f.1, PyItem.bytes f.2]

/-- A header list of byte pairs as the Python list of two-tuples of bytes objects. -/
def headers_arg (fields : List (Bytes × Bytes)) : PyArg :=
  PyArg.list (fields.map header_tuple)

/-! ## Notions used in the statements

The codec reads made by the decoder methods, the registration log kept beside the pending
queue, and the codec calls for one header block without the binding. -/

/-- The codec read made by feed_header on a stream without pending block. -/
def feed_header_read {E D : Type} (q : Lsqpack E D) (self : DecoderObject D) (s : Nat)
    (data : Bytes) : ReadOut D :=
  q.dec_header_in self.dec s s data.length data

/-- The codec read made by resume_header on the pending block hblock of stream s. -/
def resume_header_read {E D : Type} (q : Lsqpack E D) (self : DecoderObject D) (s : Nat)
    (hblock : header_block) : ReadOut D :=
  q.dec_header_read self.dec s (hblock.data.drop hblock.data_ptr)

/-- The assignment hblock->blocked = 1. -/
def set_blocked (hblock : header_block) : header_block :=
  { hblock with blocked := true }

/-- Whether a result of feed_header or resume_header ends the life of the header block: the
decoded headers were returned (Done) or DecompressionFailed was raised (Failed). -/
def DecoderResult.terminal : DecoderResult → Bool
  | DecoderResult.decoded _ _ => true
  | DecoderResult.DecompressionFailed => true
  | _ => false

/-- Removal of the first entry of a stream id from a registration log, as remove_block does in
the pending queue. -/
def log_remove (s : Nat) : List (Nat × Nat) → List (Nat × Nat)
  | [] => []
  | entry :: rest => if entry.1 = s then rest else entry :: log_remove s rest

/-- Bookkeeping beside the pending queue: the log holds, for every pending block in queue order,
its stream id and the position in the call sequence of the feed_header call that registered it.
A feed_header call that raises StreamBlocked adds its entry at the end; a resume_header call
that ends the life of the block removes the entry of its stream id. -/
def log_step (call : DecoderCall) (result : DecoderResult) (time : Nat)
    (log : List (Nat × Nat)) : List (Nat × Nat) :=
  match call with
  | DecoderCall.feed_header s _ =>
    if result = DecoderResult.StreamBlocked then log ++ [(s, time)] else log
  | DecoderCall.resume_header s => if result.terminal = true then log_remove s log else log
  | DecoderCall.feed_encoder _ => log

/-- The registration log after a sequence of calls, the first of which has position time. -/
def registration_log {E D : Type} (q : Lsqpack E D) :
    DecoderObject D → Nat → List (Nat × Nat) → List DecoderCall → List (Nat × Nat)
  | _, _, log, [] => log
  | self, time, log, call :: rest =>
    registration_log q (Decoder_call q self call).2 (time + 1)
      (log_step call (Decoder_call q self call).1 time log) rest

/-- What the bookkeeping maintains: the log lists the ids of the queue in queue order, every
time in it lies before the current position, and the times ascend along the queue. -/
def log_matches {D : Type} (self : DecoderObject D) (time : Nat) (log : List (Nat × Nat)) : Prop :=
  log.map Prod.fst = pending_ids self ∧ (∀ entry ∈ log, entry.2 < time) ∧
    (log.map Prod.snd).Pairwise (· < ·)

/-- The sequence of lsqpack_enc_encode calls for a list of fields, with the buffer room left
at the given offsets: the bytes each call wrote to the encoder buffer and to the header
buffer, and the final codec state; none when a call does not return LQES_OK. -/
def lsqpack_encode_fields {E D : Type} (q : Lsqpack E D) :
    E → Nat → Nat → List (Bytes × Bytes) → Option (List (Bytes × Bytes) × E)
  | e, _, _, [] => some ([], e)
  | e, enc_off, hdr_off, f :: rest =>
    match q.enc_encode e (ENC_BUF_SZ - enc_off) (HDR_BUF_SZ - hdr_off) f.1 f.2 with
    | (LQES_OK, enc_out, hdr_out, e1) =>
      match lsqpack_encode_fields q e1 (enc_off + enc_out.length) (hdr_off + hdr_out.length)
          rest with
      | some (outs, e2) => some ((enc_out, hdr_out) :: outs, e2)
      | none => none
    | _ => none

/-- The prefix bytes produced when the header is ended in codec state e: the first pfx_len bytes
of pfx_buf after lsqpack_enc_end_header wrote into it, pfx_len being its return value. -/
def end_header_bytes {E D : Type} (q : Lsqpack E D) (pfx_buf : Buffer) (e : E) : Bytes :=
  buf_read (buf_write pfx_buf 0 (q.enc_end_header e PREFIX_MAX_SIZE).2.1) 0
    (to_size_t (q.enc_end_header e PREFIX_MAX_SIZE).1)

/-- The codec calls for one header block, without the binding: lsqpack_enc_start_header, one
lsqpack_enc_encode per field with the room left in two 4096-byte buffers (16 bytes of the
header buffer being reserved), then lsqpack_enc_end_header into a 16-byte buffer.  The result
is the encoder stream (the concatenated encoder-buffer output) and the header block (the
prefix followed by the concatenated header-buffer output); none when a call fails. -/
def lsqpack_encode_session {E D : Type} (q : Lsqpack E D) (e : E) (stream_id : Nat)
    (fields : List (Bytes × Bytes)) : Option (Bytes × Bytes) :=
  match q.enc_start_header e stream_id 0 with
  | (rc, e1) =>
    if rc ≠ 0 then none
    else
      match lsqpack_encode_fields q e1 0 PREFIX_MAX_SIZE fields with
      | none => none
      | some (outs, e2) =>
        match q.enc_end_header e2 PREFIX_MAX_SIZE with
        | (r, pfx_out, _) =>
          if 0 < r ∧ (pfx_out.length : Int) = r then
            some ((outs.map Prod.fst).flatten, pfx_out ++ (outs.map Prod.snd).flatten)
          else none

/-- The codec calls that decode one header block, without the binding: lsqpack_dec_enc_in on
the encoder stream, then lsqpack_dec_header_in on the whole header block; the headers given to
dhi_process_header when the status is LQRHS_DONE. -/
def lsqpack_decode_session {E D : Type} (q : Lsqpack E D) (d : D) (stream_id : Nat)
    (enc_stream header_block : Bytes) : Option (List (Bytes × Bytes)) :=
  match q.dec_enc_in d enc_stream with
  | (rc, _, d1) =>
    if rc < 0 then none
    else
      match q.dec_header_in d1 stream_id stream_id header_block.length header_block with
      | r => if r.status = LQRHS_DONE then some r.processed else none

/-- The codec decodes what it encoded: whatever the encode session of the fields produces from
encoder state e, the decode session from decoder state d gives the fields back. -/
def lsqpack_round_trip {E D : Type} (q : Lsqpack E D) (e : E) (d : D) (stream_id : Nat)
    (fields : List (Bytes × Bytes)) : Prop :=
  ∀ p ∈ lsqpack_encode_session q e stream_id fields,
    lsqpack_decode_session q d stream_id p.1 p.2 = some fields

/-- The return convention of lsqpack_enc_end_header: the result is a ssize_t and, when
positive, it is the number of bytes written to the prefix buffer. -/
def lsqpack_end_header_convention {E D : Type} (q : Lsqpack E D) : Prop :=
  ∀ e : E, -(2 ^ 63 : Int) ≤ (q.enc_end_header e PREFIX_MAX_SIZE).1 ∧
    (0 < (q.enc_end_header e PREFIX_MAX_SIZE).1 →
      ((q.enc_end_header e PREFIX_MAX_SIZE).2.1.length : Int)
        = (q.enc_end_header e PREFIX_MAX_SIZE).1)

/-- The arguments with which Encoder_encode arrives at the prefix copy
memcpy(hdr_buf + pfx_off, pfx_buf, pfx_len), as the pair (pfx_len, pfx_off), for the encoder
as it is after the loop: none when the function returned before the copy, through the test
pfx_len <= 0. -/
def prefix_copy_args {E D : Type} (q : Lsqpack E D) (self : EncoderObject E) :
    Option (Nat × Nat) :=
  match q.enc_end_header self.enc PREFIX_MAX_SIZE with
  | (r, pfx_out, _) =>
    match memcpy PREFIX_MAX_SIZE self.pfx_buf 0 pfx_out with
    | Option.none => Option.none
    | some _ =>
      let pfx_len := to_size_t r
      if pfx_len ≤ 0 then Option.none
      else some (pfx_len, size_sub PREFIX_MAX_SIZE pfx_len)

/-! ## A small concrete codec

The theorems about the binding alone hold for every codec.  To run the binding on concrete
inputs a codec instance is needed; ref_codec is a miniature one with the call conventions of
ls-qpack.  Its
encoder inserts every field into the dynamic table (one instruction on the encoder stream:
the two lengths, the name, the value) and refers to it from the header block by its absolute
index; the header block starts with a two-byte prefix holding the required insert count. -/

/-- State of the encoder half of ref_codec. -/
structure RefEnc where
  ready : Bool
  in_header : Bool
  count : Nat
  deriving DecidableEq, Repr

/-- State of the decoder half of ref_codec: the table and the blocked (handle, required insert
count) pairs. -/
structure RefDec where
  table : List (Bytes × Bytes)
  waiting : List (Nat × Nat)
  deriving DecidableEq, Repr

/-- The insert instructions of an encoder stream; fuel bounds the number of instructions. -/
def ref_parse : Nat → Bytes → Option (List (Bytes × Bytes))
  | _, [] => some []
  | 0, _ :: _ => none
  | _ + 1, [_] => none
  | fuel + 1, nlen :: vlen :: rest =>
    if rest.length < nlen.toNat + vlen.toNat then none
    else
      match ref_parse fuel (rest.drop (nlen.toNat + vlen.toNat)) with
      | none => none
      | some more => some ((rest.take nlen.toNat, (rest.drop nlen.toNat).take vlen.toNat) :: more)

/-- The table entries referred to by a list of absolute indices, when all are in the table. -/
def ref_lookup (table : List (Bytes × Bytes)) : Bytes → Option (List (Bytes × Bytes))
  | [] => some []
  | idx :: rest =>
    match table.get? idx.toNat, ref_lookup table rest with
    | some entry, some more => some (entry :: more)
    | _, _ => none

/-- The read of the field lines of a header block against the table. -/
def ref_read (d : RefDec) (handle : Nat) (consumed_before : Nat) (lines : Bytes) : ReadOut RefDec :=
  match ref_lookup d.table lines with
  | some entries =>
    { status := LQRHS_DONE, consumed := consumed_before + lines.length, processed := entries,
      dec_out := [UInt8.ofNat handle], dec := d }
  | none =>
    { status := LQRHS_ERROR, consumed := consumed_before, processed := [], dec_out := [], dec := d }

/-- The miniature codec. -/
def ref_codec : Lsqpack RefEnc RefDec where
  enc_preinit := { ready := false, in_header := false, count := 0 }
  enc_init := fun e _ dyn_table_size _ =>
    (0, [UInt8.ofNat dyn_table_size], { e with ready := true })
  enc_start_header := fun e _ _ =>
    if e.in_header || !e.ready then (-1, e) else (0, { e with in_header := true })
  enc_encode := fun e enc_room hdr_room name value =>
    if enc_room < 2 + name.length + value.length then (LQES_NOBUF_ENC, [], [], e)
    else if hdr_room < 1 then (LQES_NOBUF_HEAD, [], [], e)
    else
      (LQES_OK, UInt8.ofNat name.length :: UInt8.ofNat value.length :: (name ++ value),
        [UInt8.ofNat e.count], { e with count := e.count + 1 })
  enc_end_header := fun e buf_sz =>
    if !e.in_header then (-1, [], e)
    else if buf_sz < 2 then (0, [], e)
    else (2, [UInt8.ofNat e.count, 0], { e with in_header := false })
  enc_decoder_in := fun e _ => (0, e)
  dec_init := fun _ _ => { table := [], waiting := [] }
  dec_enc_in := fun d data =>
    match ref_parse data.length data with
    | none => (-1, [], d)
    | some inserted =>
      let table := d.table ++ inserted
      (0, (d.waiting.filter fun w => w.2 ≤ table.length).map Prod.fst,
        { table := table, waiting := d.waiting.filter fun w => !(w.2 ≤ table.length) })
  dec_header_in := fun d handle _ _ data =>
    match data with
    | ric :: _ :: lines =>
      if d.table.length < ric.toNat then
        { status := LQRHS_BLOCKED, consumed := 2, processed := [], dec_out := [],
          dec := { d with waiting := d.waiting ++ [(handle, ric.toNat)] } }
      else ref_read d handle 2 lines
    | _ => { status := LQRHS_ERROR, consumed := 0, processed := [], dec_out := [], dec := d }
  dec_header_read := fun d handle lines => ref_read d handle 0 lines

/-- A fresh encoder over ref_codec after apply_settings(4096, 16). -/
def ref_encoder : EncoderObject RefEnc :=
  (Encoder_apply_settings ref_codec (Encoder_init ref_codec) 4096 16).2

/-- A fresh decoder over ref_codec: Decoder(4096, 16). -/
def ref_decoder : DecoderObject RefDec :=
  Decoder_init ref_codec 4096 16

/-- The decoder ref_decoder after feed_header(4, ...) of a block that needs three insertions:
stream 4 is blocked. -/
def ref_decoder_blocked : DecoderObject RefDec :=
  (Decoder_feed_header ref_codec ref_decoder 4 [3, 0, 0, 1, 2]).2

/-- The decoder ref_decoder_blocked after feed_encoder of three insertions: stream 4 is
unblocked and not yet resumed. -/
def ref_decoder_unblocked : DecoderObject RefDec :=
  (Decoder_feed_encoder ref_codec ref_decoder_blocked [1, 1, 97, 98, 0, 0, 1, 1, 97, 98]).2

/-- The decoder ref_decoder after feed_header(8, ...) and then feed_header(4, ...), each of a
block that needs one insertion: streams 8 and 4 are blocked, registered in that order. -/
def ref_decoder_two_blocked : DecoderObject RefDec :=
  Decoder_run ref_codec ref_decoder
    [DecoderCall.feed_header 8 [1, 0, 0], DecoderCall.feed_header 4 [1, 0, 0]]

/-- Three header fields: a pair, a pair of empty strings and the first pair again. -/
def ref_fields : List (Bytes × Bytes) := [([97], [98]), ([], []), ([97], [98])]

/-- A header name of 4097 bytes. -/
def long_name : Bytes := List.replicate 4097 0

/-- A header name of 4096 bytes. -/
def full_name : Bytes := List.replicate 4096 0

/-- The codec ref_codec with an lsqpack_enc_end_header that reports an error: it writes nothing
and returns -1. -/
def neg_codec : Lsqpack RefEnc RefDec :=
  { ref_codec with enc_end_header := fun e _ => (-1, [], e) }

/-- A fresh encoder over neg_codec after apply_settings(4096, 16). -/
def neg_encoder : EncoderObject RefEnc :=
  (Encoder_apply_settings neg_codec (Encoder_init neg_codec) 4096 16).2

/-! ## The codec as the spec describes it

The wrapped codec is not part of the source file.  The definitions of this section follow the
spec: the dynamic table (sections 3 and 4.1), the instructions of the two auxiliary streams
(4.2), the header block encoder with its five steps and the block prefix (4.3), the header
block decoder (4.4) and the blocked-stream tracker (4.5), in the wire format the spec names
(variable-length integers with N-bit prefixes, literal strings without the optional Huffman
coding).  The static table, whose contents the spec does not list, is a parameter. -/

/-- Modelled from the spec: the bound of the numeric range of the wire format, all indices and
counts being unsigned 62-bit-range integers. -/
def QPACK_INT_MAX : Nat := 2 ^ 62

/-- The byte with the given value. -/
def byte (n : Nat) : UInt8 := UInt8.ofNat n

/-- Modelled from the spec: the continuation bytes of a variable-length integer, seven bits per
byte from the least significant, the top bit set on all but the last; fuel bounds the number
of bytes. -/
def put_int_rest : Nat → Nat → Bytes
  | 0, _ => []
  | fuel + 1, v =>
    if v < 128 then [byte v] else byte (128 + v % 128) :: put_int_rest fuel (v / 128)

/-- Modelled from the spec: a variable-length integer with an n-bit prefix; tag holds the bits of
the first byte above the prefix. -/
def put_int (n tag v : Nat) : Bytes :=
  if v < 2 ^ n - 1 then [byte (tag + v)]
  else byte (tag + (2 ^ n - 1)) :: put_int_rest (v + 1) (v - (2 ^ n - 1))

/-- Modelled from the spec: reading of the continuation bytes of a variable-length integer; a
value outside the 62-bit range and a missing last byte fail. -/
def get_int_rest : Nat → Nat → Bytes → Option (Nat × Bytes)
  | _, _, [] => none
  | m, acc, b :: rest =>
    if b.toNat < 128 then
      if acc + b.toNat * m < QPACK_INT_MAX then some (acc + b.toNat * m, rest) else none
    else get_int_rest (m * 128) (acc + (b.toNat % 128) * m) rest

/-- Modelled from the spec: reading of a variable-length integer with an n-bit prefix from its
first byte and the bytes after it. -/
def get_int (n : Nat) (first : UInt8) (rest : Bytes) : Option (Nat × Bytes) :=
  if first.toNat % 2 ^ n < 2 ^ n - 1 then some (first.toNat % 2 ^ n, rest)
  else get_int_rest 1 (2 ^ n - 1) rest

/-- Modelled from the spec: a literal string, its length as an integer with an n-bit prefix
followed by its bytes; the Huffman flag, the bit above the prefix, is clear. -/
def put_str (n tag : Nat) (s : Bytes) : Bytes :=
  put_int n tag s.length ++ s

/-- Modelled from the spec: reading of a literal string with an n-bit length prefix.  The code
table of the optional Huffman coding is not in the spec: a string with the Huffman flag set is
not read. -/
def get_str (n : Nat) (first : UInt8) (rest : Bytes) : Option (Bytes × Bytes) :=
  if first.toNat / 2 ^ n % 2 = 1 then none
  else
    match get_int n first rest with
    | none => none
    | some (len, rest1) =>
      if rest1.length < len then none else some (rest1.take len, rest1.drop len)

/-- Modelled from the spec: reading of a variable-length integer with an n-bit prefix at the
start of the bytes. -/
def get_int_at (n : Nat) : Bytes → Option (Nat × Bytes)
  | [] => none
  | first :: rest => get_int n first rest

/-- Modelled from the spec: reading of a literal string with an n-bit length prefix at the start
of the bytes. -/
def get_str_at (n : Nat) : Bytes → Option (Bytes × Bytes)
  | [] => none
  | first :: rest => get_str n first rest

/-- The value of the first byte; 0 for no bytes. -/
def first_byte : Bytes → Nat
  | [] => 0
  | first :: _ => first.toNat

/-- Modelled from the spec: the instructions of the encoder stream (section 4.2). -/
inductive EncInstr
  | set_capacity (capacity : Nat)
  | insert_name_ref (is_static : Bool) (index : Nat) (value : Bytes)
  | insert_literal (name value : Bytes)
  | duplicate (index : Nat)
  deriving DecidableEq, Repr

/-- Modelled from the spec: the bytes of an encoder-stream instruction. -/
def put_instr : EncInstr → Bytes
  | EncInstr.set_capacity capacity => put_int 5 32 capacity
  | EncInstr.insert_name_ref is_static index value =>
    put_int 6 (if is_static then 192 else 128) index ++ put_str 7 0 value
  | EncInstr.insert_literal name value => put_str 5 64 name ++ put_str 7 0 value
  | EncInstr.duplicate index => put_int 5 0 index

/-- Modelled from the spec: reading of one encoder-stream instruction; malformed integers and
truncated payloads fail. -/
def get_instr (data : Bytes) : Option (EncInstr × Bytes) :=
  if 128 ≤ first_byte data then
    (get_int_at 6 data).bind fun p =>
      (get_str_at 7 p.2).bind fun v =>
        some (EncInstr.insert_name_ref (decide (first_byte data / 64 % 2 = 1)) p.1 v.1, v.2)
  else if 64 ≤ first_byte data then
    (get_str_at 5 data).bind fun n =>
      (get_str_at 7 n.2).bind fun v => some (EncInstr.insert_literal n.1 v.1, v.2)
  else if 32 ≤ first_byte data then
    (get_int_at 5 data).bind fun p => some (EncInstr.set_capacity p.1, p.2)
  else (get_int_at 5 data).bind fun p => some (EncInstr.duplicate p.1, p.2)

/-- Modelled from the spec: reading of all the instructions in encoder-stream bytes; fuel bounds
their number. -/
def get_instrs : Nat → Bytes → Option (List EncInstr)
  | _, [] => some []
  | 0, _ :: _ => none
  | fuel + 1, first :: rest =>
    (get_instr (first :: rest)).bind fun p =>
      (get_instrs fuel p.2).bind fun more => some (p.1 :: more)

/-- Modelled from the spec: the instructions of the decoder stream (section 4.2). -/
inductive DecInstr
  | header_ack (stream_id : Nat)
  | stream_cancel (stream_id : Nat)
  | insert_count_increment (increment : Nat)
  deriving DecidableEq, Repr

/-- Modelled from the spec: the bytes of a decoder-stream instruction. -/
def put_dec_instr : DecInstr → Bytes
  | DecInstr.header_ack stream_id => put_int 7 128 stream_id
  | DecInstr.stream_cancel stream_id => put_int 6 64 stream_id
  | DecInstr.insert_count_increment increment => put_int 6 0 increment

/-- Modelled from the spec: reading of one decoder-stream instruction. -/
def get_dec_instr (data : Bytes) : Option (DecInstr × Bytes) :=
  if 128 ≤ first_byte data then
    (get_int_at 7 data).bind fun p => some (DecInstr.header_ack p.1, p.2)
  else if 64 ≤ first_byte data then
    (get_int_at 6 data).bind fun p => some (DecInstr.stream_cancel p.1, p.2)
  else (get_int_at 6 data).bind fun p => some (DecInstr.insert_count_increment p.1, p.2)

/-- Modelled from the spec: reading of all the instructions in decoder-stream bytes. -/
def get_dec_instrs : Nat → Bytes → Option (List DecInstr)
  | _, [] => some []
  | 0, _ :: _ => none
  | fuel + 1, first :: rest =>
    (get_dec_instr (first :: rest)).bind fun p =>
      (get_dec_instrs fuel p.2).bind fun more => some (p.1 :: more)

/-- Modelled from the spec: the representations of a header field in a header block (section
4.3): a static-table reference, a dynamic-table reference relative to the base or counted from
the base on, a literal value with a name reference, and a fully literal field. -/
inductive FieldLine
  | indexed_static (index : Nat)
  | indexed_dynamic (relative : Nat)
  | indexed_post_base (index : Nat)
  | literal_name_ref (is_static : Bool) (index : Nat) (value : Bytes)
  | literal_post_base_name_ref (index : Nat) (value : Bytes)
  | literal (name value : Bytes)
  deriving DecidableEq, Repr

/-- Modelled from the spec: the bytes of a field representation. -/
def put_line : FieldLine → Bytes
  | FieldLine.indexed_static index => put_int 6 192 index
  | FieldLine.indexed_dynamic relative => put_int 6 128 relative
  | FieldLine.indexed_post_base index => put_int 4 16 index
  | FieldLine.literal_name_ref is_static index value =>
    put_int 4 (if is_static then 80 else 64) index ++ put_str 7 0 value
  | FieldLine.literal_post_base_name_ref index value => put_int 3 0 index ++ put_str 7 0 value
  | FieldLine.literal name value => put_str 3 32 name ++ put_str 7 0 value

/-- Modelled from the spec: reading of one field representation. -/
def get_line (data : Bytes) : Option (FieldLine × Bytes) :=
  if 128 ≤ first_byte data then
    (get_int_at 6 data).bind fun p =>
      some (if first_byte data / 64 % 2 = 1 then FieldLine.indexed_static p.1
            else FieldLine.indexed_dynamic p.1, p.2)
  else if 64 ≤ first_byte data then
    (get_int_at 4 data).bind fun p =>
      (get_str_at 7 p.2).bind fun v =>
        some (FieldLine.literal_name_ref (decide (first_byte data / 16 % 2 = 1)) p.1 v.1, v.2)
  else if 32 ≤ first_byte data then
    (get_str_at 3 data).bind fun n =>
      (get_str_at 7 n.2).bind fun v => some (FieldLine.literal n.1 v.1, v.2)
  else if 16 ≤ first_byte data then
    (get_int_at 4 data).bind fun p => some (FieldLine.indexed_post_base p.1, p.2)
  else
    (get_int_at 3 data).bind fun p =>
      (get_str_at 7 p.2).bind fun v =>
        some (FieldLine.literal_post_base_name_ref p.1 v.1, v.2)

/-- Modelled from the spec: reading of all the field representations of a header block after
its prefix; fuel bounds their number. -/
def get_lines : Nat → Bytes → Option (List FieldLine)
  | _, [] => some []
  | 0, _ :: _ => none
  | fuel + 1, first :: rest =>
    (get_line (first :: rest)).bind fun p =>
      (get_lines fuel p.2).bind fun more => some (p.1 :: more)

/-- Modelled from the spec: the two-field prefix of a header block, the encoded required insert
count and the base as a sign and a difference. -/
def put_block_start (enc_ric : Nat) (sign : Bool) (delta : Nat) : Bytes :=
  put_int 8 0 enc_ric ++ put_int 7 (if sign then 128 else 0) delta

/-- Modelled from the spec: reading of the prefix of a header block: the encoded required insert
count, the sign, the difference and the bytes after the prefix. -/
def get_block_start (data : Bytes) : Option (Nat × Bool × Nat × Bytes) :=
  (get_int_at 8 data).bind fun p =>
    (get_int_at 7 p.2).bind fun d => some (p.1, decide (128 ≤ first_byte p.2), d.1, d.2)

/-- Modelled from the spec: the dynamic table of one side (section 3): the live entries, oldest
first, the number of entries evicted so far, which is the insertion index of the oldest live
entry, and the capacity. -/
structure DynTable where
  entries : List (Bytes × Bytes)
  dropped : Nat
  capacity : Nat
  deriving DecidableEq, Repr

/-- Modelled from the spec: the total number of entries ever inserted, the insert count of the
protocol. -/
def DynTable.inserted_count (t : DynTable) : Nat := t.dropped + t.entries.length

/-- Modelled from the spec: the size of an entry, len(name) + len(value) + 32. -/
def entry_size (f : Bytes × Bytes) : Nat := f.1.length + f.2.length + 32

/-- Modelled from the spec: the used size of a table, the sum of the sizes of the entries. -/
def used_size (entries : List (Bytes × Bytes)) : Nat := (entries.map entry_size).sum

/-- Modelled from the spec: the entry with an insertion index: none when it was evicted or is
not yet inserted. -/
def DynTable.lookup (t : DynTable) (index : Nat) : Option (Bytes × Bytes) :=
  if index < t.dropped then none else t.entries[index - t.dropped]?

/-- Modelled from the spec: eviction of the oldest entries until the rest fits into room.  An
entry whose insertion index is not below pin is referenced and is not evicted: the eviction
then fails.  The first argument is the insertion index of the oldest entry. -/
def evict_to (room pin : Nat) : Nat → List (Bytes × Bytes) → Option (Nat × List (Bytes × Bytes))
  | dropped, [] => some (dropped, [])
  | dropped, entry :: rest =>
    if used_size (entry :: rest) ≤ room then some (dropped, entry :: rest)
    else if dropped < pin then evict_to room pin (dropped + 1) rest
    else none

/-- Modelled from the spec: insert(name, value) of section 4.1.  An entry larger than the
capacity is rejected (TableFull); otherwise the oldest unreferenced entries are evicted until
the entry fits and it is appended with the next insertion index.  A failed insertion leaves
the table as it is. -/
def DynTable.insert (t : DynTable) (pin : Nat) (f : Bytes × Bytes) : Option DynTable :=
  if t.capacity < entry_size f then none
  else
    match evict_to (t.capacity - entry_size f) pin t.dropped t.entries with
    | none => none
    | some (dropped, entries) =>
      some { entries := entries ++ [f], dropped := dropped, capacity := t.capacity }

/-- Modelled from the spec: set_capacity(new_capacity) of section 4.1: eviction of the oldest
entries until the used size is within the new capacity. -/
def DynTable.set_capacity (t : DynTable) (pin capacity : Nat) : Option DynTable :=
  match evict_to capacity pin t.dropped t.entries with
  | none => none
  | some (dropped, entries) =>
    some { entries := entries, dropped := dropped, capacity := capacity }

/-- The position of the first element that satisfies p. -/
def find_index {α : Type} (p : α → Bool) : List α → Option Nat
  | [] => none
  | x :: rest => if p x then some 0 else (find_index p rest).map (· + 1)

/-- Modelled from the spec: what an encoder-stream instruction does to the table of the decoder
(sections 4.1 and 4.2).  A capacity above the negotiated maximum and a reference to an entry
that is not in the table fail.  The decoder evicts whatever the insertion needs: keeping
referenced entries is the duty of the encoder. -/
def apply_instr (static : List (Bytes × Bytes)) (max_capacity : Nat) (t : DynTable) :
    EncInstr → Option DynTable
  | EncInstr.set_capacity capacity =>
    if max_capacity < capacity then none else t.set_capacity t.inserted_count capacity
  | EncInstr.insert_name_ref true index value =>
    match static[index]? with
    | none => none
    | some entry => t.insert t.inserted_count (entry.1, value)
  | EncInstr.insert_name_ref false index value =>
    if t.inserted_count ≤ index then none
    else
      match t.lookup (t.inserted_count - 1 - index) with
      | none => none
      | some entry => t.insert t.inserted_count (entry.1, value)
  | EncInstr.insert_literal name value => t.insert t.inserted_count (name, value)
  | EncInstr.duplicate index =>
    if t.inserted_count ≤ index then none
    else
      match t.lookup (t.inserted_count - 1 - index) with
      | none => none
      | some entry => t.insert t.inserted_count entry

/-- Modelled from the spec: the instructions of encoder-stream bytes applied in order. -/
def apply_instrs (static : List (Bytes × Bytes)) (max_capacity : Nat) :
    DynTable → List EncInstr → Option DynTable
  | t, [] => some t
  | t, instr :: rest =>
    match apply_instr static max_capacity t instr with
    | none => none
    | some t1 => apply_instrs static max_capacity t1 rest

/-- Modelled from the spec: the mapping of the required insert count in the block prefix: 0
when no dynamic-table entry is referenced, otherwise the count modulo twice the largest number
of entries the table can hold, plus one. -/
def encode_ric (max_entries ric : Nat) : Nat :=
  if ric = 0 then 0 else ric % (2 * max_entries) + 1

/-- Modelled from the spec: the inverse of the mapping, from the number of insertions the decoder
has seen; a value that no count within the window maps to fails. -/
def decode_ric (max_entries total enc : Nat) : Option Nat :=
  if enc = 0 then some 0
  else if 2 * max_entries < enc then none
  else
    let ric := (total + max_entries) / (2 * max_entries) * (2 * max_entries) + enc - 1
    if total + max_entries < ric then
      if ric ≤ 2 * max_entries then none else some (ric - 2 * max_entries)
    else if ric = 0 then none
    else some ric

/-- Modelled from the spec: the base of a header block from the required insert count, the sign
and the difference of the prefix. -/
def decode_base (ric : Nat) (sign : Bool) (delta : Nat) : Option Nat :=
  if sign then (if ric < delta + 1 then none else some (ric - delta - 1)) else some (ric + delta)

/-- Modelled from the spec: a header block being encoded (the encoder-side per-stream state of
section 3): the stream id, the base, which is the insert count when the block was started,
and the lowest and the highest insertion index referenced so far. -/
structure QBlock where
  stream_id : Nat
  base : Nat
  refs : Option (Nat × Nat)
  deriving DecidableEq, Repr

/-- Modelled from the spec: the state of the encoder: whether the capacity was applied, the
negotiated settings, the dynamic table, the header block being encoded, and for every header
block not yet acknowledged its stream id and the lowest insertion index it references. -/
structure QEnc where
  ready : Bool
  max_capacity : Nat
  max_blocked : Nat
  table : DynTable
  cur : Option QBlock
  outstanding : List (Nat × Nat)
  known_received : Nat
  deriving DecidableEq, Repr

/-- Modelled from the spec: the insertion index below which entries may be evicted: the lowest
index referenced by the block being encoded and by the blocks not yet acknowledged. -/
def eviction_pin (e : QEnc) (refs : Option (Nat × Nat)) : Nat :=
  match refs with
  | some (lo, _) => min lo (e.outstanding.foldr (fun o m => min o.2 m) e.table.inserted_count)
  | none => e.outstanding.foldr (fun o m => min o.2 m) e.table.inserted_count

/-- Modelled from the spec: the lowest and the highest reference of a block after one more
reference to an insertion index. -/
def note_ref (refs : Option (Nat × Nat)) (index : Nat) : Option (Nat × Nat) :=
  match refs with
  | none => some (index, index)
  | some (lo, hi) => some (min lo index, max hi index)

/-- Modelled from the spec: the indexed reference to a dynamic-table entry: relative to the base
for an entry inserted before the base, counted from the base on otherwise. -/
def dyn_line (base index : Nat) : FieldLine :=
  if index < base then FieldLine.indexed_dynamic (base - 1 - index)
  else FieldLine.indexed_post_base (index - base)

/-- Modelled from the spec: the insertion the encoder makes for a field, when the table takes it:
the insert count stays in the numeric range and only unreferenced entries are evicted. -/
def try_insert (e : QEnc) (refs : Option (Nat × Nat)) (f : Bytes × Bytes) : Option DynTable :=
  if e.table.inserted_count + 1 < QPACK_INT_MAX then e.table.insert (eviction_pin e refs) f
  else none

/-- The outcome of the encoding of one field: the instructions for the encoder stream, the
representation for the header block, the table and the references of the block after it. -/
structure FieldOut where
  instrs : List EncInstr
  line : FieldLine
  table : DynTable
  refs : Option (Nat × Nat)
  deriving DecidableEq, Repr

/-- Modelled from the spec: the five steps of section 4.3 for one header field: (1) an exact
match in the static table is referenced; (2) an exact match among the live entries of the
dynamic table is referenced; (3) a name match in the static table gives a literal value with
that name reference; (4) a name match in the dynamic table inserts a new entry by name
reference and references the new entry; (5) otherwise the field is fully literal.  The
insertion policy of step 5 is free in the spec: here the field is also inserted whenever the
table takes it.  When the insertion of step 4 is not possible the field is encoded as in
step 5. -/
def encode_field (static : List (Bytes × Bytes)) (e : QEnc) (blk : QBlock) (f : Bytes × Bytes) :
    FieldOut :=
  match find_index (fun x => decide (x = f)) static with
  | some i => { instrs := [], line := FieldLine.indexed_static i, table := e.table,
                refs := blk.refs }
  | none =>
    match find_index (fun x => decide (x = f)) e.table.entries with
    | some i =>
      { instrs := [], line := dyn_line blk.base (e.table.dropped + i), table := e.table,
        refs := note_ref blk.refs (e.table.dropped + i) }
    | none =>
      match find_index (fun x => decide (x.1 = f.1)) static with
      | some i => { instrs := [], line := FieldLine.literal_name_ref true i f.2,
                    table := e.table, refs := blk.refs }
      | none =>
        match find_index (fun x => decide (x.1 = f.1)) e.table.entries,
              try_insert e blk.refs f with
        | some i, some t =>
          { instrs := [EncInstr.insert_name_ref false (e.table.entries.length - 1 - i) f.2],
            line := dyn_line blk.base e.table.inserted_count, table := t,
            refs := note_ref blk.refs e.table.inserted_count }
        | none, some t =>
          { instrs := [EncInstr.insert_literal f.1 f.2], line := FieldLine.literal f.1 f.2,
            table := t, refs := blk.refs }
        | _, none =>
          { instrs := [], line := FieldLine.literal f.1 f.2, table := e.table,
            refs := blk.refs }

/-- Modelled from the spec: the prefix of the header block being ended: the required insert
count, one above the highest insertion index referenced and 0 without a reference, in its
mapping, and the base as sign and difference. -/
def block_start_bytes (e : QEnc) (blk : QBlock) : Bytes :=
  match blk.refs with
  | none => put_block_start 0 false blk.base
  | some (_, hi) =>
    if hi + 1 ≤ blk.base then
      put_block_start (encode_ric (e.max_capacity / 32) (hi + 1)) false (blk.base - (hi + 1))
    else put_block_start (encode_ric (e.max_capacity / 32) (hi + 1)) true (hi + 1 - blk.base - 1)

/-- Modelled from the spec: the effect of a decoder-stream instruction on the encoder: a header
acknowledgement retires the oldest unacknowledged block of the stream, a stream cancellation
retires all blocks of the stream, an insert count increment raises the number of insertions
the decoder is known to have processed.  None of them changes the table. -/
def apply_dec_instr (e : QEnc) : DecInstr → Option QEnc
  | DecInstr.header_ack stream_id =>
    match find_index (fun o : Nat × Nat => decide (o.1 = stream_id)) e.outstanding with
    | none => none
    | some i => some { e with outstanding := e.outstanding.eraseIdx i }
  | DecInstr.stream_cancel stream_id =>
    some { e with outstanding := e.outstanding.filter fun o => !decide (o.1 = stream_id) }
  | DecInstr.insert_count_increment increment =>
    if increment = 0 ∨ e.table.inserted_count < e.known_received + increment then none
    else some { e with known_received := e.known_received + increment }

/-- Modelled from the spec: the decoder-stream instructions applied in order. -/
def apply_dec_instrs : QEnc → List DecInstr → Option QEnc
  | e, [] => some e
  | e, instr :: rest =>
    match apply_dec_instr e instr with
    | none => none
    | some e1 => apply_dec_instrs e1 rest

/-- Modelled from the spec: a blocked header block as the tracker of section 4.5 holds it: the
handle and the stream id, the required insert count and the base of the block, and whether
it was reported as unblocked. -/
structure QCtx where
  handle : Nat
  stream_id : Nat
  ric : Nat
  base : Nat
  notified : Bool
  deriving DecidableEq, Repr

/-- Modelled from the spec: the state of the decoder: the negotiated settings, the dynamic table
and the blocked header blocks in the order in which they were registered. -/
structure QDec where
  max_capacity : Nat
  max_blocked : Nat
  table : DynTable
  blocked : List QCtx
  deriving DecidableEq, Repr

/-- Modelled from the spec: the header a field representation stands for (section 4.4): relative
indices count backward from the base, post-base indices forward from it; a reference that the
table does not resolve fails. -/
def resolve_line (static : List (Bytes × Bytes)) (t : DynTable) (base : Nat) :
    FieldLine → Option (Bytes × Bytes)
  | FieldLine.indexed_static index => static[index]?
  | FieldLine.indexed_dynamic relative =>
    if base ≤ relative then none else t.lookup (base - 1 - relative)
  | FieldLine.indexed_post_base index => t.lookup (base + index)
  | FieldLine.literal_name_ref true index value =>
    match static[index]? with
    | none => none
    | some entry => some (entry.1, value)
  | FieldLine.literal_name_ref false relative value =>
    if base ≤ relative then none
    else
      match t.lookup (base - 1 - relative) with
      | none => none
      | some entry => some (entry.1, value)
  | FieldLine.literal_post_base_name_ref index value =>
    match t.lookup (base + index) with
    | none => none
    | some entry => some (entry.1, value)
  | FieldLine.literal name value => some (name, value)

/-- Modelled from the spec: the headers of the field representations of a block, in encounter
order. -/
def resolve_lines (static : List (Bytes × Bytes)) (t : DynTable) (base : Nat) :
    List FieldLine → Option (List (Bytes × Bytes))
  | [] => some []
  | line :: rest =>
    match resolve_line static t base line, resolve_lines static t base rest with
    | some header, some more => some (header :: more)
    | _, _ => none

/-- Modelled from the spec: the decoding of the field representations of a block whose required
insert count is reached: the headers in encounter order and a header acknowledgement as
control bytes; malformed bytes and unresolved references fail. -/
def read_lines (static : List (Bytes × Bytes)) (d : QDec) (stream_id consumed base : Nat)
    (data : Bytes) : ReadOut QDec :=
  match get_lines data.length data with
  | none => { status := LQRHS_ERROR, consumed := consumed, processed := [], dec_out := [],
              dec := d }
  | some lines =>
    match resolve_lines static d.table base lines with
    | none => { status := LQRHS_ERROR, consumed := consumed, processed := [], dec_out := [],
                dec := d }
    | some headers =>
      { status := LQRHS_DONE, consumed := consumed + data.length, processed := headers,
        dec_out := put_dec_instr (DecInstr.header_ack stream_id), dec := d }

/-- Modelled from the spec: feed_header of section 4.4 on the bytes of a whole block: the prefix
is parsed; a block whose required insert count is above the insert count of the table is
registered as blocked, within the limit of blocked streams; otherwise the field
representations are decoded. -/
def qpack_header_in (static : List (Bytes × Bytes)) (d : QDec) (handle stream_id : Nat)
    (data : Bytes) : ReadOut QDec :=
  match get_block_start data with
  | none => { status := LQRHS_ERROR, consumed := 0, processed := [], dec_out := [], dec := d }
  | some (enc_ric, sign, delta, rest) =>
    match decode_ric (d.max_capacity / 32) d.table.inserted_count enc_ric with
    | none => { status := LQRHS_ERROR, consumed := 0, processed := [], dec_out := [], dec := d }
    | some ric =>
      match decode_base ric sign delta with
      | none =>
        { status := LQRHS_ERROR, consumed := 0, processed := [], dec_out := [], dec := d }
      | some base =>
        if d.table.inserted_count < ric then
          if d.max_blocked ≤ d.blocked.length then
            { status := LQRHS_ERROR, consumed := 0, processed := [], dec_out := [], dec := d }
          else
            { status := LQRHS_BLOCKED, consumed := data.length - rest.length, processed := [],
              dec_out := [],
              dec := { d with blocked := d.blocked ++
                [{ handle := handle, stream_id := stream_id, ric := ric, base := base,
                   notified := false }] } }
        else read_lines static d stream_id (data.length - rest.length) base rest

/-- Modelled from the spec: resume_header of section 4.4 on the bytes after the prefix of a
registered block: still blocked while the insert count is below the required one, decoded and
removed from tracking otherwise. -/
def qpack_header_read (static : List (Bytes × Bytes)) (d : QDec) (handle : Nat) (data : Bytes) :
    ReadOut QDec :=
  match d.blocked.find? fun c => decide (c.handle = handle) with
  | none => { status := LQRHS_ERROR, consumed := 0, processed := [], dec_out := [], dec := d }
  | some ctx =>
    if d.table.inserted_count < ctx.ric then
      { status := LQRHS_BLOCKED, consumed := 0, processed := [], dec_out := [], dec := d }
    else
      read_lines static
        { d with blocked := d.blocked.filter fun c => !decide (c.handle = handle) }
        ctx.stream_id 0 ctx.base data

/-- Modelled from the spec: feed_encoder (sections 4.2 and 4.5): the instructions are applied to
the table; the blocked blocks whose required insert count is now reached are reported, once,
in the order in which they were registered.  Malformed bytes and failing instructions are
stream corruption. -/
def qpack_enc_in (static : List (Bytes × Bytes)) (d : QDec) (data : Bytes) :
    Int × List Nat × QDec :=
  match get_instrs data.length data with
  | none => (-1, [], d)
  | some instrs =>
    match apply_instrs static d.max_capacity d.table instrs with
    | none => (-1, [], d)
    | some t =>
      (0,
       (d.blocked.filter fun c => !c.notified && decide (c.ric ≤ t.inserted_count)).map
         QCtx.handle,
       { d with table := t,
                blocked := d.blocked.map fun c =>
                  if c.ric ≤ t.inserted_count then { c with notified := true } else c })

/-- Modelled from the spec: the codec of the spec behind the calls the binding makes.  The
encode operation of section 4.3 is split along the three calls: the start of a block (which
fails before the capacity was applied), one call per field, which fails without effect when
the bytes do not fit the room given, and the end of the block, which returns the prefix.  The
settings are C unsigned values.  The initial capacity of both tables is the negotiated
maximum. -/
def qpack_codec (static : List (Bytes × Bytes)) : Lsqpack QEnc QDec where
  enc_preinit :=
    { ready := false, max_capacity := 0, max_blocked := 0,
      table := { entries := [], dropped := 0, capacity := 0 }, cur := none, outstanding := [],
      known_received := 0 }
  enc_init := fun e max_table_size dyn_table_size max_risked_streams =>
    if e.ready || decide (max_table_size % 2 ^ 32 < dyn_table_size % 2 ^ 32) then (-1, [], e)
    else
      (0, put_instr (EncInstr.set_capacity (dyn_table_size % 2 ^ 32)),
       { ready := true, max_capacity := max_table_size % 2 ^ 32,
         max_blocked := max_risked_streams % 2 ^ 32,
         table := { entries := [], dropped := 0, capacity := dyn_table_size % 2 ^ 32 },
         cur := none, outstanding := [], known_received := 0 })
  enc_start_header := fun e stream_id _ =>
    if !e.ready || e.cur.isSome then (-1, e)
    else
      (0, { e with cur := some { stream_id := stream_id, base := e.table.inserted_count,
                                 refs := none } })
  enc_encode := fun e enc_room hdr_room name value =>
    match e.cur with
    | none => (LQES_NOBUF_HEAD, [], [], e)
    | some blk =>
      if enc_room < ((encode_field static e blk (name, value)).instrs.map put_instr).flatten.length
      then (LQES_NOBUF_ENC, [], [], e)
      else if hdr_room < (put_line (encode_field static e blk (name, value)).line).length
      then (LQES_NOBUF_HEAD, [], [], e)
      else
        (LQES_OK, ((encode_field static e blk (name, value)).instrs.map put_instr).flatten,
         put_line (encode_field static e blk (name, value)).line,
         { e with table := (encode_field static e blk (name, value)).table,
                  cur := some { blk with refs := (encode_field static e blk (name, value)).refs } })
  enc_end_header := fun e buf_sz =>
    match e.cur with
    | none => (-1, [], e)
    | some blk =>
      if buf_sz < (block_start_bytes e blk).length then (0, [], e)
      else
        ((block_start_bytes e blk).length, block_start_bytes e blk,
         { e with cur := none,
                  outstanding :=
                    match blk.refs with
                    | none => e.outstanding
                    | some (lo, _) => e.outstanding ++ [(blk.stream_id, lo)] })
  enc_decoder_in := fun e data =>
    match get_dec_instrs data.length data with
    | none => (-1, e)
    | some instrs =>
      match apply_dec_instrs e instrs with
      | none => (-1, e)
      | some e1 => (0, e1)
  dec_init := fun dyn_table_size max_risked_streams =>
    { max_capacity := dyn_table_size % 2 ^ 32, max_blocked := max_risked_streams % 2 ^ 32,
      table := { entries := [], dropped := 0, capacity := dyn_table_size % 2 ^ 32 },
      blocked := [] }
  dec_enc_in := fun d data => qpack_enc_in static d data
  dec_header_in := fun d handle stream_id _ data => qpack_header_in static d handle stream_id data
  dec_header_read := fun d handle data => qpack_header_read static d handle data

/-- A static table for the runs on concrete inputs: the first entries of the protocol's
table, (:authority, empty), (:path, /) and (age, 0), as bytes. -/
def sample_static : List (Bytes × Bytes) :=
  [([58, 97, 117, 116, 104, 111, 114, 105, 116, 121], []), ([58, 112, 97, 116, 104], [47]),
   ([97, 103, 101], [48])]

/-- Six header fields for the runs on concrete inputs: an entry of the static table, a pair, a
pair of empty strings, the first pair again, the name of the first pair with another value,
and a name of the static table with another value. -/
def sample_fields : List (Bytes × Bytes) :=
  [([58, 112, 97, 116, 104], [47]), ([97], [98]), ([], []), ([97], [98]), ([97], [99]),
   ([97, 103, 101], [55])]

/-- The integers and the string lengths of an encoder-stream instruction are in the numeric
range of the wire format. -/
def instr_ok : EncInstr → Prop
  | EncInstr.set_capacity capacity => capacity < QPACK_INT_MAX
  | EncInstr.insert_name_ref _ index value =>
    index < QPACK_INT_MAX ∧ value.length < QPACK_INT_MAX
  | EncInstr.insert_literal name value =>
    name.length < QPACK_INT_MAX ∧ value.length < QPACK_INT_MAX
  | EncInstr.duplicate index => index < QPACK_INT_MAX

/-- The integers and the string lengths of a field representation are in the numeric range of
the wire format. -/
def line_ok : FieldLine → Prop
  | FieldLine.indexed_static index => index < QPACK_INT_MAX
  | FieldLine.indexed_dynamic relative => relative < QPACK_INT_MAX
  | FieldLine.indexed_post_base index => index < QPACK_INT_MAX
  | FieldLine.literal_name_ref _ index value =>
    index < QPACK_INT_MAX ∧ value.length < QPACK_INT_MAX
  | FieldLine.literal_post_base_name_ref index value =>
    index < QPACK_INT_MAX ∧ value.length < QPACK_INT_MAX
  | FieldLine.literal name value => name.length < QPACK_INT_MAX ∧ value.length < QPACK_INT_MAX

/-- The references of a block are to live entries of the table: the lowest is not evicted and
the highest is inserted. -/
def refs_live (t : DynTable) (refs : Option (Nat × Nat)) : Prop :=
  ∀ lo hi, refs = some (lo, hi) → t.dropped ≤ lo ∧ lo ≤ hi ∧ hi < t.inserted_count

/-- Table t1 has the entries of table t from the lowest reference of a block on. -/
def keeps_refs (refs : Option (Nat × Nat)) (t t1 : DynTable) : Prop :=
  ∀ lo hi, refs = some (lo, hi) → ∀ i, lo ≤ i → i < t.inserted_count → t1.lookup i = t.lookup i

/-- The decoder is in step with the encoder: it has the same dynamic table and the same
negotiated maximum, as after the same settings and after every encoder-stream byte the encoder
produced so far; the table is within its capacity, the capacity within the maximum, the
maximum a C unsigned value and the insert count in the numeric range of the wire format. -/
def qpack_in_sync (e : QEnc) (d : QDec) : Prop :=
  d.table = e.table ∧ d.max_capacity = e.max_capacity ∧ e.max_capacity < 2 ^ 32 ∧
    used_size e.table.entries ≤ e.table.capacity ∧ e.table.capacity ≤ e.max_capacity ∧
    e.table.inserted_count < QPACK_INT_MAX

/-- One round of use of an encoder and a decoder: encode of a header list on a stream.  When
encode succeeds, the returned encoder-stream bytes are given to feed_encoder of the decoder and
the returned header block to its feed_header; when the block is decoded and acked is set, the
control bytes are given to feed_decoder of the encoder.  When encode raises, the decoder is
given nothing.  A round is the stream id, the header list and acked. -/
def use_round {E D : Type} (q : Lsqpack E D) (p : EncoderObject E × DecoderObject D)
    (r : Nat × List (Bytes × Bytes) × Bool) : EncoderObject E × DecoderObject D :=
  match Encoder_encode q p.1 r.1 (headers_arg r.2.1) with
  | (EncoderResult.encoded es hb, self1) =>
    match Decoder_feed_header q (Decoder_feed_encoder q p.2 es).2 r.1 hb with
    | (DecoderResult.decoded control _, dself1) =>
      if r.2.2 then ((Encoder_feed_decoder q self1 control).2, dself1) else (self1, dself1)
    | (_, dself1) => (self1, dself1)
  | (_, self1) => (self1, p.2)

/-- The encoder and the decoder after a sequence of rounds. -/
def use_rounds {E D : Type} (q : Lsqpack E D) (p : EncoderObject E × DecoderObject D)
    (rounds : List (Nat × List (Bytes × Bytes) × Bool)) :
    EncoderObject E × DecoderObject D :=
  rounds.foldl (use_round q) p

/-- The encoder set up by apply_settings and the decoder created with the same two
settings. -/
def fresh_pair {E D : Type} (q : Lsqpack E D) (max_table_capacity blocked_streams : Nat) :
    EncoderObject E × DecoderObject D :=
  ((Encoder_apply_settings q (Encoder_init q) max_table_capacity blocked_streams).2,
   Decoder_init q max_table_capacity blocked_streams)

/-! ## Lemmas on the queue of pending blocks -/

theorem find_block_eq_none_iff (s : Nat) (l : List header_block) :
    find_block s l = none ↔ ∀ b ∈ l, b.stream_id ≠ s := by
  induction l with
  | nil => simp [find_block]
  | cons b rest ih =>
    by_cases hb : b.stream_id = s
    · simp [find_block, hb]
    · simp [find_block, hb, ih]

theorem find_block_some {s : Nat} {l : List header_block} {b : header_block}
    (h : find_block s l = some b) : b ∈ l ∧ b.stream_id = s := by
  induction l with
  | nil => simp [find_block] at h
  | cons c rest ih =>
    by_cases hc : c.stream_id = s
    · simp [find_block, hc] at h
      subst h
      exact ⟨List.mem_cons_self _ _, hc⟩
    · simp [find_block, hc] at h
      exact ⟨List.mem_cons_of_mem _ (ih h).1, (ih h).2⟩

theorem find_block_isSome_of_mem {s : Nat} {l : List header_block} {b : header_block}
    (hb : b ∈ l) (hs : b.stream_id = s) : ∃ c, find_block s l = some c := by
  cases h : find_block s l with
  | none => exact absurd hs ((find_block_eq_none_iff s l).1 h b hb)
  | some c => exact ⟨c, rfl⟩

theorem map_id_update_block (s : Nat) (f : header_block → header_block)
    (hf : ∀ b, (f b).stream_id = b.stream_id) (l : List header_block) :
    (update_block s f l).map header_block.stream_id = l.map header_block.stream_id := by
  induction l with
  | nil => rfl
  | cons b rest ih =>
    by_cases hb : b.stream_id = s
    · simp [update_block, hb, hf]
    · simp [update_block, hb, ih]

theorem map_id_remove_block (s : Nat) (l : List header_block) :
    (remove_block s l).map header_block.stream_id = (l.map header_block.stream_id).erase s := by
  induction l with
  | nil => rfl
  | cons b rest ih =>
    by_cases hb : b.stream_id = s
    · simp [remove_block, hb]
    · simp [remove_block, hb, ih, List.erase_cons_tail]

theorem map_id_apply_unblocked (handles : List Nat) (l : List header_block) :
    (apply_unblocked handles l).map header_block.stream_id = l.map header_block.stream_id := by
  induction l with
  | nil => rfl
  | cons b rest ih =>
    simp only [apply_unblocked, List.map_cons, List.map_map] at ih ⊢
    rw [ih]
    by_cases hb : b.stream_id ∈ handles <;> simp [hb, header_block_unblocked]

theorem stream_id_after_read {D : Type} (b : header_block) (r : ReadOut D) :
    (header_block_after_read b r).stream_id = b.stream_id := by
  have key : ∀ (l : List (Bytes × Bytes)) (c : header_block),
      (l.foldl header_block_process_header c).stream_id = c.stream_id := by
    intro l
    induction l with
    | nil => intro c; rfl
    | cons x rest ih => intro c; simp [List.foldl, ih, header_block_process_header]
  simp [header_block_after_read, key]

/-! ## The branches of the decoder methods -/

theorem Decoder_feed_header_cases {E D : Type} (q : Lsqpack E D) (self : DecoderObject D)
    (s : Nat) (data : Bytes) :
    (∃ b, find_block s self.pending_blocks = some b ∧
        Decoder_feed_header q self s data = (DecoderResult.ValueError, self)) ∨
    (find_block s self.pending_blocks = none ∧
      (((feed_header_read q self s data).status = LQRHS_BLOCKED ∨
          (feed_header_read q self s data).status = LQRHS_NEED) ∧
        Decoder_feed_header q self s data = (DecoderResult.StreamBlocked,
          { dec := (feed_header_read q self s data).dec,
            pending_blocks := self.pending_blocks ++
              [{ header_block_after_read (header_block_new s data) (feed_header_read q self s data)
                  with blocked := true }] }) ∨
       (feed_header_read q self s data).status = LQRHS_DONE ∧
        Decoder_feed_header q self s data =
          (DecoderResult.decoded (feed_header_read q self s data).dec_out
            (header_block_after_read (header_block_new s data)
              (feed_header_read q self s data)).headers,
           { dec := (feed_header_read q self s data).dec,
             pending_blocks := self.pending_blocks }) ∨
       (feed_header_read q self s data).status = LQRHS_ERROR ∧
        Decoder_feed_header q self s data = (DecoderResult.DecompressionFailed,
          { dec := (feed_header_read q self s data).dec,
            pending_blocks := self.pending_blocks }))) := by
  cases hf : find_block s self.pending_blocks with
  | some b => left; exact ⟨b, rfl, by simp [Decoder_feed_header, hf]⟩
  | none =>
    right
    refine ⟨rfl, ?_⟩
    have hr : q.dec_header_in self.dec s s (header_block_new s data).data.length
        ((header_block_new s data).data.drop (header_block_new s data).data_ptr)
        = feed_header_read q self s data := by
      simp [feed_header_read, header_block_new]
    cases hst : (feed_header_read q self s data).status <;>
      simp [Decoder_feed_header, hf, hr, hst]


theorem update_block_of_find {s : Nat} {l : List header_block} {b : header_block}
    (f : header_block → header_block) (h : find_block s l = some b) (hf : f b = b) :
    update_block s f l = l := by
  induction l with
  | nil => rfl
  | cons c rest ih =>
    by_cases hc : c.stream_id = s
    · simp [find_block, hc] at h
      subst h
      simp [update_block, hc, hf]
    · simp [find_block, hc] at h
      simp [update_block, hc, ih h]

theorem update_block_update_block (s : Nat) (f g : header_block → header_block)
    (hf : ∀ b, (f b).stream_id = b.stream_id) (l : List header_block) :
    update_block s g (update_block s f l) = update_block s (fun b => g (f b)) l := by
  induction l with
  | nil => rfl
  | cons c rest ih =>
    by_cases hc : c.stream_id = s
    · simp [update_block, hc, hf]
    · simp [update_block, hc, ih]

theorem remove_block_update_block (s : Nat) (f : header_block → header_block)
    (hf : ∀ b, (f b).stream_id = b.stream_id) (l : List header_block) :
    remove_block s (update_block s f l) = remove_block s l := by
  induction l with
  | nil => rfl
  | cons c rest ih =>
    by_cases hc : c.stream_id = s
    · simp [update_block, remove_block, hc, hf]
    · simp [update_block, remove_block, hc, ih]

theorem Decoder_resume_header_cases {E D : Type} (q : Lsqpack E D) (self : DecoderObject D)
    (s : Nat) :
    (find_block s self.pending_blocks = none ∧
        Decoder_resume_header q self s = (DecoderResult.ValueError, self)) ∨
    (∃ b, find_block s self.pending_blocks = some b ∧
      (b.blocked = true ∧ Decoder_resume_header q self s = (DecoderResult.StreamBlocked, self) ∨
       b.blocked = false ∧
        (((resume_header_read q self s b).status = LQRHS_BLOCKED ∨
            (resume_header_read q self s b).status = LQRHS_NEED) ∧
          Decoder_resume_header q self s = (DecoderResult.StreamBlocked,
            { dec := (resume_header_read q self s b).dec,
              pending_blocks := update_block s
                (fun c => set_blocked (header_block_after_read c (resume_header_read q self s b)))
                self.pending_blocks }) ∨
         (resume_header_read q self s b).status = LQRHS_DONE ∧
          Decoder_resume_header q self s =
            (DecoderResult.decoded (resume_header_read q self s b).dec_out
              (header_block_after_read b (resume_header_read q self s b)).headers,
             { dec := (resume_header_read q self s b).dec,
               pending_blocks := remove_block s self.pending_blocks }) ∨
         (resume_header_read q self s b).status = LQRHS_ERROR ∧
          Decoder_resume_header q self s = (DecoderResult.DecompressionFailed,
            { dec := (resume_header_read q self s b).dec,
              pending_blocks := remove_block s self.pending_blocks })))) := by
  cases hf : find_block s self.pending_blocks with
  | none => left; exact ⟨rfl, by simp [Decoder_resume_header, hf]⟩
  | some b =>
    right
    refine ⟨b, rfl, ?_⟩
    cases hb : b.blocked with
    | true =>
      left
      refine ⟨rfl, ?_⟩
      have hu : update_block s (fun c => { c with blocked := true }) self.pending_blocks
          = self.pending_blocks :=
        update_block_of_find _ hf (by cases b; simp_all)
      simp [Decoder_resume_header, hf, hb, hu]
    | false =>
      right
      refine ⟨rfl, ?_⟩
      have hr : q.dec_header_read self.dec s (b.data.drop b.data_ptr)
          = resume_header_read q self s b := rfl
      have hsid : ∀ c : header_block,
          (header_block_after_read c (resume_header_read q self s b)).stream_id = c.stream_id :=
        fun c => stream_id_after_read c _
      cases hst : (resume_header_read q self s b).status <;>
        simp [Decoder_resume_header, hf, hb, hr, hst, update_block_update_block _ _ _ hsid,
          remove_block_update_block _ _ hsid, set_blocked]

/-! ## The queue ids across the decoder methods -/

theorem pending_ids_feed_encoder {E D : Type} (q : Lsqpack E D) (self : DecoderObject D)
    (data : Bytes) : pending_ids (Decoder_feed_encoder q self data).2 = pending_ids self := by
  rcases hq : q.dec_enc_in self.dec data with ⟨rc, handles, dec⟩
  by_cases hrc : rc < 0 <;>
    simp [Decoder_feed_encoder, hq, hrc, pending_ids, map_id_apply_unblocked]

theorem pending_ids_feed_header {E D : Type} (q : Lsqpack E D) (self : DecoderObject D)
    (s : Nat) (data : Bytes) :
    pending_ids (Decoder_feed_header q self s data).2 =
      if (Decoder_feed_header q self s data).1 = DecoderResult.StreamBlocked
      then pending_ids self ++ [s] else pending_ids self := by
  rcases Decoder_feed_header_cases q self s data with ⟨b, _, h⟩ | ⟨_, ⟨_, h⟩ | ⟨_, h⟩ | ⟨_, h⟩⟩ <;>
    simp [h, pending_ids, stream_id_after_read, header_block_new]

theorem pending_ids_resume_header {E D : Type} (q : Lsqpack E D) (self : DecoderObject D)
    (s : Nat) :
    pending_ids (Decoder_resume_header q self s).2 =
      if (Decoder_resume_header q self s).1.terminal = true
      then (pending_ids self).erase s else pending_ids self := by
  rcases Decoder_resume_header_cases q self s with
    ⟨_, h⟩ | ⟨b, _, ⟨_, h⟩ | ⟨_, ⟨_, h⟩ | ⟨_, h⟩ | ⟨_, h⟩⟩⟩ <;>
    simp [h, pending_ids, DecoderResult.terminal, map_id_remove_block]
  exact map_id_update_block _ _ (fun c => by simp [set_blocked, stream_id_after_read]) _

theorem find_block_none_iff_not_mem {D : Type} (self : DecoderObject D) (s : Nat) :
    find_block s self.pending_blocks = none ↔ s ∉ pending_ids self := by
  rw [find_block_eq_none_iff]
  simp only [pending_ids, List.mem_map, not_exists, not_and]

theorem feed_header_blocked_not_mem {E D : Type} (q : Lsqpack E D) (self : DecoderObject D)
    (s : Nat) (data : Bytes)
    (h : (Decoder_feed_header q self s data).1 = DecoderResult.StreamBlocked) :
    s ∉ pending_ids self := by
  rcases Decoder_feed_header_cases q self s data with ⟨b, _, h1⟩ | ⟨hn, _⟩
  · rw [h1] at h; exact absurd h (by simp)
  · exact (find_block_none_iff_not_mem self s).1 hn

theorem nodup_pending_ids_call {E D : Type} (q : Lsqpack E D) (self : DecoderObject D)
    (call : DecoderCall) (h : (pending_ids self).Nodup) :
    (pending_ids (Decoder_call q self call).2).Nodup := by
  cases call with
  | feed_encoder data => simpa [Decoder_call, pending_ids_feed_encoder] using h
  | feed_header s data =>
    simp only [Decoder_call, pending_ids_feed_header]
    split
    · next hb =>
      have hs := feed_header_blocked_not_mem q self s data hb
      exact List.Nodup.append h (List.nodup_singleton s) (by simpa using hs)
    · exact h
  | resume_header s =>
    simp only [Decoder_call, pending_ids_resume_header]
    split
    · exact h.erase s
    · exact h

theorem nodup_pending_ids_run {E D : Type} (q : Lsqpack E D) (calls : List DecoderCall) :
    ∀ self : DecoderObject D, (pending_ids self).Nodup →
      (pending_ids (Decoder_run q self calls)).Nodup := by
  induction calls with
  | nil => intro self h; exact h
  | cons call rest ih =>
    intro self h
    exact ih _ (nodup_pending_ids_call q self call h)

theorem feed_encoder_ids {E D : Type} (q : Lsqpack E D) (self : DecoderObject D) (data : Bytes)
    (ids : List Nat) (self1 : DecoderObject D)
    (h : Decoder_feed_encoder q self data = (DecoderResult.unblocked ids, self1)) :
    self1.pending_blocks = apply_unblocked (q.dec_enc_in self.dec data).2.1 self.pending_blocks ∧
    ids = (self1.pending_blocks.filter fun b => !b.blocked).map header_block.stream_id := by
  rcases hq : q.dec_enc_in self.dec data with ⟨rc, handles, dec⟩
  by_cases hrc : rc < 0
  · simp [Decoder_feed_encoder, hq, hrc] at h
  · simp only [Decoder_feed_encoder, hq, hrc, if_false, Prod.mk.injEq,
      DecoderResult.unblocked.injEq] at h
    obtain ⟨h1, h2⟩ := h
    subst h2
    exact ⟨rfl, h1.symm⟩

theorem eq_of_mem_of_stream_id_eq {l : List header_block}
    (hl : (l.map header_block.stream_id).Nodup) {a b : header_block} (ha : a ∈ l) (hb : b ∈ l)
    (h : a.stream_id = b.stream_id) : a = b :=
  List.inj_on_of_nodup_map hl ha hb h

theorem mem_update_block {s : Nat} {f : header_block → header_block} {l : List header_block}
    (hl : (l.map header_block.stream_id).Nodup) {c : header_block}
    (hc : c ∈ update_block s f l) (hs : c.stream_id = s) : ∃ b ∈ l, c = f b := by
  induction l with
  | nil => simp [update_block] at hc
  | cons d rest ih =>
    rw [List.map_cons, List.nodup_cons] at hl
    by_cases hd : d.stream_id = s
    · simp only [update_block, hd, if_true, List.mem_cons] at hc
      rcases hc with hc | hc
      · exact ⟨d, List.mem_cons_self _ _, hc⟩
      · exact absurd (List.mem_map_of_mem header_block.stream_id hc) (by rw [hs, ← hd]; exact hl.1)
    · simp only [update_block, hd, if_false, List.mem_cons] at hc
      rcases hc with hc | hc
      · exact absurd (hc ▸ hs) hd
      · obtain ⟨b, hb, hcb⟩ := ih hl.2 hc
        exact ⟨b, List.mem_cons_of_mem _ hb, hcb⟩

theorem nodup_pending_ids_reachable {E D : Type} (q : Lsqpack E D)
    (max_table_capacity blocked_streams : Nat) (calls : List DecoderCall) :
    (pending_ids (Decoder_run q (Decoder_init q max_table_capacity blocked_streams) calls)).Nodup :=
  nodup_pending_ids_run q calls _ (by simp [pending_ids, Decoder_init])

theorem feed_header_not_duplicate {E D : Type} (q : Lsqpack E D) (self : DecoderObject D)
    (s : Nat) (data : Bytes) (h : ∀ b ∈ self.pending_blocks, b.stream_id ≠ s) :
    (Decoder_feed_header q self s data).1 ≠ DecoderResult.ValueError := by
  have hn := (find_block_eq_none_iff s self.pending_blocks).2 h
  rcases Decoder_feed_header_cases q self s data with
    ⟨b, hb, _⟩ | ⟨_, ⟨_, h1⟩ | ⟨_, h1⟩ | ⟨_, h1⟩⟩
  · rw [hn] at hb; exact absurd hb (by simp)
  all_goals rw [h1]; simp

theorem not_mem_remove_block {l : List header_block} (hl : (l.map header_block.stream_id).Nodup)
    (s : Nat) : ∀ b ∈ remove_block s l, b.stream_id ≠ s := by
  intro b hb hs
  have hm : s ∈ (remove_block s l).map header_block.stream_id :=
    List.mem_map.2 ⟨b, hb, hs⟩
  rw [map_id_remove_block] at hm
  exact absurd hm (by rw [hl.mem_erase_iff]; simp)

theorem state_machine_of_nodup {E D : Type} (q : Lsqpack E D) (self : DecoderObject D)
    (hnd : (pending_ids self).Nodup) (s : Nat) (call : DecoderCall)
    (hcall : (∃ data, call = DecoderCall.feed_header s data) ∨ call = DecoderCall.resume_header s) :
    ((Decoder_call q self call).1.terminal = true →
      (∀ b ∈ (Decoder_call q self call).2.pending_blocks, b.stream_id ≠ s) ∧
      ∀ data, (Decoder_feed_header q (Decoder_call q self call).2 s data).1
        ≠ DecoderResult.ValueError) ∧
    ((Decoder_call q self call).1 = DecoderResult.StreamBlocked →
      (pending_ids (Decoder_call q self call).2).count s = 1 ∧
      ∀ b ∈ (Decoder_call q self call).2.pending_blocks, b.stream_id = s → b.blocked = true) := by
  have term : ∀ self1 : DecoderObject D, (∀ b ∈ self1.pending_blocks, b.stream_id ≠ s) →
      (∀ b ∈ self1.pending_blocks, b.stream_id ≠ s) ∧
      ∀ data, (Decoder_feed_header q self1 s data).1 ≠ DecoderResult.ValueError :=
    fun self1 h => ⟨h, fun data => feed_header_not_duplicate q self1 s data h⟩
  rcases hcall with ⟨data, rfl⟩ | rfl
  · simp only [Decoder_call]
    rcases Decoder_feed_header_cases q self s data with
      ⟨b, hb, h1⟩ | ⟨hn, ⟨_, h1⟩ | ⟨_, h1⟩ | ⟨_, h1⟩⟩
    · rw [h1]; simp [DecoderResult.terminal]
    · have hnot := (find_block_eq_none_iff s self.pending_blocks).1 hn
      have hcount : (pending_ids self).count s = 0 :=
        List.count_eq_zero.2 ((find_block_none_iff_not_mem self s).1 hn)
      rw [h1]
      refine ⟨by simp [DecoderResult.terminal], fun _ => ⟨?_, ?_⟩⟩
      · simp only [pending_ids] at hcount
        simp [pending_ids, stream_id_after_read, header_block_new, hcount]
      · intro b hb hs
        simp only [List.mem_append, List.mem_singleton] at hb
        rcases hb with hb | hb
        · exact absurd hs (hnot b hb)
        · rw [hb]
    · rw [h1]
      exact ⟨fun _ => term _ ((find_block_eq_none_iff s self.pending_blocks).1 hn), by simp⟩
    · rw [h1]
      exact ⟨fun _ => term _ ((find_block_eq_none_iff s self.pending_blocks).1 hn), by simp⟩
  · simp only [Decoder_call]
    have hrem := not_mem_remove_block hnd s
    rcases Decoder_resume_header_cases q self s with
      ⟨_, h1⟩ | ⟨b, hf, ⟨hbl, h1⟩ | ⟨_, ⟨_, h1⟩ | ⟨_, h1⟩ | ⟨_, h1⟩⟩⟩
    · rw [h1]; simp [DecoderResult.terminal]
    · obtain ⟨hbm, hbs⟩ := find_block_some hf
      rw [h1]
      refine ⟨by simp [DecoderResult.terminal], fun _ => ⟨?_, ?_⟩⟩
      · exact List.count_eq_one_of_mem hnd (hbs ▸ List.mem_map_of_mem header_block.stream_id hbm)
      · intro c hc hs
        have : c = b := eq_of_mem_of_stream_id_eq hnd hc hbm (hs.trans hbs.symm)
        rw [this]; exact hbl
    · obtain ⟨hbm, hbs⟩ := find_block_some hf
      have hsid : ∀ c : header_block,
          (set_blocked (header_block_after_read c (resume_header_read q self s b))).stream_id
            = c.stream_id := fun c => by simp [set_blocked, stream_id_after_read]
      rw [h1]
      refine ⟨by simp [DecoderResult.terminal], fun _ => ⟨?_, ?_⟩⟩
      · simp only [pending_ids, map_id_update_block _ _ hsid]
        exact List.count_eq_one_of_mem hnd (hbs ▸ List.mem_map_of_mem header_block.stream_id hbm)
      · intro c hc hs
        obtain ⟨d, _, hcd⟩ := mem_update_block hnd hc hs
        rw [hcd]; rfl
    · rw [h1]
      exact ⟨fun _ => term _ hrem, by simp⟩
    · rw [h1]
      exact ⟨fun _ => term _ hrem, by simp⟩

/-! ## Working buffers -/

theorem length_buf_read (buf : Buffer) (off len : Nat) : (buf_read buf off len).length = len := by
  simp [buf_read]

theorem buf_read_zero (buf : Buffer) (off : Nat) : buf_read buf off 0 = [] := by
  simp [buf_read]

theorem buf_read_add (buf : Buffer) (off a b : Nat) :
    buf_read buf off (a + b) = buf_read buf off a ++ buf_read buf (off + a) b := by
  simp only [buf_read, List.range_add, List.map_append, List.map_map]
  congr 1
  apply List.map_congr_left
  intro i _
  simp [Nat.add_assoc]

theorem buf_read_write_same (buf : Buffer) (off : Nat) (src : Bytes) :
    buf_read (buf_write buf off src) off src.length = src := by
  apply List.ext_getElem
  · simp [buf_read]
  · intro i h1 h2
    simp only [buf_read, List.getElem_map, List.getElem_range, buf_write]
    have hi : i < src.length := h2
    simp [hi, List.getD_eq_getElem]

theorem buf_read_write_disjoint (buf : Buffer) (off : Nat) (src : Bytes) (off2 len : Nat)
    (h : off2 + len ≤ off ∨ off + src.length ≤ off2) :
    buf_read (buf_write buf off src) off2 len = buf_read buf off2 len := by
  simp only [buf_read]
  apply List.map_congr_left
  intro i hi
  have hi2 : i < len := List.mem_range.1 hi
  simp only [buf_write]
  rw [if_neg]
  omega

theorem size_sub_of_le {a b : Nat} (hb : b ≤ a) (ha : a < SIZE_MOD) : size_sub a b = a - b := by
  have hb2 : b < SIZE_MOD := lt_of_le_of_lt hb ha
  unfold size_sub
  rw [Nat.mod_eq_of_lt ha, Nat.mod_eq_of_lt hb2]
  have : a + SIZE_MOD - b = (a - b) + SIZE_MOD := by omega
  rw [this, Nat.add_mod_right, Nat.mod_eq_of_lt (by omega)]

theorem size_add_of_lt {a b : Nat} (h : a + b < SIZE_MOD) : size_add a b = a + b := by
  unfold size_add
  exact Nat.mod_eq_of_lt h

theorem xhdr_copy_eq_some (xhdr_buf : Buffer) (name value : Bytes)
    (h : name.length + value.length ≤ XHDR_BUF_SZ) :
    xhdr_copy xhdr_buf name value
      = some (buf_write (buf_write xhdr_buf 0 name) name.length value) := by
  have h1 : name.length ≤ XHDR_BUF_SZ := by omega
  simp [xhdr_copy, memcpy, h1, h]

theorem xhdr_copy_eq_none_iff (xhdr_buf : Buffer) (name value : Bytes) :
    xhdr_copy xhdr_buf name value = none ↔ XHDR_BUF_SZ < name.length + value.length := by
  by_cases h : name.length + value.length ≤ XHDR_BUF_SZ
  · rw [xhdr_copy_eq_some _ _ _ h]
    simp only [reduceCtorEq, false_iff]
    omega
  · have h1 : XHDR_BUF_SZ < name.length + value.length := by omega
    simp only [h1, iff_true]
    by_cases h0 : name.length ≤ XHDR_BUF_SZ <;> simp [xhdr_copy, memcpy, h0, h]

theorem xhdr_read_name (xhdr_buf : Buffer) (name value : Bytes) :
    buf_read (buf_write (buf_write xhdr_buf 0 name) name.length value) 0 name.length = name := by
  rw [buf_read_write_disjoint _ _ _ _ _ (Or.inl (by omega)), buf_read_write_same]

theorem xhdr_read_value (xhdr_buf : Buffer) (name value : Bytes) :
    buf_read (buf_write (buf_write xhdr_buf 0 name) name.length value) name.length value.length
      = value :=
  buf_read_write_same _ _ _

/-! ## The loop of Encoder_encode -/

theorem encode_step_bytes {E D : Type} (q : Lsqpack E D) (self : EncoderObject E)
    (enc_off hdr_off : Nat) (name value : Bytes)
    (hlen : name.length + value.length ≤ XHDR_BUF_SZ)
    (heo : enc_off ≤ ENC_BUF_SZ) (hho : hdr_off ≤ HDR_BUF_SZ) :
    encode_step q self enc_off hdr_off (PyObject.tuple [PyItem.bytes name, PyItem.bytes value])
      = match q.enc_encode self.enc (ENC_BUF_SZ - enc_off) (HDR_BUF_SZ - hdr_off) name value with
        | (status, enc_out, hdr_out, enc) =>
          if enc_off + enc_out.length ≤ ENC_BUF_SZ ∧ hdr_off + hdr_out.length ≤ HDR_BUF_SZ then
            if status ≠ LQES_OK then
              Loop.raise (EncoderResult.RuntimeError RuntimeMsg.lsqpack_enc_encode_failed)
                { self with
                    xhdr_buf := buf_write (buf_write self.xhdr_buf 0 name) name.length value,
                    enc := enc, enc_buf := buf_write self.enc_buf enc_off enc_out,
                    hdr_buf := buf_write self.hdr_buf hdr_off hdr_out }
            else
              Loop.next
                { self with
                    xhdr_buf := buf_write (buf_write self.xhdr_buf 0 name) name.length value,
                    enc := enc, enc_buf := buf_write self.enc_buf enc_off enc_out,
                    hdr_buf := buf_write self.hdr_buf hdr_off hdr_out }
                (enc_off + enc_out.length) (hdr_off + hdr_out.length)
          else
            Loop.raise EncoderResult.undefined
              { self with
                  xhdr_buf := buf_write (buf_write self.xhdr_buf 0 name) name.length value,
                  enc := enc } := by
  have h1 : ¬ (name.length + value.length > XHDR_BUF_SZ) := by omega
  have hE : size_sub ENC_BUF_SZ enc_off = ENC_BUF_SZ - enc_off :=
    size_sub_of_le heo (by decide)
  have hH : size_sub HDR_BUF_SZ hdr_off = HDR_BUF_SZ - hdr_off :=
    size_sub_of_le hho (by decide)
  rcases hq : q.enc_encode self.enc (ENC_BUF_SZ - enc_off) (HDR_BUF_SZ - hdr_off) name value
    with ⟨status, enc_out, hdr_out, enc⟩
  simp only [encode_step, h1, if_false, xhdr_copy_eq_some _ _ _ hlen, xhdr_read_name,
    xhdr_read_value, hE, hH, hq, memcpy]
  by_cases c1 : enc_off + enc_out.length ≤ ENC_BUF_SZ
  · by_cases c2 : hdr_off + hdr_out.length ≤ HDR_BUF_SZ
    · have a1 : size_add enc_off enc_out.length = enc_off + enc_out.length :=
        size_add_of_lt (lt_of_le_of_lt c1 (by decide))
      have a2 : size_add hdr_off hdr_out.length = hdr_off + hdr_out.length :=
        size_add_of_lt (lt_of_le_of_lt c2 (by decide))
      simp [c1, c2, a1, a2]
    · simp [c1, c2]
  · simp [c1]

theorem encode_step_cases {E D : Type} (q : Lsqpack E D) (self : EncoderObject E)
    (enc_off hdr_off : Nat) (t : PyObject) :
    (∃ f : Bytes × Bytes, t = header_tuple f) ∨
    encode_step q self enc_off hdr_off t
      = Loop.raise (EncoderResult.ValueError ValueMsg.name_and_value_must_be_bytes) self ∨
    encode_step q self enc_off hdr_off t
      = Loop.raise (EncoderResult.ValueError ValueMsg.header_must_be_a_two_tuple) self := by
  cases t with
  | other => right; right; rfl
  | tuple items =>
    match items with
    | [] => right; right; simp [encode_step]
    | [_] => right; right; simp [encode_step]
    | _ :: _ :: _ :: _ => right; right; simp [encode_step]
    | [a, b] =>
      cases a with
      | other => right; left; rfl
      | bytes n =>
        cases b with
        | other => right; left; rfl
        | bytes v => left; exact ⟨(n, v), rfl⟩

theorem encode_step_too_long {E D : Type} (q : Lsqpack E D) (self : EncoderObject E)
    (enc_off hdr_off : Nat) (f : Bytes × Bytes) (h : XHDR_BUF_SZ < f.1.length + f.2.length) :
    encode_step q self enc_off hdr_off (header_tuple f)
      = Loop.raise (EncoderResult.ValueError ValueMsg.name_and_value_are_too_long) self := by
  have h1 : f.1.length + f.2.length > XHDR_BUF_SZ := h
  simp [encode_step, header_tuple, h1]

theorem encode_step_next {E D : Type} (q : Lsqpack E D) (self self1 : EncoderObject E)
    (enc_off hdr_off enc_off1 hdr_off1 : Nat) (t : PyObject)
    (h : encode_step q self enc_off hdr_off t = Loop.next self1 enc_off1 hdr_off1)
    (heo : enc_off ≤ ENC_BUF_SZ) (hho : hdr_off ≤ HDR_BUF_SZ) :
    ∃ (f : Bytes × Bytes) (enc_out hdr_out : Bytes),
      t = header_tuple f ∧ f.1.length + f.2.length ≤ XHDR_BUF_SZ ∧
      q.enc_encode self.enc (ENC_BUF_SZ - enc_off) (HDR_BUF_SZ - hdr_off) f.1 f.2
        = (LQES_OK, enc_out, hdr_out, self1.enc) ∧
      enc_off1 = enc_off + enc_out.length ∧ enc_off1 ≤ ENC_BUF_SZ ∧
      hdr_off1 = hdr_off + hdr_out.length ∧ hdr_off1 ≤ HDR_BUF_SZ ∧
      self1.enc_buf = buf_write self.enc_buf enc_off enc_out ∧
      self1.hdr_buf = buf_write self.hdr_buf hdr_off hdr_out ∧
      self1.pfx_buf = self.pfx_buf := by
  rcases encode_step_cases q self enc_off hdr_off t with ⟨f, rfl⟩ | h1 | h1
  · by_cases hlen : f.1.length + f.2.length ≤ XHDR_BUF_SZ
    · have hs := encode_step_bytes q self enc_off hdr_off f.1 f.2 hlen heo hho
      simp only [header_tuple] at h
      rw [hs] at h
      rcases hq : q.enc_encode self.enc (ENC_BUF_SZ - enc_off) (HDR_BUF_SZ - hdr_off) f.1 f.2
        with ⟨status, enc_out, hdr_out, enc⟩
      rw [hq] at h
      simp only at h
      by_cases c : enc_off + enc_out.length ≤ ENC_BUF_SZ ∧ hdr_off + hdr_out.length ≤ HDR_BUF_SZ
      · rw [if_pos c] at h
        by_cases hst : status = LQES_OK
        · simp only [hst, ne_eq, not_true_eq_false, if_false, Loop.next.injEq] at h
          obtain ⟨hself, h2, h3⟩ := h
          subst hself h2 h3 hst
          exact ⟨f, enc_out, hdr_out, rfl, hlen, hq, rfl, c.1, rfl, c.2, rfl, rfl, rfl⟩
        · simp [hst] at h
      · rw [if_neg c] at h
        exact absurd h (by simp)
    · rw [encode_step_too_long q self enc_off hdr_off f (by omega)] at h
      exact absurd h (by simp)
  · rw [h1] at h; exact absurd h (by simp)
  · rw [h1] at h; exact absurd h (by simp)

theorem encode_loop_next {E D : Type} (q : Lsqpack E D) (items : List PyObject) :
    ∀ (self self1 : EncoderObject E) (enc_off hdr_off enc_off1 hdr_off1 : Nat),
      encode_loop q self enc_off hdr_off items = Loop.next self1 enc_off1 hdr_off1 →
      enc_off ≤ ENC_BUF_SZ → hdr_off ≤ HDR_BUF_SZ →
      ∃ (fields outs : List (Bytes × Bytes)),
        items = fields.map header_tuple ∧
        (∀ f ∈ fields, f.1.length + f.2.length ≤ XHDR_BUF_SZ) ∧
        lsqpack_encode_fields q self.enc enc_off hdr_off fields = some (outs, self1.enc) ∧
        outs.length = fields.length ∧
        enc_off1 = enc_off + ((outs.map Prod.fst).flatten).length ∧ enc_off1 ≤ ENC_BUF_SZ ∧
        hdr_off1 = hdr_off + ((outs.map Prod.snd).flatten).length ∧ hdr_off1 ≤ HDR_BUF_SZ ∧
        (∀ b, b ≤ enc_off → buf_read self1.enc_buf b (enc_off1 - b)
          = buf_read self.enc_buf b (enc_off - b) ++ (outs.map Prod.fst).flatten) ∧
        (∀ b, b ≤ hdr_off → buf_read self1.hdr_buf b (hdr_off1 - b)
          = buf_read self.hdr_buf b (hdr_off - b) ++ (outs.map Prod.snd).flatten) ∧
        self1.pfx_buf = self.pfx_buf := by
  induction items with
  | nil =>
    intro self self1 enc_off hdr_off enc_off1 hdr_off1 h heo hho
    simp only [encode_loop, Loop.next.injEq] at h
    obtain ⟨rfl, rfl, rfl⟩ := h
    exact ⟨[], [], rfl, by simp, rfl, rfl, by simp, heo, by simp, hho, by simp, by simp, rfl⟩
  | cons t rest ih =>
    intro self self1 enc_off hdr_off enc_off1 hdr_off1 h heo hho
    simp only [encode_loop] at h
    cases hstep : encode_step q self enc_off hdr_off t with
    | raise result self2 => rw [hstep] at h; exact absurd h (by simp)
    | next self2 enc_off2 hdr_off2 =>
      rw [hstep] at h
      simp only at h
      obtain ⟨f, enc_out, hdr_out, rfl, hlen, hq, he2, he2le, hh2, hh2le, hebuf, hhbuf, hpfx⟩ :=
        encode_step_next q self self2 enc_off hdr_off enc_off2 hdr_off2 t hstep heo hho
      obtain ⟨fields, outs, hitems, hall, hfields, hlen2, he1, he1le, hh1, hh1le, hread_e,
        hread_h, hpfx2⟩ := ih self2 self1 enc_off2 hdr_off2 enc_off1 hdr_off1 h he2le hh2le
      refine ⟨f :: fields, (enc_out, hdr_out) :: outs, by simp [hitems], ?_, ?_, by simp [hlen2],
        ?_, he1le, ?_, hh1le, ?_, ?_, hpfx2.trans hpfx⟩
      · intro g hg
        rcases List.mem_cons.1 hg with rfl | hg
        · exact hlen
        · exact hall g hg
      · rw [he2, hh2] at hfields
        simp [lsqpack_encode_fields, hq, hfields]
      · simp only [List.map_cons, List.flatten_cons, List.length_append]; omega
      · simp only [List.map_cons, List.flatten_cons, List.length_append]; omega
      · intro b hb
        have e1 : enc_off1 - b = (enc_off2 - b) + ((outs.map Prod.fst).flatten).length := by omega
        have e2 : enc_off2 - b = (enc_off - b) + enc_out.length := by omega
        have := hread_e b (by omega)
        rw [this, hebuf, e2, buf_read_add,
          buf_read_write_disjoint _ _ _ _ _ (Or.inl (by omega))]
        have e3 : b + (enc_off - b) = enc_off := by omega
        rw [e3, buf_read_write_same]
        simp
      · intro b hb
        have e2 : hdr_off2 - b = (hdr_off - b) + hdr_out.length := by omega
        have := hread_h b (by omega)
        rw [this, hhbuf, e2, buf_read_add,
          buf_read_write_disjoint _ _ _ _ _ (Or.inl (by omega))]
        have e3 : b + (hdr_off - b) = hdr_off := by omega
        rw [e3, buf_read_write_same]
        simp

theorem encode_finish_encoded {E D : Type} (q : Lsqpack E D) (self : EncoderObject E)
    (enc_off hdr_off : Nat) (es hb : Bytes)
    (h : (encode_finish q self enc_off hdr_off).1 = EncoderResult.encoded es hb)
    (h16 : PREFIX_MAX_SIZE ≤ hdr_off) (hho : hdr_off ≤ HDR_BUF_SZ) :
    1 ≤ to_size_t (q.enc_end_header self.enc PREFIX_MAX_SIZE).1 ∧
    to_size_t (q.enc_end_header self.enc PREFIX_MAX_SIZE).1 ≤ PREFIX_MAX_SIZE ∧
    (q.enc_end_header self.enc PREFIX_MAX_SIZE).2.1.length ≤ PREFIX_MAX_SIZE ∧
    es = buf_read self.enc_buf 0 enc_off ∧
    hb = end_header_bytes q self.pfx_buf self.enc
          ++ buf_read self.hdr_buf PREFIX_MAX_SIZE (hdr_off - PREFIX_MAX_SIZE) := by
  rcases hq : q.enc_end_header self.enc PREFIX_MAX_SIZE with ⟨r, pfx_out, enc⟩
  simp only [encode_finish, hq, memcpy] at h
  simp only [end_header_bytes, hq]
  by_cases c1 : 0 + pfx_out.length ≤ PREFIX_MAX_SIZE
  · rw [if_pos c1] at h
    simp only at h
    by_cases c2 : to_size_t r ≤ 0
    · rw [if_pos c2] at h; exact absurd h (by simp)
    · rw [if_neg c2] at h
      by_cases c3 : to_size_t r > PREFIX_MAX_SIZE
      · rw [if_pos c3] at h; exact absurd h (by simp)
      · rw [if_neg c3] at h
        have hle : to_size_t r ≤ PREFIX_MAX_SIZE := by omega
        have hoff : size_sub PREFIX_MAX_SIZE (to_size_t r) = PREFIX_MAX_SIZE - to_size_t r :=
          size_sub_of_le hle (by decide)
        have h16' : PREFIX_MAX_SIZE ≤ HDR_BUF_SZ := by decide
        rw [hoff] at h
        have c4 : PREFIX_MAX_SIZE - to_size_t r
            + (buf_read (buf_write self.pfx_buf 0 pfx_out) 0 (to_size_t r)).length
            ≤ HDR_BUF_SZ := by
          rw [length_buf_read]; omega
        rw [if_pos c4] at h
        have hsub : size_sub hdr_off (PREFIX_MAX_SIZE - to_size_t r)
            = to_size_t r + (hdr_off - PREFIX_MAX_SIZE) := by
          rw [size_sub_of_le (by omega) (lt_of_le_of_lt hho (by decide))]
          omega
        simp only [hsub, EncoderResult.encoded.injEq] at h
        obtain ⟨h1, h2⟩ := h
        refine ⟨by omega, hle, by omega, h1.symm, ?_⟩
        rw [← h2, buf_read_add]
        have hl : (buf_read (buf_write self.pfx_buf 0 pfx_out) 0 (to_size_t r)).length
            = to_size_t r := length_buf_read _ _ _
        have e1 : PREFIX_MAX_SIZE - to_size_t r + to_size_t r = PREFIX_MAX_SIZE := by omega
        congr 1
        · conv_lhs =>
            arg 3
            rw [← hl]
          exact buf_read_write_same _ _ _
        · rw [e1]
          exact buf_read_write_disjoint _ _ _ _ _ (Or.inr (by rw [hl, e1]))
  · rw [if_neg c1] at h; exact absurd h (by simp)

theorem encode_step_not_raise_encoded {E D : Type} (q : Lsqpack E D) (t : PyObject)
    (self : EncoderObject E) (enc_off hdr_off : Nat) (result : EncoderResult)
    (self1 : EncoderObject E)
    (h : encode_step q self enc_off hdr_off t = Loop.raise result self1) :
    ∀ es hb, result ≠ EncoderResult.encoded es hb := by
  intro es hb hres
  subst hres
  rcases encode_step_cases q self enc_off hdr_off t with ⟨f, rfl⟩ | h1 | h1
  · simp only [encode_step, header_tuple] at h
    split at h
    · simp at h
    · split at h
      · simp at h
      · split at h
        · split at h
          · simp at h
          · simp at h
        · simp at h
  · rw [h1] at h; simp at h
  · rw [h1] at h; simp at h

theorem encode_loop_not_raise_encoded {E D : Type} (q : Lsqpack E D) (items : List PyObject) :
    ∀ (self : EncoderObject E) (enc_off hdr_off : Nat) (result : EncoderResult)
      (self1 : EncoderObject E),
      encode_loop q self enc_off hdr_off items = Loop.raise result self1 →
      ∀ es hb, result ≠ EncoderResult.encoded es hb := by
  induction items with
  | nil => intro self enc_off hdr_off result self1 h; simp [encode_loop] at h
  | cons t rest ih =>
    intro self enc_off hdr_off result self1 h
    simp only [encode_loop] at h
    cases hstep : encode_step q self enc_off hdr_off t with
    | raise result2 self2 =>
      rw [hstep] at h
      simp only [Loop.raise.injEq] at h
      obtain ⟨rfl, rfl⟩ := h
      exact encode_step_not_raise_encoded q t self enc_off hdr_off _ _ hstep
    | next self2 enc_off2 hdr_off2 =>
      rw [hstep] at h
      exact ih self2 enc_off2 hdr_off2 result self1 h

theorem Encoder_encode_encoded {E D : Type} (q : Lsqpack E D) (self : EncoderObject E)
    (stream_id : Nat) (items : List PyObject) (es hb : Bytes)
    (h : (Encoder_encode q self stream_id (PyArg.list items)).1 = EncoderResult.encoded es hb) :
    ∃ (fields outs : List (Bytes × Bytes)) (e2 : E),
      items = fields.map header_tuple ∧
      (q.enc_start_header self.enc stream_id 0).1 = 0 ∧
      lsqpack_encode_fields q (q.enc_start_header self.enc stream_id 0).2 0 PREFIX_MAX_SIZE fields
        = some (outs, e2) ∧
      outs.length = fields.length ∧
      1 ≤ to_size_t (q.enc_end_header e2 PREFIX_MAX_SIZE).1 ∧
      to_size_t (q.enc_end_header e2 PREFIX_MAX_SIZE).1 ≤ PREFIX_MAX_SIZE ∧
      (q.enc_end_header e2 PREFIX_MAX_SIZE).2.1.length ≤ PREFIX_MAX_SIZE ∧
      es = (outs.map Prod.fst).flatten ∧
      hb = end_header_bytes q self.pfx_buf e2 ++ (outs.map Prod.snd).flatten := by
  rcases hs : q.enc_start_header self.enc stream_id 0 with ⟨rc, e1⟩
  simp only [Encoder_encode, hs] at h
  by_cases hrc : rc ≠ 0
  · rw [if_pos hrc] at h; exact absurd h (by simp)
  · rw [if_neg hrc] at h
    cases hl : encode_loop q { self with enc := e1 } 0 PREFIX_MAX_SIZE items with
    | raise result self2 =>
      rw [hl] at h
      simp only at h
      exact absurd h (by
        intro h
        have := encode_loop_not_raise_encoded q items { self with enc := e1 } 0 PREFIX_MAX_SIZE
          result self2 hl
        exact this es hb h)
    | next self2 enc_off hdr_off =>
      rw [hl] at h
      simp only at h
      obtain ⟨fields, outs, hitems, _, hfields, hlen, he, hele, hh, hhle, hread_e, hread_h, hpfx⟩ :=
        encode_loop_next q items _ self2 0 PREFIX_MAX_SIZE enc_off hdr_off hl (by decide)
          (by decide)
      obtain ⟨p1, p2, p3, p4, p5⟩ := encode_finish_encoded q self2 enc_off hdr_off es hb h
        (by omega) hhle
      refine ⟨fields, outs, self2.enc, hitems, by simpa using hrc, hfields, hlen, p1, p2, p3,
        ?_, ?_⟩
      · have := hread_e 0 (Nat.le_refl 0)
        simp only [Nat.sub_zero, buf_read_zero, List.nil_append] at this
        rw [p4, this]
      · have := hread_h PREFIX_MAX_SIZE (Nat.le_refl _)
        simp only [Nat.sub_self, buf_read_zero, List.nil_append] at this
        rw [p5, this, hpfx]

/-! ## Encoding followed by decoding -/

theorem header_tuple_injective : Function.Injective header_tuple := by
  intro f g h
  simp only [header_tuple, PyObject.tuple.injEq, List.cons.injEq, PyItem.bytes.injEq,
    and_true] at h
  exact Prod.ext h.1 h.2

theorem to_size_t_of_small {r : Int} (hr : -(2 ^ 63 : Int) ≤ r) (h1 : 1 ≤ to_size_t r)
    (h2 : to_size_t r ≤ PREFIX_MAX_SIZE) (n : Nat) (hn : n ≤ PREFIX_MAX_SIZE)
    (hpos : 0 < r → (n : Int) = r) : 0 < r ∧ (n : Int) = r ∧ to_size_t r = n := by
  have hm : to_size_t r = (r % 18446744073709551616).toNat := by
    simp [to_size_t, SIZE_MOD]
  have h16 : PREFIX_MAX_SIZE = 16 := rfl
  rw [hm] at h1 h2 ⊢
  rw [h16] at h2 hn
  have hpos' : 0 < r := by
    by_contra hneg
    have : r ≤ 0 := by omega
    omega
  have hnr := hpos hpos'
  exact ⟨hpos', hnr, by omega⟩

theorem session_of_encoded {E D : Type} (q : Lsqpack E D) (self : EncoderObject E)
    (stream_id : Nat) (fields : List (Bytes × Bytes)) (es hb : Bytes)
    (h : (Encoder_encode q self stream_id (headers_arg fields)).1 = EncoderResult.encoded es hb)
    (hend : lsqpack_end_header_convention q) :
    lsqpack_encode_session q self.enc stream_id fields = some (es, hb) := by
  obtain ⟨fields1, outs, e2, h1, h2, h3, _, h5, h6, h7, h8, h9⟩ :=
    Encoder_encode_encoded q self stream_id (fields.map header_tuple) es hb h
  have hf : fields1 = fields := (List.map_injective_iff.2 header_tuple_injective h1).symm
  subst hf
  obtain ⟨hr1, hr2⟩ := hend e2
  obtain ⟨hpos, hlen, hsz⟩ := to_size_t_of_small hr1 h5 h6 _ h7 hr2
  have hpfx : end_header_bytes q self.pfx_buf e2 = (q.enc_end_header e2 PREFIX_MAX_SIZE).2.1 := by
    simp only [end_header_bytes, hsz]
    exact buf_read_write_same _ _ _
  rcases hs : q.enc_start_header self.enc stream_id 0 with ⟨rc, e1⟩
  rw [hs] at h2 h3
  simp only at h2 h3
  rcases he : q.enc_end_header e2 PREFIX_MAX_SIZE with ⟨r, pfx_out, e3⟩
  rw [he] at hpos hlen hpfx
  simp only at hpos hlen hpfx
  simp [lsqpack_encode_session, hs, h2, h3, he, hpos, hlen, h8, h9, hpfx]

theorem headers_after_read_new {D : Type} (s : Nat) (data : Bytes) (r : ReadOut D) :
    (header_block_after_read (header_block_new s data) r).headers = r.processed := by
  have key : ∀ (l : List (Bytes × Bytes)) (c : header_block),
      (l.foldl header_block_process_header c).headers = c.headers ++ l := by
    intro l
    induction l with
    | nil => intro c; simp
    | cons x rest ih => intro c; simp [List.foldl, ih, header_block_process_header]
  simp [header_block_after_read, key, header_block_new]

theorem decode_of_session {E D : Type} (q : Lsqpack E D) (dself : DecoderObject D)
    (stream_id : Nat) (es hb : Bytes) (fields : List (Bytes × Bytes))
    (hidle : ∀ b ∈ dself.pending_blocks, b.stream_id ≠ stream_id)
    (h : lsqpack_decode_session q dself.dec stream_id es hb = some fields) :
    ∃ ids control,
      (Decoder_feed_encoder q dself es).1 = DecoderResult.unblocked ids ∧
      (Decoder_feed_header q (Decoder_feed_encoder q dself es).2 stream_id hb).1
        = DecoderResult.decoded control fields := by
  rcases hq : q.dec_enc_in dself.dec es with ⟨rc, handles, d1⟩
  simp only [lsqpack_decode_session, hq] at h
  by_cases hrc : rc < 0
  · rw [if_pos hrc] at h; exact absurd h (by simp)
  · rw [if_neg hrc] at h
    by_cases hst : (q.dec_header_in d1 stream_id stream_id hb.length hb).status = LQRHS_DONE
    · rw [if_pos hst] at h
      have hproc : (q.dec_header_in d1 stream_id stream_id hb.length hb).processed = fields := by
        simpa using h
      have hfe : Decoder_feed_encoder q dself es
          = (DecoderResult.unblocked (((apply_unblocked handles dself.pending_blocks).filter
              fun b => !b.blocked).map header_block.stream_id),
             { dec := d1, pending_blocks := apply_unblocked handles dself.pending_blocks }) := by
        simp [Decoder_feed_encoder, hq, hrc]
      rw [hfe]
      refine ⟨_, (q.dec_header_in d1 stream_id stream_id hb.length hb).dec_out, rfl, ?_⟩
      have hidle2 : ∀ b ∈ apply_unblocked handles dself.pending_blocks,
          b.stream_id ≠ stream_id := by
        intro b hb2 hs
        have hm : stream_id ∈ (apply_unblocked handles dself.pending_blocks).map
            header_block.stream_id := List.mem_map.2 ⟨b, hb2, hs⟩
        rw [map_id_apply_unblocked] at hm
        obtain ⟨c, hc, hcs⟩ := List.mem_map.1 hm
        exact hidle c hc hcs
      have hn := (find_block_eq_none_iff stream_id _).2 hidle2
      rcases Decoder_feed_header_cases q
          { dec := d1, pending_blocks := apply_unblocked handles dself.pending_blocks }
          stream_id hb with ⟨b, hb1, _⟩ | ⟨_, ⟨hs1, _⟩ | ⟨_, h1⟩ | ⟨hs1, _⟩⟩
      · rw [hn] at hb1; exact absurd hb1 (by simp)
      · simp only [feed_header_read] at hs1
        rw [hst] at hs1
        rcases hs1 with hs1 | hs1 <;> exact absurd hs1 (by simp)
      · rw [h1, headers_after_read_new]
        simp only [feed_header_read, hproc]
      · simp only [feed_header_read] at hs1
        rw [hst] at hs1
        exact absurd hs1 (by simp)
    · rw [if_neg hst] at h; exact absurd h (by simp)

/-! ## Facts about ref_codec -/

theorem ref_codec_end_header_convention : lsqpack_end_header_convention ref_codec := by
  intro e
  simp only [ref_codec, PREFIX_MAX_SIZE]
  cases e.in_header <;> simp

theorem ref_codec_round_trip_ref_fields :
    lsqpack_round_trip ref_codec ref_encoder.enc ref_decoder.dec 4 ref_fields := by
  intro p hp
  have hs : lsqpack_encode_session ref_codec ref_encoder.enc 4 ref_fields
      = some ([1, 1, 97, 98, 0, 0, 1, 1, 97, 98], [3, 0, 0, 1, 2]) := by decide
  rw [hs] at hp
  cases hp
  decide

theorem Encoder_encode_too_long {E D : Type} (q : Lsqpack E D) (self : EncoderObject E)
    (stream_id : Nat) (f : Bytes × Bytes) (rest : List PyObject)
    (hstart : (q.enc_start_header self.enc stream_id 0).1 = 0)
    (hlen : XHDR_BUF_SZ < f.1.length + f.2.length) :
    (Encoder_encode q self stream_id (PyArg.list (header_tuple f :: rest))).1
      = EncoderResult.ValueError ValueMsg.name_and_value_are_too_long := by
  rcases hs : q.enc_start_header self.enc stream_id 0 with ⟨rc, e1⟩
  rw [hs] at hstart
  simp only at hstart
  subst hstart
  simp [Encoder_encode, hs, encode_loop, encode_step_too_long q _ _ _ f hlen]

theorem length_long_name : long_name.length = 4097 :=
  List.length_replicate _ _

/-! ## The field-too-large check -/

theorem encode_step_too_long_iff {E D : Type} (q : Lsqpack E D) (self : EncoderObject E)
    (enc_off hdr_off : Nat) (t : PyObject) :
    (∃ self1, encode_step q self enc_off hdr_off t
        = Loop.raise (EncoderResult.ValueError ValueMsg.name_and_value_are_too_long) self1) ↔
    ∃ f : Bytes × Bytes, t = header_tuple f ∧ XHDR_BUF_SZ < f.1.length + f.2.length := by
  constructor
  · rintro ⟨self1, h⟩
    rcases encode_step_cases q self enc_off hdr_off t with ⟨f, rfl⟩ | h1 | h1
    · refine ⟨f, rfl, ?_⟩
      by_contra hlen
      simp only [encode_step, header_tuple] at h
      split at h
      · omega
      · split at h
        · simp at h
        · split at h
          · split at h
            · simp at h
            · simp at h
          · simp at h
    · rw [h1] at h; simp at h
    · rw [h1] at h; simp at h
  · rintro ⟨f, rfl, hlen⟩
    exact ⟨self, encode_step_too_long q self enc_off hdr_off f hlen⟩

theorem encode_loop_too_long_iff {E D : Type} (q : Lsqpack E D) (items : List PyObject) :
    ∀ (self : EncoderObject E) (enc_off hdr_off : Nat),
      (∃ self1, encode_loop q self enc_off hdr_off items
          = Loop.raise (EncoderResult.ValueError ValueMsg.name_and_value_are_too_long) self1) ↔
      ∃ (i : Nat) (f : Bytes × Bytes) (self1 : EncoderObject E) (enc_off1 hdr_off1 : Nat),
        items[i]? = some (header_tuple f) ∧ XHDR_BUF_SZ < f.1.length + f.2.length ∧
        encode_loop q self enc_off hdr_off (items.take i) = Loop.next self1 enc_off1 hdr_off1 := by
  induction items with
  | nil =>
    intro self enc_off hdr_off
    simp [encode_loop]
  | cons t rest ih =>
    intro self enc_off hdr_off
    cases hstep : encode_step q self enc_off hdr_off t with
    | raise result self2 =>
      have hloop : encode_loop q self enc_off hdr_off (t :: rest) = Loop.raise result self2 := by
        simp [encode_loop, hstep]
      rw [hloop]
      constructor
      · rintro ⟨self1, h⟩
        simp only [Loop.raise.injEq] at h
        obtain ⟨rfl, rfl⟩ := h
        obtain ⟨f, rfl, hlen⟩ :=
          (encode_step_too_long_iff q self enc_off hdr_off t).1 ⟨_, hstep⟩
        exact ⟨0, f, self, enc_off, hdr_off, by simp, hlen, by simp [encode_loop]⟩
      · rintro ⟨i, f, self1, enc_off1, hdr_off1, hi, hlen, hl⟩
        cases i with
        | zero =>
          simp only [List.getElem?_cons_zero, Option.some.injEq] at hi
          subst hi
          rw [encode_step_too_long q self enc_off hdr_off f hlen] at hstep
          simp only [Loop.raise.injEq] at hstep
          exact ⟨self2, by rw [← hstep.1]⟩
        | succ k =>
          simp [encode_loop, hstep] at hl
    | next self2 enc_off2 hdr_off2 =>
      have hloop : ∀ l, encode_loop q self enc_off hdr_off (t :: l)
          = encode_loop q self2 enc_off2 hdr_off2 l := by
        intro l; simp [encode_loop, hstep]
      rw [hloop, ih self2 enc_off2 hdr_off2]
      constructor
      · rintro ⟨i, f, self1, enc_off1, hdr_off1, hi, hlen, hl⟩
        exact ⟨i + 1, f, self1, enc_off1, hdr_off1, by simpa using hi, hlen,
          by rw [List.take_succ_cons, hloop]; exact hl⟩
      · rintro ⟨i, f, self1, enc_off1, hdr_off1, hi, hlen, hl⟩
        cases i with
        | zero =>
          simp only [List.getElem?_cons_zero, Option.some.injEq] at hi
          subst hi
          rw [encode_step_too_long q self enc_off hdr_off f hlen] at hstep
          exact absurd hstep (by simp)
        | succ k =>
          rw [List.take_succ_cons, hloop] at hl
          exact ⟨k, f, self1, enc_off1, hdr_off1, by simpa using hi, hlen, hl⟩

theorem encode_finish_not_value_error {E D : Type} (q : Lsqpack E D) (self : EncoderObject E)
    (enc_off hdr_off : Nat) (msg : ValueMsg) :
    (encode_finish q self enc_off hdr_off).1 ≠ EncoderResult.ValueError msg := by
  rcases hq : q.enc_end_header self.enc PREFIX_MAX_SIZE with ⟨r, pfx_out, enc⟩
  simp only [encode_finish, hq]
  split
  · simp
  · split
    · simp
    · split
      · simp
      · split
        · simp
        · simp

theorem Encoder_encode_too_long_iff {E D : Type} (q : Lsqpack E D) (self : EncoderObject E)
    (stream_id : Nat) (items : List PyObject) :
    (Encoder_encode q self stream_id (PyArg.list items)).1
        = EncoderResult.ValueError ValueMsg.name_and_value_are_too_long ↔
      (q.enc_start_header self.enc stream_id 0).1 = 0 ∧
      ∃ (i : Nat) (f : Bytes × Bytes) (self1 : EncoderObject E) (enc_off hdr_off : Nat),
        items[i]? = some (header_tuple f) ∧ XHDR_BUF_SZ < f.1.length + f.2.length ∧
        encode_loop q { self with enc := (q.enc_start_header self.enc stream_id 0).2 } 0
          PREFIX_MAX_SIZE (items.take i) = Loop.next self1 enc_off hdr_off := by
  rw [← encode_loop_too_long_iff]
  rcases hs : q.enc_start_header self.enc stream_id 0 with ⟨rc, e1⟩
  simp only [Encoder_encode, hs]
  by_cases hrc : rc = 0
  · simp only [hrc, ne_eq, not_true_eq_false, if_false, true_and]
    cases hl : encode_loop q { self with enc := e1 } 0 PREFIX_MAX_SIZE items with
    | raise result self2 => simp
    | next self2 enc_off hdr_off =>
      simp only [reduceCtorEq, exists_false, iff_false]
      exact encode_finish_not_value_error q self2 enc_off hdr_off _
  · simp [hrc]

theorem xhdr_copy_in_bounds (xhdr_buf : Buffer) (f : Bytes × Bytes)
    (h : f.1.length + f.2.length ≤ XHDR_BUF_SZ) :
    ∃ buf, xhdr_copy xhdr_buf f.1 f.2 = some buf ∧
      buf_read buf 0 f.1.length = f.1 ∧ buf_read buf f.1.length f.2.length = f.2 ∧
      ∀ i, XHDR_BUF_SZ ≤ i → buf i = xhdr_buf i := by
  refine ⟨_, xhdr_copy_eq_some xhdr_buf f.1 f.2 h, xhdr_read_name _ _ _, xhdr_read_value _ _ _, ?_⟩
  intro i hi
  have h1 : ¬ (f.1.length ≤ i ∧ i < f.1.length + f.2.length) := by omega
  have h2 : ¬ (0 ≤ i ∧ i < 0 + f.1.length) := by omega
  simp only [buf_write, h1, h2, if_false]

/-! ## Registration times of the pending blocks -/

theorem map_fst_log_remove (s : Nat) (log : List (Nat × Nat)) :
    (log_remove s log).map Prod.fst = (log.map Prod.fst).erase s := by
  induction log with
  | nil => rfl
  | cons entry rest ih =>
    by_cases h : entry.1 = s
    · simp [log_remove, h]
    · simp [log_remove, h, ih, List.erase_cons_tail]

theorem log_remove_sublist (s : Nat) (log : List (Nat × Nat)) :
    (log_remove s log).Sublist log := by
  induction log with
  | nil => exact List.Sublist.refl _
  | cons entry rest ih =>
    by_cases h : entry.1 = s
    · simp [log_remove, h]
    · simp [log_remove, h, ih]

theorem log_matches_call {E D : Type} (q : Lsqpack E D) (self : DecoderObject D) (time : Nat)
    (log : List (Nat × Nat)) (call : DecoderCall) (h : log_matches self time log) :
    log_matches (Decoder_call q self call).2 (time + 1)
      (log_step call (Decoder_call q self call).1 time log) := by
  obtain ⟨h1, h2, h3⟩ := h
  have hlt : ∀ entry ∈ log, entry.2 < time + 1 := fun e he => Nat.lt_succ_of_lt (h2 e he)
  cases call with
  | feed_encoder data =>
    exact ⟨by simp [log_step, Decoder_call, pending_ids_feed_encoder, h1], hlt, h3⟩
  | feed_header s data =>
    simp only [log_matches, log_step, Decoder_call, pending_ids_feed_header]
    by_cases hb : (Decoder_feed_header q self s data).1 = DecoderResult.StreamBlocked
    · simp only [hb, if_true]
      refine ⟨by simp [h1], ?_, ?_⟩
      · intro entry he
        rcases List.mem_append.1 he with he | he
        · exact hlt entry he
        · simp only [List.mem_singleton] at he
          subst he
          exact Nat.lt_succ_self _
      · rw [List.map_append, List.pairwise_append]
        refine ⟨h3, by simp, ?_⟩
        intro a ha b hb
        simp only [List.map_cons, List.map_nil, List.mem_singleton] at hb
        subst hb
        obtain ⟨entry, he, rfl⟩ := List.mem_map.1 ha
        exact h2 entry he
    · simp only [hb, if_false]
      exact ⟨h1, hlt, h3⟩
  | resume_header s =>
    simp only [log_matches, log_step, Decoder_call, pending_ids_resume_header]
    by_cases hb : (Decoder_resume_header q self s).1.terminal = true
    · simp only [hb, if_true]
      refine ⟨by rw [map_fst_log_remove, h1], ?_, ?_⟩
      · intro entry he
        exact hlt entry ((log_remove_sublist s log).subset he)
      · exact h3.sublist ((log_remove_sublist s log).map Prod.snd)
    · simp only [hb]
      exact ⟨h1, hlt, h3⟩

theorem log_matches_run {E D : Type} (q : Lsqpack E D) (calls : List DecoderCall) :
    ∀ (self : DecoderObject D) (time : Nat) (log : List (Nat × Nat)),
      log_matches self time log →
      log_matches (Decoder_run q self calls) (time + calls.length)
        (registration_log q self time log calls) := by
  induction calls with
  | nil => intro self time log h; exact h
  | cons call rest ih =>
    intro self time log h
    have := ih _ _ _ (log_matches_call q self time log call h)
    simp only [Decoder_run, registration_log, List.length_cons]
    rw [show time + (rest.length + 1) = time + 1 + rest.length by omega]
    exact this

theorem registration_log_origin {E D : Type} (q : Lsqpack E D) (calls : List DecoderCall) :
    ∀ (self : DecoderObject D) (time : Nat) (log : List (Nat × Nat)),
      ∀ entry ∈ registration_log q self time log calls,
        entry ∈ log ∨ (time ≤ entry.2 ∧ ∃ data,
          calls[entry.2 - time]? = some (DecoderCall.feed_header entry.1 data)) := by
  induction calls with
  | nil => intro self time log entry he; exact Or.inl he
  | cons call rest ih =>
    intro self time log entry he
    simp only [registration_log] at he
    rcases ih _ _ _ entry he with h | ⟨h1, data, h2⟩
    · cases call with
      | feed_encoder d => exact Or.inl h
      | resume_header s =>
        simp only [log_step] at h
        split at h
        · exact Or.inl ((log_remove_sublist s log).subset h)
        · exact Or.inl h
      | feed_header s d =>
        simp only [log_step] at h
        split at h
        · rcases List.mem_append.1 h with h | h
          · exact Or.inl h
          · simp only [List.mem_singleton] at h
            subst h
            exact Or.inr ⟨Nat.le_refl _, d, by simp⟩
        · exact Or.inl h
    · refine Or.inr ⟨by omega, data, ?_⟩
      have e : entry.2 - time = (entry.2 - (time + 1)) + 1 := by omega
      rw [e, List.getElem?_cons_succ]
      exact h2

/-! ## The prefix guard -/

theorem to_size_t_zero : to_size_t 0 = 0 := by
  simp [to_size_t]

theorem to_size_t_of_negative {r : Int} (hlo : -(2 ^ 63 : Int) ≤ r) (hneg : r < 0) :
    (to_size_t r : Int) = r + 2 ^ 64 ∧ PREFIX_MAX_SIZE < to_size_t r ∧
    (size_sub PREFIX_MAX_SIZE (to_size_t r) : Int) = 16 - r := by
  have hm : to_size_t r = (r % 18446744073709551616).toNat := by
    simp [to_size_t, SIZE_MOD]
  have hs : ∀ b : Nat, size_sub PREFIX_MAX_SIZE b
      = (16 % 18446744073709551616 + 18446744073709551616 - b % 18446744073709551616)
          % 18446744073709551616 := by
    intro b; simp [size_sub, SIZE_MOD, PREFIX_MAX_SIZE]
  have h16 : PREFIX_MAX_SIZE = 16 := rfl
  rw [hs, hm, h16]
  refine ⟨by omega, by omega, by omega⟩

theorem to_size_t_of_count {r : Int} (h1 : 1 ≤ r) (h2 : r ≤ 16) :
    to_size_t r = r.toNat ∧ 1 ≤ r.toNat ∧ r.toNat ≤ PREFIX_MAX_SIZE ∧
    size_sub PREFIX_MAX_SIZE (to_size_t r) = PREFIX_MAX_SIZE - r.toNat := by
  have hm : to_size_t r = (r % 18446744073709551616).toNat := by
    simp [to_size_t, SIZE_MOD]
  have h16 : PREFIX_MAX_SIZE = 16 := rfl
  have ht : to_size_t r = r.toNat := by rw [hm]; omega
  refine ⟨ht, by omega, by rw [h16]; omega, ?_⟩
  rw [ht]
  exact size_sub_of_le (by rw [h16]; omega) (by decide)

theorem encode_finish_of_zero {E D : Type} (q : Lsqpack E D) (self : EncoderObject E)
    (enc_off hdr_off : Nat)
    (hr : (q.enc_end_header self.enc PREFIX_MAX_SIZE).1 = 0)
    (hfit : (q.enc_end_header self.enc PREFIX_MAX_SIZE).2.1.length ≤ PREFIX_MAX_SIZE) :
    (encode_finish q self enc_off hdr_off).1
        = EncoderResult.RuntimeError RuntimeMsg.lsqpack_enc_start_header_failed ∧
    (encode_finish q self enc_off hdr_off).2.hdr_buf = self.hdr_buf ∧
    prefix_copy_args q self = none := by
  rcases hq : q.enc_end_header self.enc PREFIX_MAX_SIZE with ⟨r, pfx_out, enc⟩
  rw [hq] at hr hfit
  simp only at hr hfit
  subst hr
  simp [encode_finish, prefix_copy_args, hq, memcpy, hfit, to_size_t_zero]

theorem encode_finish_of_negative {E D : Type} (q : Lsqpack E D) (self : EncoderObject E)
    (enc_off hdr_off : Nat)
    (hlo : -(2 ^ 63 : Int) ≤ (q.enc_end_header self.enc PREFIX_MAX_SIZE).1)
    (hneg : (q.enc_end_header self.enc PREFIX_MAX_SIZE).1 < 0)
    (hfit : (q.enc_end_header self.enc PREFIX_MAX_SIZE).2.1.length ≤ PREFIX_MAX_SIZE) :
    prefix_copy_args q self
        = some (to_size_t (q.enc_end_header self.enc PREFIX_MAX_SIZE).1,
            size_sub PREFIX_MAX_SIZE (to_size_t (q.enc_end_header self.enc PREFIX_MAX_SIZE).1)) ∧
    (encode_finish q self enc_off hdr_off).1 = EncoderResult.undefined := by
  obtain ⟨h1, h2, _⟩ := to_size_t_of_negative hlo hneg
  rcases hq : q.enc_end_header self.enc PREFIX_MAX_SIZE with ⟨r, pfx_out, enc⟩
  rw [hq] at h1 h2 hfit
  simp only at h1 h2 hfit
  have hpos : ¬ to_size_t r ≤ 0 := by omega
  have hgt : to_size_t r > PREFIX_MAX_SIZE := h2
  simp [encode_finish, prefix_copy_args, hq, memcpy, hfit, hpos, hgt]

theorem prefix_copy_args_of_count {E D : Type} (q : Lsqpack E D) (self : EncoderObject E)
    (h1 : 1 ≤ (q.enc_end_header self.enc PREFIX_MAX_SIZE).1)
    (h2 : (q.enc_end_header self.enc PREFIX_MAX_SIZE).1 ≤ 16)
    (hfit : (q.enc_end_header self.enc PREFIX_MAX_SIZE).2.1.length ≤ PREFIX_MAX_SIZE) :
    prefix_copy_args q self
      = some ((q.enc_end_header self.enc PREFIX_MAX_SIZE).1.toNat,
          PREFIX_MAX_SIZE - (q.enc_end_header self.enc PREFIX_MAX_SIZE).1.toNat) := by
  obtain ⟨t1, t2, _, t4⟩ := to_size_t_of_count h1 h2
  rcases hq : q.enc_end_header self.enc PREFIX_MAX_SIZE with ⟨r, pfx_out, enc⟩
  rw [hq] at t1 t2 t4 hfit
  simp only at t1 t2 t4 hfit
  have hpos : ¬ to_size_t r ≤ 0 := by omega
  simp only [prefix_copy_args, hq, memcpy, Nat.zero_add, hfit, if_true, hpos, if_false, t4]
  rw [t1]

/-! ## The statuses of lsqpack_dec_header_in in feed_header -/

theorem feed_header_of_status {E D : Type} (q : Lsqpack E D) (self : DecoderObject D)
    (s : Nat) (data : Bytes) (hidle : ∀ b ∈ self.pending_blocks, b.stream_id ≠ s) :
    (((feed_header_read q self s data).status = LQRHS_BLOCKED ∨
        (feed_header_read q self s data).status = LQRHS_NEED) →
      Decoder_feed_header q self s data
        = (DecoderResult.StreamBlocked,
           { dec := (feed_header_read q self s data).dec,
             pending_blocks := self.pending_blocks ++
               [{ header_block_after_read (header_block_new s data)
                    (feed_header_read q self s data) with blocked := true }] })) ∧
    ((feed_header_read q self s data).status = LQRHS_DONE →
      Decoder_feed_header q self s data
        = (DecoderResult.decoded (feed_header_read q self s data).dec_out
            (header_block_after_read (header_block_new s data)
              (feed_header_read q self s data)).headers,
           { dec := (feed_header_read q self s data).dec,
             pending_blocks := self.pending_blocks })) ∧
    ((feed_header_read q self s data).status = LQRHS_ERROR →
      Decoder_feed_header q self s data
        = (DecoderResult.DecompressionFailed,
           { dec := (feed_header_read q self s data).dec,
             pending_blocks := self.pending_blocks })) := by
  have hn := (find_block_eq_none_iff s self.pending_blocks).2 hidle
  rcases Decoder_feed_header_cases q self s data with
    ⟨b, hb, _⟩ | ⟨_, ⟨hst, h1⟩ | ⟨hst, h1⟩ | ⟨hst, h1⟩⟩
  · rw [hn] at hb; exact absurd hb (by simp)
  · refine ⟨fun _ => h1, fun h => ?_, fun h => ?_⟩
    · rcases hst with hst | hst <;> rw [hst] at h <;> exact absurd h (by simp)
    · rcases hst with hst | hst <;> rw [hst] at h <;> exact absurd h (by simp)
  · refine ⟨fun h => ?_, fun _ => h1, fun h => ?_⟩
    · rw [hst] at h; rcases h with h | h <;> exact absurd h (by simp)
    · rw [hst] at h; exact absurd h (by simp)
  · refine ⟨fun h => ?_, fun h => ?_, fun _ => h1⟩
    · rw [hst] at h; rcases h with h | h <;> exact absurd h (by simp)
    · rw [hst] at h; exact absurd h (by simp)

/-! ## The wire format of the codec of the spec: reading what was written -/

theorem toNat_byte {n : Nat} (h : n < 256) : (byte n).toNat = n :=
  UInt8.toNat_ofNat_of_lt h

theorem get_put_int_rest (fuel : Nat) :
    ∀ (v m acc : Nat) (rest : Bytes), v < fuel → acc + v * m < QPACK_INT_MAX →
      get_int_rest m acc (put_int_rest fuel v ++ rest) = some (acc + v * m, rest) := by
  induction fuel with
  | zero => intro v m acc rest hf; omega
  | succ fuel ih =>
    intro v m acc rest hf hb
    by_cases hv : v < 128
    · simp [put_int_rest, hv, get_int_rest, toNat_byte (show v < 256 by omega), hb]
    · have hbyte : (byte (128 + v % 128)).toNat = 128 + v % 128 :=
        toNat_byte (by omega)
      have hdm := Nat.div_add_mod v 128
      have harith : acc + v % 128 * m + v / 128 * (m * 128) = acc + v * m := by
        conv_rhs => rw [← hdm]
        ring
      have hnot : ¬ (128 + v % 128 < 128) := by omega
      have hmod : (128 + v % 128) % 128 = v % 128 := by omega
      simp only [put_int_rest, hv, if_false, List.cons_append, get_int_rest, hbyte, hnot, hmod]
      rw [ih (v / 128) (m * 128) (acc + v % 128 * m) rest (by omega) (by rw [harith]; exact hb),
        harith]

theorem get_put_int (n tag v : Nat) (rest : Bytes) (htag : tag % 2 ^ n = 0)
    (hsz : tag + 2 ^ n ≤ 256) (hv : v < QPACK_INT_MAX) :
    get_int_at n (put_int n tag v ++ rest) = some (v, rest) := by
  have hpos : 0 < 2 ^ n := Nat.pow_pos (by decide)
  by_cases hsmall : v < 2 ^ n - 1
  · have hb : (byte (tag + v)).toNat = tag + v := toNat_byte (by omega)
    have hmod : (tag + v) % 2 ^ n = v := by
      rw [Nat.add_mod, htag, Nat.zero_add, Nat.mod_mod, Nat.mod_eq_of_lt (by omega)]
    simp [put_int, hsmall, get_int_at, get_int, hb, hmod]
  · have hb : (byte (tag + (2 ^ n - 1))).toNat = tag + (2 ^ n - 1) := toNat_byte (by omega)
    have hmod : (tag + (2 ^ n - 1)) % 2 ^ n = 2 ^ n - 1 := by
      rw [Nat.add_mod, htag, Nat.zero_add, Nat.mod_mod, Nat.mod_eq_of_lt (by omega)]
    have hrest := get_put_int_rest (v + 1) (v - (2 ^ n - 1)) 1 (2 ^ n - 1) rest (by omega)
      (by rw [Nat.mul_one]; omega)
    have hsum : 2 ^ n - 1 + (v - (2 ^ n - 1)) * 1 = v := by omega
    rw [hsum] at hrest
    simp [put_int, hsmall, get_int_at, get_int, hb, hmod, hrest]

theorem first_byte_put_int (n tag v : Nat) (rest : Bytes) (hsz : tag + 2 ^ n ≤ 256) :
    first_byte (put_int n tag v ++ rest) = tag + min v (2 ^ n - 1) := by
  have hpos : 0 < 2 ^ n := Nat.pow_pos (by decide)
  by_cases hsmall : v < 2 ^ n - 1
  · have hb : (byte (tag + v)).toNat = tag + v := toNat_byte (by omega)
    simp [put_int, hsmall, first_byte, hb]
    omega
  · have hb : (byte (tag + (2 ^ n - 1))).toNat = tag + (2 ^ n - 1) := toNat_byte (by omega)
    simp [put_int, hsmall, first_byte, hb]
    omega

theorem put_int_ne_nil (n tag v : Nat) : put_int n tag v ≠ [] := by
  unfold put_int
  split <;> simp

theorem get_put_str (n tag : Nat) (s rest : Bytes) (htag : tag % 2 ^ n = 0)
    (hflag : tag / 2 ^ n % 2 = 0) (hsz : tag + 2 ^ n ≤ 256) (hs : s.length < QPACK_INT_MAX) :
    get_str_at n (put_str n tag s ++ rest) = some (s, rest) := by
  have hpos : 0 < 2 ^ n := Nat.pow_pos (by decide)
  have hint := get_put_int n tag s.length (s ++ rest) htag hsz hs
  have hfirst := first_byte_put_int n tag s.length (s ++ rest) hsz
  have hdiv : (tag + min s.length (2 ^ n - 1)) / 2 ^ n = tag / 2 ^ n := by
    have hlt : min s.length (2 ^ n - 1) < 2 ^ n := by omega
    have hmul : tag = 2 ^ n * (tag / 2 ^ n) := by
      have := Nat.div_add_mod tag (2 ^ n)
      omega
    rw [hmul, Nat.mul_add_div hpos, Nat.div_eq_of_lt hlt, Nat.add_zero,
      Nat.mul_div_cancel_left _ hpos]
  cases hdata : put_int n tag s.length ++ (s ++ rest) with
  | nil => exact absurd (List.append_eq_nil.1 hdata).1 (put_int_ne_nil n tag s.length)
  | cons first tail =>
    rw [hdata] at hint hfirst
    simp only [first_byte] at hfirst
    simp only [get_int_at] at hint
    have hnot : ¬ (first.toNat / 2 ^ n % 2 = 1) := by
      rw [hfirst, hdiv, hflag]; decide
    simp only [put_str, List.append_assoc, hdata, get_str_at, get_str, hnot, if_false, hint]
    simp

theorem get_put_instr (i : EncInstr) (rest : Bytes) (h : instr_ok i) :
    get_instr (put_instr i ++ rest) = some (i, rest) := by
  cases i with
  | set_capacity c =>
    have hf := first_byte_put_int 5 32 c rest (by norm_num)
    have hi := get_put_int 5 32 c rest (by norm_num) (by norm_num) h
    have h1 : ¬ 128 ≤ 32 + min c (2 ^ 5 - 1) := by omega
    have h2 : ¬ 64 ≤ 32 + min c (2 ^ 5 - 1) := by omega
    have h3 : 32 ≤ 32 + min c (2 ^ 5 - 1) := by omega
    simp only [put_instr, get_instr, hf, h1, h2, h3, if_true, if_false, hi, Option.some_bind]
  | duplicate c =>
    have hf := first_byte_put_int 5 0 c rest (by norm_num)
    have hi := get_put_int 5 0 c rest (by norm_num) (by norm_num) h
    have h1 : ¬ 128 ≤ 0 + min c (2 ^ 5 - 1) := by omega
    have h2 : ¬ 64 ≤ 0 + min c (2 ^ 5 - 1) := by omega
    have h3 : ¬ 32 ≤ 0 + min c (2 ^ 5 - 1) := by omega
    simp only [put_instr, get_instr, hf, h1, h2, h3, if_false, hi, Option.some_bind]
  | insert_literal n v =>
    have hf := first_byte_put_int 5 64 n.length (n ++ (put_str 7 0 v ++ rest)) (by norm_num)
    have hn := get_put_str 5 64 n (put_str 7 0 v ++ rest) (by norm_num) (by norm_num)
      (by norm_num) h.1
    have hv := get_put_str 7 0 v rest (by norm_num) (by norm_num) (by norm_num) h.2
    have h1 : ¬ 128 ≤ 64 + min n.length (2 ^ 5 - 1) := by omega
    have h2 : 64 ≤ 64 + min n.length (2 ^ 5 - 1) := by omega
    simp only [put_str, List.append_assoc] at hf hn hv ⊢
    simp only [put_instr, put_str, List.append_assoc, get_instr, hf, h1, h2, if_true, if_false,
      hn, hv, Option.some_bind]
  | insert_name_ref t c v =>
    have hv := get_put_str 7 0 v rest (by norm_num) (by norm_num) (by norm_num) h.2
    cases t with
    | true =>
      have hf := first_byte_put_int 6 192 c (put_str 7 0 v ++ rest) (by norm_num)
      have hi := get_put_int 6 192 c (put_str 7 0 v ++ rest) (by norm_num) (by norm_num) h.1
      have h1 : 128 ≤ 192 + min c (2 ^ 6 - 1) := by omega
      have h2 : (192 + min c (2 ^ 6 - 1)) / 64 % 2 = 1 := by omega
      simp only [put_instr, if_true, List.append_assoc, get_instr, hf, h1, h2, hi, hv,
        Option.some_bind, decide_True]
    | false =>
      have hf := first_byte_put_int 6 128 c (put_str 7 0 v ++ rest) (by norm_num)
      have hi := get_put_int 6 128 c (put_str 7 0 v ++ rest) (by norm_num) (by norm_num) h.1
      have h1 : 128 ≤ 128 + min c (2 ^ 6 - 1) := by omega
      have h2 : ¬ (128 + min c (2 ^ 6 - 1)) / 64 % 2 = 1 := by omega
      simp only [put_instr, List.append_assoc, get_instr, hf, h1, h2, hi, hv,
        Option.some_bind, decide_False, if_true, Bool.false_eq_true, if_false]

theorem get_put_line (l : FieldLine) (rest : Bytes) (h : line_ok l) :
    get_line (put_line l ++ rest) = some (l, rest) := by
  cases l with
  | indexed_static c =>
    have hf := first_byte_put_int 6 192 c rest (by norm_num)
    have hi := get_put_int 6 192 c rest (by norm_num) (by norm_num) h
    have h1 : 128 ≤ 192 + min c (2 ^ 6 - 1) := by omega
    have h2 : (192 + min c (2 ^ 6 - 1)) / 64 % 2 = 1 := by omega
    simp only [put_line, get_line, hf, h1, h2, if_true, hi, Option.some_bind]
  | indexed_dynamic c =>
    have hf := first_byte_put_int 6 128 c rest (by norm_num)
    have hi := get_put_int 6 128 c rest (by norm_num) (by norm_num) h
    have h1 : 128 ≤ 128 + min c (2 ^ 6 - 1) := by omega
    have h2 : ¬ (128 + min c (2 ^ 6 - 1)) / 64 % 2 = 1 := by omega
    simp only [put_line, get_line, hf, h1, h2, if_true, if_false, hi, Option.some_bind]
  | indexed_post_base c =>
    have hf := first_byte_put_int 4 16 c rest (by norm_num)
    have hi := get_put_int 4 16 c rest (by norm_num) (by norm_num) h
    have h1 : ¬ 128 ≤ 16 + min c (2 ^ 4 - 1) := by omega
    have h2 : ¬ 64 ≤ 16 + min c (2 ^ 4 - 1) := by omega
    have h3 : ¬ 32 ≤ 16 + min c (2 ^ 4 - 1) := by omega
    have h4 : 16 ≤ 16 + min c (2 ^ 4 - 1) := by omega
    simp only [put_line, get_line, hf, h1, h2, h3, h4, if_true, if_false, hi, Option.some_bind]
  | literal_post_base_name_ref c v =>
    have hv := get_put_str 7 0 v rest (by norm_num) (by norm_num) (by norm_num) h.2
    have hf := first_byte_put_int 3 0 c (put_str 7 0 v ++ rest) (by norm_num)
    have hi := get_put_int 3 0 c (put_str 7 0 v ++ rest) (by norm_num) (by norm_num) h.1
    have h1 : ¬ 128 ≤ 0 + min c (2 ^ 3 - 1) := by omega
    have h2 : ¬ 64 ≤ 0 + min c (2 ^ 3 - 1) := by omega
    have h3 : ¬ 32 ≤ 0 + min c (2 ^ 3 - 1) := by omega
    have h4 : ¬ 16 ≤ 0 + min c (2 ^ 3 - 1) := by omega
    simp only [put_line, List.append_assoc, get_line, hf, h1, h2, h3, h4, if_false, hi, hv,
      Option.some_bind]
  | literal n v =>
    have hf := first_byte_put_int 3 32 n.length (n ++ (put_str 7 0 v ++ rest)) (by norm_num)
    have hn := get_put_str 3 32 n (put_str 7 0 v ++ rest) (by norm_num) (by norm_num)
      (by norm_num) h.1
    have hv := get_put_str 7 0 v rest (by norm_num) (by norm_num) (by norm_num) h.2
    have h1 : ¬ 128 ≤ 32 + min n.length (2 ^ 3 - 1) := by omega
    have h2 : ¬ 64 ≤ 32 + min n.length (2 ^ 3 - 1) := by omega
    have h3 : 32 ≤ 32 + min n.length (2 ^ 3 - 1) := by omega
    simp only [put_str, List.append_assoc] at hf hn hv ⊢
    simp only [put_line, put_str, List.append_assoc, get_line, hf, h1, h2, h3, if_true,
      if_false, hn, hv, Option.some_bind]
  | literal_name_ref t c v =>
    have hv := get_put_str 7 0 v rest (by norm_num) (by norm_num) (by norm_num) h.2
    cases t with
    | true =>
      have hf := first_byte_put_int 4 80 c (put_str 7 0 v ++ rest) (by norm_num)
      have hi := get_put_int 4 80 c (put_str 7 0 v ++ rest) (by norm_num) (by norm_num) h.1
      have h1 : ¬ 128 ≤ 80 + min c (2 ^ 4 - 1) := by omega
      have h2 : 64 ≤ 80 + min c (2 ^ 4 - 1) := by omega
      have h3 : (80 + min c (2 ^ 4 - 1)) / 16 % 2 = 1 := by omega
      simp only [put_line, if_true, List.append_assoc, get_line, hf, h1, h2, h3, hi, hv,
        Option.some_bind, decide_True, if_false]
    | false =>
      have hf := first_byte_put_int 4 64 c (put_str 7 0 v ++ rest) (by norm_num)
      have hi := get_put_int 4 64 c (put_str 7 0 v ++ rest) (by norm_num) (by norm_num) h.1
      have h1 : ¬ 128 ≤ 64 + min c (2 ^ 4 - 1) := by omega
      have h2 : 64 ≤ 64 + min c (2 ^ 4 - 1) := by omega
      have h3 : ¬ (64 + min c (2 ^ 4 - 1)) / 16 % 2 = 1 := by omega
      simp only [put_line, List.append_assoc, get_line, hf, h1, h2, h3, hi, hv,
        Option.some_bind, decide_False, if_true, Bool.false_eq_true, if_false]

theorem put_instr_ne_nil (i : EncInstr) : put_instr i ≠ [] := by
  cases i <;> simp [put_instr, put_str, put_int_ne_nil]

theorem put_line_ne_nil (l : FieldLine) : put_line l ≠ [] := by
  cases l <;> simp [put_line, put_str, put_int_ne_nil]

theorem get_put_instrs (instrs : List EncInstr) :
    ∀ fuel, instrs.length ≤ fuel → (∀ i ∈ instrs, instr_ok i) →
      get_instrs fuel (instrs.map put_instr).flatten = some instrs := by
  induction instrs with
  | nil => intro fuel _ _; cases fuel <;> simp [get_instrs]
  | cons i rest ih =>
    intro fuel hfuel hok
    cases fuel with
    | zero => simp at hfuel
    | succ fuel =>
      have hgi := get_put_instr i (rest.map put_instr).flatten (hok i (List.mem_cons_self _ _))
      have hrest := ih fuel (by simpa using hfuel) (fun j hj => hok j (List.mem_cons_of_mem _ hj))
      cases hdata : put_instr i ++ (rest.map put_instr).flatten with
      | nil => exact absurd (List.append_eq_nil.1 hdata).1 (put_instr_ne_nil i)
      | cons first tail =>
        rw [hdata] at hgi
        simp only [List.map_cons, List.flatten_cons, hdata, get_instrs, hgi, Option.some_bind,
          hrest]

theorem get_put_lines (lines : List FieldLine) :
    ∀ fuel, lines.length ≤ fuel → (∀ l ∈ lines, line_ok l) →
      get_lines fuel (lines.map put_line).flatten = some lines := by
  induction lines with
  | nil => intro fuel _ _; cases fuel <;> simp [get_lines]
  | cons l rest ih =>
    intro fuel hfuel hok
    cases fuel with
    | zero => simp at hfuel
    | succ fuel =>
      have hgl := get_put_line l (rest.map put_line).flatten (hok l (List.mem_cons_self _ _))
      have hrest := ih fuel (by simpa using hfuel) (fun j hj => hok j (List.mem_cons_of_mem _ hj))
      cases hdata : put_line l ++ (rest.map put_line).flatten with
      | nil => exact absurd (List.append_eq_nil.1 hdata).1 (put_line_ne_nil l)
      | cons first tail =>
        rw [hdata] at hgl
        simp only [List.map_cons, List.flatten_cons, hdata, get_lines, hgl, Option.some_bind,
          hrest]

theorem length_le_flatten_put_instr (instrs : List EncInstr) :
    instrs.length ≤ (instrs.map put_instr).flatten.length := by
  induction instrs with
  | nil => simp
  | cons i rest ih =>
    have : 1 ≤ (put_instr i).length := by
      cases h : put_instr i with
      | nil => exact absurd h (put_instr_ne_nil i)
      | cons _ _ => simp
    simp only [List.map_cons, List.flatten_cons, List.length_append, List.length_cons]
    omega

theorem length_le_flatten_put_line (lines : List FieldLine) :
    lines.length ≤ (lines.map put_line).flatten.length := by
  induction lines with
  | nil => simp
  | cons l rest ih =>
    have : 1 ≤ (put_line l).length := by
      cases h : put_line l with
      | nil => exact absurd h (put_line_ne_nil l)
      | cons _ _ => simp
    simp only [List.map_cons, List.flatten_cons, List.length_append, List.length_cons]
    omega

theorem get_put_block_start (enc_ric : Nat) (sign : Bool) (delta : Nat) (rest : Bytes)
    (h1 : enc_ric < QPACK_INT_MAX) (h2 : delta < QPACK_INT_MAX) :
    get_block_start (put_block_start enc_ric sign delta ++ rest)
      = some (enc_ric, sign, delta, rest) := by
  have hi := get_put_int 8 0 enc_ric (put_int 7 (if sign then 128 else 0) delta ++ rest)
    (by norm_num) (by norm_num) h1
  cases sign with
  | true =>
    have hf := first_byte_put_int 7 128 delta rest (by norm_num)
    have hd := get_put_int 7 128 delta rest (by norm_num) (by norm_num) h2
    have hs : 128 ≤ 128 + min delta (2 ^ 7 - 1) := by omega
    simp only [if_true] at hi
    simp only [put_block_start, if_true, List.append_assoc, get_block_start, hi,
      Option.some_bind, hd, hf, hs, decide_True]
  | false =>
    have hf := first_byte_put_int 7 0 delta rest (by norm_num)
    have hd := get_put_int 7 0 delta rest (by norm_num) (by norm_num) h2
    have hs : ¬ 128 ≤ 0 + min delta (2 ^ 7 - 1) := by omega
    simp only [Bool.false_eq_true, if_false] at hi
    simp only [put_block_start, Bool.false_eq_true, if_false, List.append_assoc,
      get_block_start, hi, Option.some_bind, hd, hf, hs, decide_False]

/-! ## The mapping of the required insert count -/

theorem decode_encode_ric (M T ric : Nat) (h : ric = 0 ∨ (ric ≤ T ∧ T < ric + M)) :
    decode_ric M T (encode_ric M ric) = some ric := by
  by_cases h0 : ric = 0
  · subst h0; simp [encode_ric, decode_ric]
  · rcases h with h | ⟨h1, h2⟩
    · exact absurd h h0
    · have hFpos : 0 < 2 * M := by omega
      have hr : ric % (2 * M) < 2 * M := Nat.mod_lt _ hFpos
      have hs : (T + M) % (2 * M) < 2 * M := Nat.mod_lt _ hFpos
      have hric := Nat.div_add_mod ric (2 * M)
      have hV := Nat.div_add_mod (T + M) (2 * M)
      generalize hq : ric / (2 * M) = q at hric
      generalize hk : (T + M) / (2 * M) = k at hV
      generalize hrr : ric % (2 * M) = r at hric hr
      generalize hss : (T + M) % (2 * M) = s at hV hs
      have henc : encode_ric M ric = r + 1 := by simp [encode_ric, h0, hrr]
      have hc : k * (2 * M) + (r + 1) - 1 = 2 * M * k + r := by
        rw [Nat.mul_comm k]; omega
      have hne : ¬ (r + 1 = 0) := by omega
      have hle : ¬ (2 * M < r + 1) := by omega
      simp only [henc, decode_ric, hne, if_false, hle, hk, hc]
      rcases Nat.lt_trichotomy q k with hlt | heq | hgt
      · have hmul : 2 * M * (q + 1) ≤ 2 * M * k := Nat.mul_le_mul_left _ hlt
        rw [Nat.mul_succ] at hmul
        rcases Nat.lt_or_ge (q + 1) k with hlt2 | hge2
        · have hmul2 : 2 * M * (q + 2) ≤ 2 * M * k := Nat.mul_le_mul_left _ hlt2
          have e2 : 2 * M * (q + 2) = 2 * M * q + 2 * M + 2 * M := by ring
          omega
        · have hk1 : k = q + 1 := by omega
          subst hk1
          rw [Nat.mul_succ] at hV ⊢
          have c1 : T + M < 2 * M * q + 2 * M + r := by omega
          have c2 : ¬ (2 * M * q + 2 * M + r ≤ 2 * M) := by omega
          simp only [c1, if_true, c2, if_false]
          congr 1
          omega
      · subst heq
        have c1 : ¬ (T + M < 2 * M * q + r) := by omega
        have c2 : ¬ (2 * M * q + r = 0) := by omega
        simp only [c1, if_false, c2]
        congr 1
      · have hmul : 2 * M * (k + 1) ≤ 2 * M * q := Nat.mul_le_mul_left _ hgt
        rw [Nat.mul_succ] at hmul
        omega

/-! ## The dynamic table -/

theorem find_index_some {α : Type} (p : α → Bool) :
    ∀ (l : List α) (i : Nat), find_index p l = some i → ∃ x, l[i]? = some x ∧ p x = true
  | [], i, h => by simp [find_index] at h
  | x :: rest, i, h => by
    simp only [find_index] at h
    by_cases hp : p x = true
    · simp only [hp, if_true, Option.some.injEq] at h
      subst h
      exact ⟨x, by simp, hp⟩
    · simp only [hp, Bool.false_eq_true, if_false, Option.map_eq_some'] at h
      obtain ⟨j, hj, rfl⟩ := h
      obtain ⟨y, hy, hpy⟩ := find_index_some p rest j hj
      exact ⟨y, by simpa using hy, hpy⟩

theorem find_index_lt {α : Type} (p : α → Bool) (l : List α) (i : Nat)
    (h : find_index p l = some i) : i < l.length := by
  obtain ⟨x, hx, _⟩ := find_index_some p l i h
  exact (List.getElem?_eq_some.1 hx).1

theorem used_size_append (l : List (Bytes × Bytes)) (f : Bytes × Bytes) :
    used_size (l ++ [f]) = used_size l + entry_size f := by
  simp [used_size]

theorem length_le_used_size : ∀ l : List (Bytes × Bytes), 32 * l.length ≤ used_size l
  | [] => by simp [used_size]
  | f :: rest => by
    have ih := length_le_used_size rest
    simp only [used_size, List.map_cons, List.sum_cons, List.length_cons, entry_size] at ih ⊢
    omega

theorem evict_to_spec (room pin : Nat) :
    ∀ (l : List (Bytes × Bytes)) (d d1 : Nat) (l1 : List (Bytes × Bytes)),
      evict_to room pin d l = some (d1, l1) →
      d ≤ d1 ∧ l1 = l.drop (d1 - d) ∧ d1 + l1.length = d + l.length ∧ (d1 = d ∨ d1 ≤ pin) ∧
        used_size l1 ≤ room
  | [], d, d1, l1, h => by
    simp only [evict_to, Option.some.injEq, Prod.mk.injEq] at h
    obtain ⟨rfl, rfl⟩ := h
    simp [used_size]
  | entry :: rest, d, d1, l1, h => by
    simp only [evict_to] at h
    by_cases h1 : used_size (entry :: rest) ≤ room
    · simp only [h1, if_true, Option.some.injEq, Prod.mk.injEq] at h
      obtain ⟨rfl, rfl⟩ := h
      simp [h1]
    · simp only [h1, if_false] at h
      by_cases h2 : d < pin
      · simp only [h2, if_true] at h
        obtain ⟨a, b, c, e, g⟩ := evict_to_spec room pin rest (d + 1) d1 l1 h
        have hk : d1 - d = (d1 - (d + 1)) + 1 := by omega
        refine ⟨by omega, ?_, by simp only [List.length_cons]; omega, Or.inr (by omega), g⟩
        rw [hk, List.drop_succ_cons]
        exact b
      · simp [h2] at h

theorem evict_to_mono (room pin pin1 : Nat) (hp : pin ≤ pin1) :
    ∀ (l : List (Bytes × Bytes)) (d : Nat) (r : Nat × List (Bytes × Bytes)),
      evict_to room pin d l = some r → evict_to room pin1 d l = some r
  | [], d, r, h => by simpa [evict_to] using h
  | entry :: rest, d, r, h => by
    simp only [evict_to] at h ⊢
    by_cases h1 : used_size (entry :: rest) ≤ room
    · simpa only [h1, if_true] using h
    · simp only [h1, if_false] at h ⊢
      by_cases h2 : d < pin
      · simp only [h2, if_true] at h
        have h3 : d < pin1 := by omega
        simp only [h3, if_true]
        exact evict_to_mono room pin pin1 hp rest (d + 1) r h
      · simp [h2] at h

theorem insert_mono (t t1 : DynTable) (pin pin1 : Nat) (f : Bytes × Bytes) (hp : pin ≤ pin1)
    (h : t.insert pin f = some t1) : t.insert pin1 f = some t1 := by
  simp only [DynTable.insert] at h ⊢
  by_cases hc : t.capacity < entry_size f
  · simp [hc] at h
  · simp only [hc, if_false] at h ⊢
    rcases he : evict_to (t.capacity - entry_size f) pin t.dropped t.entries with _ | ⟨d1, l1⟩
    · simp [he] at h
    · rw [evict_to_mono _ pin pin1 hp _ _ _ he]
      rw [he] at h
      exact h

theorem insert_spec (t t1 : DynTable) (pin : Nat) (f : Bytes × Bytes)
    (h : t.insert pin f = some t1) :
    t1.capacity = t.capacity ∧ t1.inserted_count = t.inserted_count + 1 ∧
      t.dropped ≤ t1.dropped ∧ (t1.dropped = t.dropped ∨ t1.dropped ≤ pin) ∧
      t1.dropped ≤ t.inserted_count ∧
      t1.lookup t.inserted_count = some f ∧
      (∀ i, t1.dropped ≤ i → i < t.inserted_count → t1.lookup i = t.lookup i) ∧
      used_size t1.entries ≤ t1.capacity := by
  simp only [DynTable.insert] at h
  by_cases hc : t.capacity < entry_size f
  · simp [hc] at h
  · simp only [hc, if_false] at h
    rcases he : evict_to (t.capacity - entry_size f) pin t.dropped t.entries with _ | ⟨d1, l1⟩
    · simp [he] at h
    · rw [he] at h
      simp only [Option.some.injEq] at h
      subst h
      obtain ⟨a, b, c, e, g⟩ := evict_to_spec _ _ _ _ _ _ he
      simp only [DynTable.inserted_count, DynTable.lookup, List.length_append,
        List.length_singleton, used_size_append]
      refine ⟨trivial, by omega, a, e, by omega, ?_, ?_, by omega⟩
      · have h1 : ¬ (t.dropped + t.entries.length < d1) := by omega
        have h2 : t.dropped + t.entries.length - d1 = l1.length := by omega
        simp [h1, h2]
      · intro i hi1 hi2
        have h1 : ¬ (i < d1) := by omega
        have h2 : ¬ (i < t.dropped) := by omega
        have h3 : i - d1 < l1.length := by omega
        simp only [h1, h2, if_false]
        rw [List.getElem?_append_left h3, b, List.getElem?_drop]
        congr 1
        omega

theorem insert_keeps (t t1 : DynTable) (pin : Nat) (f : Bytes × Bytes)
    (h : t.insert pin f = some t1) (i : Nat) (hp : pin ≤ i) (hi : i < t.inserted_count) :
    t1.lookup i = t.lookup i := by
  obtain ⟨_, _, a, b, _, _, c, _⟩ := insert_spec t t1 pin f h
  by_cases hd : t1.dropped ≤ i
  · exact c i hd hi
  · have h1 : i < t1.dropped := by omega
    have h2 : i < t.dropped := by omega
    simp [DynTable.lookup, h1, h2]

theorem lookup_live (t : DynTable) (i : Nat) :
    t.lookup (t.dropped + i) = t.entries[i]? := by
  simp [DynTable.lookup]

theorem foldr_min_le (l : List (Nat × Nat)) (n : Nat) :
    l.foldr (fun o m => min o.2 m) n ≤ n := by
  induction l with
  | nil => simp
  | cons x rest ih => simp only [List.foldr_cons]; omega

theorem eviction_pin_le (e : QEnc) (refs : Option (Nat × Nat)) :
    eviction_pin e refs ≤ e.table.inserted_count := by
  have h := foldr_min_le e.outstanding e.table.inserted_count
  rcases refs with _ | ⟨lo, hi⟩
  · simpa [eviction_pin] using h
  · simp only [eviction_pin]; omega

theorem eviction_pin_le_lo (e : QEnc) (lo hi : Nat) : eviction_pin e (some (lo, hi)) ≤ lo := by
  simp only [eviction_pin]; omega

/-! ## The encoding of one field -/

theorem encode_field_cases (static : List (Bytes × Bytes)) (e : QEnc) (blk : QBlock)
    (f : Bytes × Bytes) :
    (∃ i, static[i]? = some f ∧
      encode_field static e blk f
        = { instrs := [], line := FieldLine.indexed_static i, table := e.table,
            refs := blk.refs }) ∨
    (∃ i, e.table.entries[i]? = some f ∧
      encode_field static e blk f
        = { instrs := [], line := dyn_line blk.base (e.table.dropped + i), table := e.table,
            refs := note_ref blk.refs (e.table.dropped + i) }) ∨
    (∃ i x, static[i]? = some x ∧ x.1 = f.1 ∧
      encode_field static e blk f
        = { instrs := [], line := FieldLine.literal_name_ref true i f.2, table := e.table,
            refs := blk.refs }) ∨
    (∃ i x t, e.table.entries[i]? = some x ∧ x.1 = f.1 ∧ try_insert e blk.refs f = some t ∧
      encode_field static e blk f
        = { instrs := [EncInstr.insert_name_ref false (e.table.entries.length - 1 - i) f.2],
            line := dyn_line blk.base e.table.inserted_count, table := t,
            refs := note_ref blk.refs e.table.inserted_count }) ∨
    (∃ t, try_insert e blk.refs f = some t ∧
      encode_field static e blk f
        = { instrs := [EncInstr.insert_literal f.1 f.2], line := FieldLine.literal f.1 f.2,
            table := t, refs := blk.refs }) ∨
    encode_field static e blk f
      = { instrs := [], line := FieldLine.literal f.1 f.2, table := e.table,
          refs := blk.refs } := by
  unfold encode_field
  split
  · rename_i i h1
    obtain ⟨x, hx, hp⟩ := find_index_some _ _ _ h1
    have hxf : x = f := by simpa using hp
    subst hxf
    exact Or.inl ⟨i, hx, rfl⟩
  · split
    · rename_i i h2
      obtain ⟨x, hx, hp⟩ := find_index_some _ _ _ h2
      have hxf : x = f := by simpa using hp
      subst hxf
      exact Or.inr (Or.inl ⟨i, hx, rfl⟩)
    · split
      · rename_i i h3
        obtain ⟨x, hx, hp⟩ := find_index_some _ _ _ h3
        exact Or.inr (Or.inr (Or.inl ⟨i, x, hx, by simpa using hp, rfl⟩))
      · split
        · rename_i i t h4 h5
          obtain ⟨x, hx, hp⟩ := find_index_some _ _ _ h4
          exact Or.inr (Or.inr (Or.inr (Or.inl ⟨i, x, t, hx, by simpa using hp, h5, rfl⟩)))
        · rename_i t h4 h5
          exact Or.inr (Or.inr (Or.inr (Or.inr (Or.inl ⟨t, h5, rfl⟩))))
        · exact Or.inr (Or.inr (Or.inr (Or.inr (Or.inr rfl))))

theorem resolve_dyn_line (static : List (Bytes × Bytes)) (tf : DynTable) (base i : Nat)
    (f : Bytes × Bytes) (h : tf.lookup i = some f) :
    resolve_line static tf base (dyn_line base i) = some f := by
  unfold dyn_line
  by_cases hb : i < base
  · have h1 : ¬ (base ≤ base - 1 - i) := by omega
    have h2 : base - 1 - (base - 1 - i) = i := by omega
    simp [hb, resolve_line, h1, h2, h]
  · have h2 : base + (i - base) = i := by omega
    simp [hb, resolve_line, h2, h]

theorem line_ok_dyn_line (base i : Nat) (hb : base < QPACK_INT_MAX) (hi : i < QPACK_INT_MAX) :
    line_ok (dyn_line base i) := by
  unfold dyn_line
  by_cases h : i < base
  · simp only [h, if_true, line_ok]; omega
  · simp only [h, if_false, line_ok]; omega

theorem length_put_str (n tag : Nat) (s : Bytes) : s.length ≤ (put_str n tag s).length := by
  simp [put_str]

theorem small_lt_int_max (n : Nat) (h : n ≤ 4096) : n < QPACK_INT_MAX := by
  have : (4096 : Nat) < 2 ^ 62 := by norm_num
  unfold QPACK_INT_MAX
  omega

theorem note_ref_spec (refs : Option (Nat × Nat)) (i : Nat) :
    ∃ lo1 hi1, note_ref refs i = some (lo1, hi1) ∧ lo1 ≤ i ∧ i ≤ hi1 ∧
      (∀ lo hi, refs = some (lo, hi) → lo1 = min lo i ∧ hi1 = max hi i) ∧
      (refs = none → lo1 = i ∧ hi1 = i) := by
  rcases refs with _ | ⟨lo, hi⟩
  · exact ⟨i, i, rfl, Nat.le_refl _, Nat.le_refl _, by simp, by simp⟩
  · refine ⟨min lo i, max hi i, rfl, by omega, by omega, ?_, by simp⟩
    intro lo0 hi0 h
    simp only [Option.some.injEq, Prod.mk.injEq] at h
    obtain ⟨rfl, rfl⟩ := h
    exact ⟨rfl, rfl⟩

theorem refs_live_note_ref (t : DynTable) (refs : Option (Nat × Nat)) (i : Nat)
    (hlive : ∀ lo hi, refs = some (lo, hi) → t.dropped ≤ lo ∧ lo ≤ hi ∧ hi < t.inserted_count)
    (h1 : t.dropped ≤ i) (h2 : i < t.inserted_count) : refs_live t (note_ref refs i) := by
  intro lo1 hi1 h
  rcases refs with _ | ⟨lo, hi⟩
  · simp only [note_ref, Option.some.injEq, Prod.mk.injEq] at h
    obtain ⟨rfl, rfl⟩ := h
    exact ⟨h1, Nat.le_refl _, h2⟩
  · simp only [note_ref, Option.some.injEq, Prod.mk.injEq] at h
    obtain ⟨rfl, rfl⟩ := h
    obtain ⟨a, b, c⟩ := hlive lo hi rfl
    omega

theorem try_insert_spec (e : QEnc) (refs : Option (Nat × Nat)) (f : Bytes × Bytes)
    (t : DynTable) (h : try_insert e refs f = some t) (hlive : refs_live e.table refs) :
    e.table.insert e.table.inserted_count f = some t ∧ t.capacity = e.table.capacity ∧
      t.inserted_count = e.table.inserted_count + 1 ∧ t.inserted_count < QPACK_INT_MAX ∧
      used_size t.entries ≤ t.capacity ∧ t.lookup e.table.inserted_count = some f ∧
      t.dropped ≤ e.table.inserted_count ∧ (∀ lo hi, refs = some (lo, hi) → t.dropped ≤ lo) ∧
      keeps_refs refs e.table t := by
  unfold try_insert at h
  by_cases hc : e.table.inserted_count + 1 < QPACK_INT_MAX
  · simp only [hc, if_true] at h
    obtain ⟨a, b, c, d, g, k, l, m⟩ := insert_spec _ _ _ _ h
    refine ⟨insert_mono _ _ _ _ _ (eviction_pin_le e refs) h, a, b, by omega, m, k, g, ?_, ?_⟩
    · intro lo hi hr
      subst hr
      have h1 := eviction_pin_le_lo e lo hi
      have h2 := (hlive lo hi rfl).1
      omega
    · intro lo hi hr i hi1 hi2
      subst hr
      have h1 := eviction_pin_le_lo e lo hi
      exact insert_keeps _ _ _ _ h i (by omega) hi2
  · simp [hc] at h

theorem encode_field_step (static : List (Bytes × Bytes)) (e : QEnc) (blk : QBlock)
    (f : Bytes × Bytes) (hstatic : static.length < QPACK_INT_MAX)
    (hlive : refs_live e.table blk.refs) (hsize : used_size e.table.entries ≤ e.table.capacity)
    (hbase : blk.base ≤ e.table.inserted_count)
    (hcount : e.table.inserted_count < QPACK_INT_MAX) :
    apply_instrs static e.max_capacity e.table (encode_field static e blk f).instrs
        = some (encode_field static e blk f).table ∧
      refs_live (encode_field static e blk f).table (encode_field static e blk f).refs ∧
      used_size (encode_field static e blk f).table.entries
        ≤ (encode_field static e blk f).table.capacity ∧
      (encode_field static e blk f).table.capacity = e.table.capacity ∧
      e.table.inserted_count ≤ (encode_field static e blk f).table.inserted_count ∧
      (encode_field static e blk f).table.inserted_count < QPACK_INT_MAX ∧
      keeps_refs blk.refs e.table (encode_field static e blk f).table ∧
      (∀ lo hi, blk.refs = some (lo, hi) →
        ∃ lo1 hi1, (encode_field static e blk f).refs = some (lo1, hi1) ∧ lo1 ≤ lo) ∧
      (∀ tf, keeps_refs (encode_field static e blk f).refs (encode_field static e blk f).table tf →
        resolve_line static tf blk.base (encode_field static e blk f).line = some f) ∧
      ((((encode_field static e blk f).instrs.map put_instr).flatten.length ≤ 4096) →
        ∀ i ∈ (encode_field static e blk f).instrs, instr_ok i) ∧
      ((put_line (encode_field static e blk f).line).length ≤ 4096 →
        line_ok (encode_field static e blk f).line) := by
  have hkeep : keeps_refs blk.refs e.table e.table := fun _ _ _ _ _ _ => rfl
  have hsame : ∀ lo hi, blk.refs = some (lo, hi) →
      ∃ lo1 hi1, blk.refs = some (lo1, hi1) ∧ lo1 ≤ lo :=
    fun lo hi h => ⟨lo, hi, h, Nat.le_refl _⟩
  have hfe : (f.1, f.2) = f := rfl
  rcases encode_field_cases static e blk f with
    ⟨i, hi, ho⟩ | ⟨i, hi, ho⟩ | ⟨i, x, hi, hx, ho⟩ | ⟨i, x, t, hi, hx, ht, ho⟩ | ⟨t, ht, ho⟩ | ho
  · rw [ho]
    dsimp only
    refine ⟨rfl, hlive, hsize, rfl, Nat.le_refl _, hcount, hkeep, hsame, ?_, ?_, ?_⟩
    · intro tf _
      simpa [resolve_line] using hi
    · intro _ j hj
      simp at hj
    · intro _
      have := (List.getElem?_eq_some.1 hi).1
      simp only [line_ok]
      omega
  · rw [ho]
    dsimp only
    have hlt : i < e.table.entries.length := (List.getElem?_eq_some.1 hi).1
    have hic : e.table.dropped + i < e.table.inserted_count := by
      simp only [DynTable.inserted_count]; omega
    obtain ⟨lo1, hi1, hn, hn1, hn2, hn3, _⟩ := note_ref_spec blk.refs (e.table.dropped + i)
    refine ⟨rfl, refs_live_note_ref _ _ _ hlive (by omega) hic, hsize, rfl, Nat.le_refl _,
      hcount, hkeep, ?_, ?_, ?_, ?_⟩
    · intro lo hi0 hr
      obtain ⟨a, _⟩ := hn3 lo hi0 hr
      exact ⟨lo1, hi1, hn, by omega⟩
    · intro tf hk
      apply resolve_dyn_line
      rw [hk lo1 hi1 hn _ hn1 hic, lookup_live]
      exact hi
    · intro _ j hj
      simp at hj
    · intro _
      exact line_ok_dyn_line _ _ (by omega) (by omega)
  · rw [ho]
    dsimp only
    refine ⟨rfl, hlive, hsize, rfl, Nat.le_refl _, hcount, hkeep, hsame, ?_, ?_, ?_⟩
    · intro tf _
      simp only [resolve_line, hi, hx]
    · intro _ j hj
      simp at hj
    · intro hlen
      have h1 := (List.getElem?_eq_some.1 hi).1
      have h2 := length_put_str 7 0 f.2
      simp only [put_line, List.length_append] at hlen
      have h3 := small_lt_int_max f.2.length (by omega)
      simp only [line_ok]
      exact ⟨by omega, h3⟩
  · rw [ho]
    dsimp only
    have hlt : i < e.table.entries.length := (List.getElem?_eq_some.1 hi).1
    obtain ⟨a, b, c, d, g, k, l, m, n⟩ := try_insert_spec e blk.refs f t ht hlive
    obtain ⟨lo1, hi1, hn, hn1, hn2, hn3, hn4⟩ := note_ref_spec blk.refs e.table.inserted_count
    refine ⟨?_, ?_, g, b, by omega, d, n, ?_, ?_, ?_, ?_⟩
    · have h1 : ¬ (e.table.inserted_count ≤ e.table.entries.length - 1 - i) := by
        simp only [DynTable.inserted_count]; omega
      have h2 : e.table.inserted_count - 1 - (e.table.entries.length - 1 - i)
          = e.table.dropped + i := by
        simp only [DynTable.inserted_count]; omega
      simp only [apply_instrs, apply_instr, h1, if_false, h2, lookup_live, hi, hx, hfe, a]
    · intro lo2 hi2 hr
      rw [hn] at hr
      simp only [Option.some.injEq, Prod.mk.injEq] at hr
      obtain ⟨rfl, rfl⟩ := hr
      rcases hb : blk.refs with _ | ⟨lo, hi0⟩
      · obtain ⟨rfl, rfl⟩ := hn4 hb
        exact ⟨l, Nat.le_refl _, by omega⟩
      · obtain ⟨rfl, rfl⟩ := hn3 lo hi0 hb
        have h1 := m lo hi0 hb
        have h2 := hlive lo hi0 hb
        omega
    · intro lo hi0 hr
      obtain ⟨h1, _⟩ := hn3 lo hi0 hr
      exact ⟨lo1, hi1, hn, by omega⟩
    · intro tf hk
      apply resolve_dyn_line
      rw [hk lo1 hi1 hn _ hn1 (by omega)]
      exact k
    · intro hlen j hj
      simp only [List.mem_singleton] at hj
      subst hj
      simp only [List.map_cons, List.map_nil, List.flatten_cons, List.flatten_nil,
        List.append_nil, put_instr, List.length_append] at hlen
      have h2 := length_put_str 7 0 f.2
      have h3 := small_lt_int_max f.2.length (by omega)
      have h4 : e.table.entries.length ≤ e.table.inserted_count := by
        simp only [DynTable.inserted_count]; omega
      simp only [instr_ok]
      exact ⟨by omega, h3⟩
    · intro _
      exact line_ok_dyn_line _ _ (by omega) (by omega)
  · rw [ho]
    dsimp only
    obtain ⟨a, b, c, d, g, k, l, m, n⟩ := try_insert_spec e blk.refs f t ht hlive
    refine ⟨?_, ?_, g, b, by omega, d, n, hsame, ?_, ?_, ?_⟩
    · simp only [apply_instrs, apply_instr, hfe, a]
    · intro lo hi0 hr
      have h1 := m lo hi0 hr
      have h2 := hlive lo hi0 hr
      omega
    · intro tf _
      simp only [resolve_line]
    · intro hlen j hj
      simp only [List.mem_singleton] at hj
      subst hj
      simp only [List.map_cons, List.map_nil, List.flatten_cons, List.flatten_nil,
        List.append_nil, put_instr, List.length_append] at hlen
      have h1 := length_put_str 5 64 f.1
      have h2 := length_put_str 7 0 f.2
      simp only [instr_ok]
      exact ⟨small_lt_int_max _ (by omega), small_lt_int_max _ (by omega)⟩
    · intro hlen
      simp only [put_line, List.length_append] at hlen
      have h1 := length_put_str 3 32 f.1
      have h2 := length_put_str 7 0 f.2
      simp only [line_ok]
      exact ⟨small_lt_int_max _ (by omega), small_lt_int_max _ (by omega)⟩
  · rw [ho]
    dsimp only
    refine ⟨rfl, hlive, hsize, rfl, Nat.le_refl _, hcount, hkeep, hsame, ?_, ?_, ?_⟩
    · intro tf _
      simp only [resolve_line]
    · intro _ j hj
      simp at hj
    · intro hlen
      simp only [put_line, List.length_append] at hlen
      have h1 := length_put_str 3 32 f.1
      have h2 := length_put_str 7 0 f.2
      simp only [line_ok]
      exact ⟨small_lt_int_max _ (by omega), small_lt_int_max _ (by omega)⟩

/-! ## The encoding of a list of fields -/

theorem apply_instrs_append (static : List (Bytes × Bytes)) (max_capacity : Nat) :
    ∀ (a b : List EncInstr) (t t1 t2 : DynTable),
      apply_instrs static max_capacity t a = some t1 →
      apply_instrs static max_capacity t1 b = some t2 →
      apply_instrs static max_capacity t (a ++ b) = some t2
  | [], b, t, t1, t2, h1, h2 => by
    simp only [apply_instrs, Option.some.injEq] at h1
    subst h1
    simpa using h2
  | i :: a, b, t, t1, t2, h1, h2 => by
    simp only [apply_instrs, List.cons_append] at h1 ⊢
    rcases hi : apply_instr static max_capacity t i with _ | t3
    · simp [hi] at h1
    · simp only [hi] at h1 ⊢
      exact apply_instrs_append static max_capacity a b t3 t1 t2 h1 h2

theorem qpack_enc_encode_cases (static : List (Bytes × Bytes)) (e : QEnc) (blk : QBlock)
    (r1 r2 : Nat) (name value : Bytes) (hcur : e.cur = some blk) :
    (qpack_codec static).enc_encode e r1 r2 name value = (LQES_NOBUF_ENC, [], [], e) ∨
    (qpack_codec static).enc_encode e r1 r2 name value = (LQES_NOBUF_HEAD, [], [], e) ∨
    (((encode_field static e blk (name, value)).instrs.map put_instr).flatten.length ≤ r1 ∧
      (put_line (encode_field static e blk (name, value)).line).length ≤ r2 ∧
      (qpack_codec static).enc_encode e r1 r2 name value
        = (LQES_OK, ((encode_field static e blk (name, value)).instrs.map put_instr).flatten,
           put_line (encode_field static e blk (name, value)).line,
           { e with table := (encode_field static e blk (name, value)).table,
                    cur := some { blk with
                      refs := (encode_field static e blk (name, value)).refs } })) := by
  simp only [qpack_codec, hcur]
  by_cases h1 : r1 < ((encode_field static e blk (name, value)).instrs.map put_instr).flatten.length
  · exact Or.inl (if_pos h1)
  · by_cases h2 : r2 < (put_line (encode_field static e blk (name, value)).line).length
    · refine Or.inr (Or.inl ?_)
      rw [if_neg h1, if_pos h2]
    · refine Or.inr (Or.inr ⟨by omega, by omega, ?_⟩)
      rw [if_neg h1, if_neg h2]

theorem encode_fields_run (static : List (Bytes × Bytes)) (hstatic : static.length < QPACK_INT_MAX) :
    ∀ (fields : List (Bytes × Bytes)) (e : QEnc) (blk : QBlock) (eo ho : Nat)
      (outs : List (Bytes × Bytes)) (e2 : QEnc),
      e.cur = some blk → refs_live e.table blk.refs →
      used_size e.table.entries ≤ e.table.capacity → blk.base ≤ e.table.inserted_count →
      e.table.inserted_count < QPACK_INT_MAX →
      lsqpack_encode_fields (qpack_codec static) e eo ho fields = some (outs, e2) →
      ∃ instrs lines refs2,
        (outs.map Prod.fst).flatten = (instrs.map put_instr).flatten ∧
        (outs.map Prod.snd).flatten = (lines.map put_line).flatten ∧
        (∀ i ∈ instrs, instr_ok i) ∧ (∀ l ∈ lines, line_ok l) ∧
        apply_instrs static e.max_capacity e.table instrs = some e2.table ∧
        e2.cur = some { blk with refs := refs2 } ∧ e2.max_capacity = e.max_capacity ∧
        refs_live e2.table refs2 ∧ used_size e2.table.entries ≤ e2.table.capacity ∧
        e2.table.capacity = e.table.capacity ∧
        e.table.inserted_count ≤ e2.table.inserted_count ∧
        e2.table.inserted_count < QPACK_INT_MAX ∧
        keeps_refs blk.refs e.table e2.table ∧
        (∀ lo hi, blk.refs = some (lo, hi) → ∃ lo1 hi1, refs2 = some (lo1, hi1) ∧ lo1 ≤ lo) ∧
        resolve_lines static e2.table blk.base lines = some fields
  | [], e, blk, eo, ho, outs, e2, hcur, hlive, hsize, hbase, hcount, h => by
    simp only [lsqpack_encode_fields, Option.some.injEq, Prod.mk.injEq] at h
    obtain ⟨rfl, rfl⟩ := h
    exact ⟨[], [], blk.refs, rfl, rfl, by simp, by simp, rfl, hcur, rfl, hlive, hsize, rfl,
      Nat.le_refl _, hcount, fun _ _ _ _ _ _ => rfl,
      fun lo hi h => ⟨lo, hi, h, Nat.le_refl _⟩, rfl⟩
  | (name, value) :: rest, e, blk, eo, ho, outs, e2, hcur, hlive, hsize, hbase, hcount, h => by
    simp only [lsqpack_encode_fields] at h
    rcases qpack_enc_encode_cases static e blk (ENC_BUF_SZ - eo) (HDR_BUF_SZ - ho) name value hcur
      with hq | hq | ⟨hr1, hr2, hq⟩
    · rw [hq] at h
      simp at h
    · rw [hq] at h
      simp at h
    · rw [hq] at h
      simp only at h
      obtain ⟨s1, s2, s3, s4, s5, s6, s7, s8, s9, s10, s11⟩ :=
        encode_field_step static e blk (name, value) hstatic hlive hsize hbase hcount
      generalize ho1 : encode_field static e blk (name, value) = o at *
      rcases hrec : lsqpack_encode_fields (qpack_codec static)
          { e with table := o.table, cur := some { blk with refs := o.refs } }
          (eo + ((o.instrs.map put_instr).flatten).length)
          (ho + (put_line o.line).length) rest with _ | ⟨outs1, e3⟩
      · rw [hrec] at h
        simp at h
      · rw [hrec] at h
        simp only [Option.some.injEq, Prod.mk.injEq] at h
        obtain ⟨rfl, rfl⟩ := h
        obtain ⟨instrs1, lines1, refs2, i1, i2, i3, i4, i5, i6, i7, i8, i9, i10, i11, i12, i13,
          i14, i15⟩ :=
          encode_fields_run static hstatic rest
            { e with table := o.table, cur := some { blk with refs := o.refs } }
            { blk with refs := o.refs } _ _ outs1 e3 rfl s2 s3 (by dsimp only; omega) s6 hrec
        have hb1 : (ENC_BUF_SZ - eo) ≤ 4096 := by unfold ENC_BUF_SZ; omega
        have hb2 : (HDR_BUF_SZ - ho) ≤ 4096 := by unfold HDR_BUF_SZ; omega
        refine ⟨o.instrs ++ instrs1, o.line :: lines1, refs2, ?_, ?_, ?_, ?_, ?_, i6, i7, i8, i9,
          ?_, ?_, i12, ?_, ?_, ?_⟩
        · simp [i1]
        · simp [i2]
        · intro i hi
          rcases List.mem_append.1 hi with hi | hi
          · exact s10 (by omega) i hi
          · exact i3 i hi
        · intro l hl
          rcases List.mem_cons.1 hl with hl | hl
          · subst hl
            exact s11 (by omega)
          · exact i4 l hl
        · exact apply_instrs_append static e.max_capacity _ _ _ _ _ s1 i5
        · exact i10.trans s4
        · exact Nat.le_trans s5 i11
        · intro lo hi hr i hi1 hi2
          obtain ⟨lo1, hi0, hr1, hle⟩ := s8 lo hi hr
          rw [i13 lo1 hi0 hr1 i (by omega) (by dsimp only; omega)]
          exact s7 lo hi hr i hi1 hi2
        · intro lo hi hr
          obtain ⟨lo1, hi0, hr1, hle⟩ := s8 lo hi hr
          obtain ⟨lo2, hi2, hr2, hle2⟩ := i14 lo1 hi0 hr1
          exact ⟨lo2, hi2, hr2, by omega⟩
        · have hline := s9 e3.table i13
          simp only [resolve_lines, hline]
          dsimp only at i15
          rw [i15]

/-! ## The round trip of the codec -/

theorem block_start_decodes (e : QEnc) (blk : QBlock) (rest : Bytes)
    (hlive : refs_live e.table blk.refs) (hsize : used_size e.table.entries ≤ e.table.capacity)
    (hcap : e.table.capacity ≤ e.max_capacity) (hmax : e.max_capacity < 2 ^ 32)
    (hbase : blk.base ≤ e.table.inserted_count)
    (hcount : e.table.inserted_count < QPACK_INT_MAX) :
    ∃ enc_ric sign delta ric,
      get_block_start (block_start_bytes e blk ++ rest) = some (enc_ric, sign, delta, rest) ∧
      decode_ric (e.max_capacity / 32) e.table.inserted_count enc_ric = some ric ∧
      decode_base ric sign delta = some blk.base ∧ ric ≤ e.table.inserted_count := by
  have hq : QPACK_INT_MAX = 2 ^ 62 := rfl
  rcases hr : blk.refs with _ | ⟨lo, hi⟩
  · refine ⟨0, false, blk.base, 0, ?_, by simp [decode_ric], by simp [decode_base],
      Nat.zero_le _⟩
    simp only [block_start_bytes, hr]
    exact get_put_block_start 0 false blk.base rest (by omega) (by omega)
  · obtain ⟨a, b, c⟩ := hlive lo hi hr
    have hlen := length_le_used_size e.table.entries
    have hic : e.table.inserted_count = e.table.dropped + e.table.entries.length := rfl
    have hM : e.table.entries.length ≤ e.max_capacity / 32 := by omega
    have hM1 : 0 < 2 * (e.max_capacity / 32) := by omega
    have hmod := Nat.mod_lt (hi + 1) hM1
    have henc : encode_ric (e.max_capacity / 32) (hi + 1)
        = (hi + 1) % (2 * (e.max_capacity / 32)) + 1 := by
      simp [encode_ric]
    have hdec := decode_encode_ric (e.max_capacity / 32) e.table.inserted_count (hi + 1)
      (Or.inr ⟨by omega, by omega⟩)
    by_cases hb : hi + 1 ≤ blk.base
    · refine ⟨encode_ric (e.max_capacity / 32) (hi + 1), false, blk.base - (hi + 1), hi + 1, ?_,
        hdec, ?_, by omega⟩
      · simp only [block_start_bytes, hr, hb, if_true]
        exact get_put_block_start _ _ _ rest (by omega) (by omega)
      · simp only [decode_base, Bool.false_eq_true, if_false]
        congr 1
        omega
    · refine ⟨encode_ric (e.max_capacity / 32) (hi + 1), true, hi + 1 - blk.base - 1, hi + 1, ?_,
        hdec, ?_, by omega⟩
      · simp only [block_start_bytes, hr, hb, if_false]
        exact get_put_block_start _ _ _ rest (by omega) (by omega)
      · have h1 : ¬ (hi + 1 < hi + 1 - blk.base - 1 + 1) := by omega
        simp only [decode_base, if_true, h1, if_false]
        congr 1
        omega

theorem qpack_end_header_convention (static : List (Bytes × Bytes)) :
    lsqpack_end_header_convention (qpack_codec static) := by
  intro e
  simp only [qpack_codec]
  rcases e.cur with _ | blk
  · simp
  · by_cases h : PREFIX_MAX_SIZE < (block_start_bytes e blk).length
    · simp [h]
    · simp only [h, if_false]
      refine ⟨?_, fun _ => trivial⟩
      have : (0 : Int) ≤ ((block_start_bytes e blk).length : Int) := Int.natCast_nonneg _
      omega

theorem encode_session_some {E D : Type} (q : Lsqpack E D) (e : E) (stream_id : Nat)
    (fields : List (Bytes × Bytes)) (p : Bytes × Bytes)
    (h : lsqpack_encode_session q e stream_id fields = some p) :
    (q.enc_start_header e stream_id 0).1 = 0 ∧
      ∃ outs e2,
        lsqpack_encode_fields q (q.enc_start_header e stream_id 0).2 0 PREFIX_MAX_SIZE fields
          = some (outs, e2) ∧
        0 < (q.enc_end_header e2 PREFIX_MAX_SIZE).1 ∧
        p = ((outs.map Prod.fst).flatten,
             (q.enc_end_header e2 PREFIX_MAX_SIZE).2.1 ++ (outs.map Prod.snd).flatten) := by
  rcases hs : q.enc_start_header e stream_id 0 with ⟨rc, e1⟩
  simp only [lsqpack_encode_session, hs] at h
  by_cases hrc : rc = 0
  · simp only [hrc, ne_eq, not_true_eq_false, if_false] at h
    rcases hrun : lsqpack_encode_fields q e1 0 PREFIX_MAX_SIZE fields with _ | ⟨outs, e2⟩
    · simp [hrun] at h
    · simp only [hrun] at h
      rcases he : q.enc_end_header e2 PREFIX_MAX_SIZE with ⟨r, pfx_out, e3⟩
      simp only [he] at h
      by_cases hc : 0 < r ∧ (pfx_out.length : Int) = r
      · simp only [hc, and_self, if_true, Option.some.injEq] at h
        exact ⟨hrc, outs, e2, rfl, by simpa [he] using hc.1, by simp [he, h]⟩
      · simp [hc] at h
  · simp [hrc] at h

theorem decode_session_done {E D : Type} (q : Lsqpack E D) (d : D) (stream_id : Nat)
    (es hb : Bytes) (fields : List (Bytes × Bytes)) (h1 : ¬ (q.dec_enc_in d es).1 < 0)
    (h2 : (q.dec_header_in (q.dec_enc_in d es).2.2 stream_id stream_id hb.length hb).status
      = LQRHS_DONE)
    (h3 : (q.dec_header_in (q.dec_enc_in d es).2.2 stream_id stream_id hb.length hb).processed
      = fields) :
    lsqpack_decode_session q d stream_id es hb = some fields := by
  rcases hq : q.dec_enc_in d es with ⟨rc, handles, d1⟩
  rw [hq] at h1 h2 h3
  simp only [lsqpack_decode_session, hq]
  simp only at h1 h2 h3
  simp [h1, h2, h3]

theorem qpack_start_header (static : List (Bytes × Bytes)) (e : QEnc) (stream_id seqno : Nat) :
    (qpack_codec static).enc_start_header e stream_id seqno
      = if !e.ready || e.cur.isSome then (-1, e)
        else
          (0, { e with cur := some { stream_id := stream_id, base := e.table.inserted_count,
                                     refs := none } }) := rfl

theorem qpack_end_header (static : List (Bytes × Bytes)) (e : QEnc) (blk : QBlock)
    (buf_sz : Nat) (hcur : e.cur = some blk) :
    (qpack_codec static).enc_end_header e buf_sz
      = if buf_sz < (block_start_bytes e blk).length then (0, [], e)
        else
          (((block_start_bytes e blk).length : Int), block_start_bytes e blk,
           { e with cur := none,
                    outstanding :=
                      match blk.refs with
                      | none => e.outstanding
                      | some (lo, _) => e.outstanding ++ [(blk.stream_id, lo)] }) := by
  simp only [qpack_codec, hcur]

theorem qpack_dec_enc_in (static : List (Bytes × Bytes)) (d : QDec) (data : Bytes) :
    (qpack_codec static).dec_enc_in d data = qpack_enc_in static d data := rfl

theorem qpack_dec_header_in (static : List (Bytes × Bytes)) (d : QDec)
    (handle stream_id size : Nat) (data : Bytes) :
    (qpack_codec static).dec_header_in d handle stream_id size data
      = qpack_header_in static d handle stream_id data := rfl

theorem qpack_session_detail (static : List (Bytes × Bytes))
    (hstatic : static.length < QPACK_INT_MAX) (e : QEnc) (d : QDec) (stream_id : Nat)
    (fields : List (Bytes × Bytes)) (p : Bytes × Bytes) (hsync : qpack_in_sync e d)
    (hp : lsqpack_encode_session (qpack_codec static) e stream_id fields = some p) :
    ∃ outs e2 handles d1,
      lsqpack_encode_fields (qpack_codec static)
          ((qpack_codec static).enc_start_header e stream_id 0).2 0 PREFIX_MAX_SIZE fields
        = some (outs, e2) ∧
      qpack_in_sync e2 d1 ∧
      (qpack_codec static).dec_enc_in d p.1 = (0, handles, d1) ∧
      ((qpack_codec static).dec_header_in d1 stream_id stream_id p.2.length p.2).status
        = LQRHS_DONE ∧
      ((qpack_codec static).dec_header_in d1 stream_id stream_id p.2.length p.2).processed
        = fields ∧
      ((qpack_codec static).dec_header_in d1 stream_id stream_id p.2.length p.2).dec = d1 := by
  obtain ⟨htab, hmc, hmax, hsize, hcap, hcount⟩ := hsync
  obtain ⟨hrc, outs, e2, hrun0, hpos, hp⟩ := encode_session_some _ _ _ _ _ hp
  have hrun := hrun0
  rw [qpack_start_header] at hrc hrun
  by_cases hs : (!e.ready || e.cur.isSome) = true
  · rw [if_pos hs] at hrc
    simp at hrc
  · rw [if_neg hs] at hrun
    dsimp only at hrun
    obtain ⟨instrs, lines, refs2, i1, i2, i3, i4, i5, i6, i7, i8, i9, i10, i11, i12, _, _,
      i15⟩ :=
      encode_fields_run static hstatic fields
        { e with cur := some { stream_id := stream_id, base := e.table.inserted_count,
                               refs := none } }
        { stream_id := stream_id, base := e.table.inserted_count, refs := none } 0
        PREFIX_MAX_SIZE outs e2
        rfl (fun _ _ h => by simp at h) hsize (Nat.le_refl _) hcount hrun
    dsimp only at i5 i6 i7 i8 i10 i11 i15
    rw [qpack_end_header static e2 _ _ i6] at hpos hp
    by_cases hpl : PREFIX_MAX_SIZE < (block_start_bytes e2
        { stream_id := stream_id, base := e.table.inserted_count, refs := refs2 }).length
    · rw [if_pos hpl] at hpos
      simp at hpos
    · rw [if_neg hpl] at hp
      subst hp
      dsimp only
      rw [i1, i2]
      obtain ⟨enc_ric, sign, delta, ric, b1, b2, b3, b4⟩ :=
        block_start_decodes e2
          { stream_id := stream_id, base := e.table.inserted_count, refs := refs2 }
          (lines.map put_line).flatten i8 i9 (by omega) (by omega) i11 i12
      dsimp only at b3
      have hin : qpack_enc_in static d (instrs.map put_instr).flatten
          = (0,
             (d.blocked.filter fun c =>
                !c.notified && decide (c.ric ≤ e2.table.inserted_count)).map QCtx.handle,
             { d with table := e2.table,
                      blocked := d.blocked.map fun c =>
                        if c.ric ≤ e2.table.inserted_count then { c with notified := true }
                        else c }) := by
        simp only [qpack_enc_in]
        rw [get_put_instrs instrs _ (length_le_flatten_put_instr instrs) i3]
        simp only [hmc, htab, i5]
      have hlines : get_lines (lines.map put_line).flatten.length (lines.map put_line).flatten
          = some lines :=
        get_put_lines lines _ (length_le_flatten_put_line lines) i4
      have hnb : ¬ (e2.table.inserted_count < ric) := by omega
      have hread : qpack_header_in static
          { d with table := e2.table,
                   blocked := d.blocked.map fun c =>
                     if c.ric ≤ e2.table.inserted_count then { c with notified := true }
                     else c }
          stream_id stream_id
          (block_start_bytes e2
              { stream_id := stream_id, base := e.table.inserted_count, refs := refs2 }
            ++ (lines.map put_line).flatten)
          = read_lines static
              { d with table := e2.table,
                       blocked := d.blocked.map fun c =>
                         if c.ric ≤ e2.table.inserted_count then { c with notified := true }
                         else c }
              stream_id
              ((block_start_bytes e2
                  { stream_id := stream_id, base := e.table.inserted_count, refs := refs2 }
                ++ (lines.map put_line).flatten).length - (lines.map put_line).flatten.length)
              e.table.inserted_count (lines.map put_line).flatten := by
        simp only [qpack_header_in, b1, hmc, ← i7, b2, b3, hnb, if_false]
      refine ⟨outs, e2,
        (d.blocked.filter fun c =>
          !c.notified && decide (c.ric ≤ e2.table.inserted_count)).map QCtx.handle,
        { d with table := e2.table,
                 blocked := d.blocked.map fun c =>
                   if c.ric ≤ e2.table.inserted_count then { c with notified := true }
                   else c },
        hrun0, ⟨rfl, ?_, ?_, i9, ?_, i12⟩, ?_, ?_, ?_, ?_⟩
      · dsimp only
        omega
      · omega
      · omega
      · rw [qpack_dec_enc_in, hin]
      · rw [qpack_dec_header_in, hread]
        simp only [read_lines, hlines, i15]
      · rw [qpack_dec_header_in, hread]
        simp only [read_lines, hlines, i15]
      · rw [qpack_dec_header_in, hread]
        simp only [read_lines, hlines, i15]

theorem qpack_round_trip (static : List (Bytes × Bytes)) (hstatic : static.length < QPACK_INT_MAX)
    (e : QEnc) (d : QDec) (stream_id : Nat) (fields : List (Bytes × Bytes))
    (hsync : qpack_in_sync e d) :
    lsqpack_round_trip (qpack_codec static) e d stream_id fields := by
  intro p hp
  obtain ⟨outs, e2, handles, d1, _, _, hin, h1, h2, _⟩ :=
    qpack_session_detail static hstatic e d stream_id fields p hsync (Option.mem_def.1 hp)
  apply decode_session_done
  · rw [hin]
    simp
  · rw [hin]
    exact h1
  · rw [hin]
    exact h2

theorem fresh_encoder_enc (static : List (Bytes × Bytes)) (max_table_capacity blocked_streams : Nat) :
    (Encoder_apply_settings (qpack_codec static) (Encoder_init (qpack_codec static))
        max_table_capacity blocked_streams).2.enc
      = { ready := true, max_capacity := max_table_capacity % 2 ^ 32,
          max_blocked := blocked_streams % 2 ^ 32,
          table := { entries := [], dropped := 0, capacity := max_table_capacity % 2 ^ 32 },
          cur := none, outstanding := [], known_received := 0 } := by
  simp [Encoder_apply_settings, Encoder_init, qpack_codec]

theorem fresh_pair_in_sync (static : List (Bytes × Bytes)) (max_table_capacity blocked_streams : Nat) :
    qpack_in_sync
      (Encoder_apply_settings (qpack_codec static) (Encoder_init (qpack_codec static))
        max_table_capacity blocked_streams).2.enc
      (Decoder_init (qpack_codec static) max_table_capacity blocked_streams).dec := by
  have h := Nat.mod_lt max_table_capacity (show 0 < 2 ^ 32 by norm_num)
  rw [fresh_encoder_enc]
  refine ⟨rfl, rfl, h, ?_, Nat.le_refl _, ?_⟩
  · simp [used_size]
  · simp [DynTable.inserted_count, QPACK_INT_MAX]

theorem round_trip_of_sync (static : List (Bytes × Bytes)) (hstatic : static.length < QPACK_INT_MAX)
    (self : EncoderObject QEnc) (dself : DecoderObject QDec) (stream_id : Nat)
    (fields : List (Bytes × Bytes)) (es hb : Bytes)
    (henc : (Encoder_encode (qpack_codec static) self stream_id (headers_arg fields)).1
      = EncoderResult.encoded es hb)
    (hsync : qpack_in_sync self.enc dself.dec)
    (hidle : ∀ b ∈ dself.pending_blocks, b.stream_id ≠ stream_id) :
    ∃ ids control,
      (Decoder_feed_encoder (qpack_codec static) dself es).1 = DecoderResult.unblocked ids ∧
      (Decoder_feed_header (qpack_codec static)
          (Decoder_feed_encoder (qpack_codec static) dself es).2 stream_id hb).1
        = DecoderResult.decoded control fields :=
  decode_of_session _ dself stream_id es hb fields hidle
    (qpack_round_trip static hstatic self.enc dself.dec stream_id fields hsync (es, hb)
      (session_of_encoded _ self stream_id fields es hb henc
        (qpack_end_header_convention static)))

/-! ## The statuses of the codec of the spec in feed_header -/

theorem encode_finish_enc {E D : Type} (q : Lsqpack E D) (self : EncoderObject E)
    (enc_off hdr_off : Nat) :
    (encode_finish q self enc_off hdr_off).2.enc
      = (q.enc_end_header self.enc PREFIX_MAX_SIZE).2.2 := by
  rcases hq : q.enc_end_header self.enc PREFIX_MAX_SIZE with ⟨r, pfx_out, enc⟩
  simp only [encode_finish, hq]
  repeat' (first | rfl | split)

theorem Encoder_encode_encoded_enc {E D : Type} (q : Lsqpack E D) (self : EncoderObject E)
    (stream_id : Nat) (fields : List (Bytes × Bytes)) (es hb : Bytes)
    (h : (Encoder_encode q self stream_id (headers_arg fields)).1
      = EncoderResult.encoded es hb) :
    ∃ outs e2,
      lsqpack_encode_fields q (q.enc_start_header self.enc stream_id 0).2 0 PREFIX_MAX_SIZE fields
        = some (outs, e2) ∧
      (Encoder_encode q self stream_id (headers_arg fields)).2.enc
        = (q.enc_end_header e2 PREFIX_MAX_SIZE).2.2 := by
  rcases hs : q.enc_start_header self.enc stream_id 0 with ⟨rc, e1⟩
  simp only [headers_arg, Encoder_encode, hs] at h ⊢
  by_cases hrc : rc ≠ 0
  · rw [if_pos hrc] at h; exact absurd h (by simp)
  · rw [if_neg hrc] at h ⊢
    cases hl : encode_loop q { self with enc := e1 } 0 PREFIX_MAX_SIZE
        (fields.map header_tuple) with
    | raise result self2 =>
      rw [hl] at h
      simp only at h
      exact absurd h
        (encode_loop_not_raise_encoded q _ { self with enc := e1 } 0 PREFIX_MAX_SIZE
          result self2 hl es hb)
    | next self2 enc_off hdr_off =>
      simp only
      obtain ⟨fields1, outs, hitems, _, hfields, _⟩ :=
        encode_loop_next q _ _ self2 0 PREFIX_MAX_SIZE enc_off hdr_off hl (by decide)
          (by decide)
      have hf : fields1 = fields := (List.map_injective_iff.2 header_tuple_injective hitems).symm
      subst hf
      exact ⟨outs, self2.enc, hfields, encode_finish_enc q self2 enc_off hdr_off⟩

theorem encode_step_enc {E D : Type} (q : Lsqpack E D) (P : E → Prop) (self : EncoderObject E)
    (enc_off hdr_off : Nat) (t : PyObject) (h0 : P self.enc)
    (h1 : ∀ a b n v, P (q.enc_encode self.enc a b n v).2.2.2) :
    (∀ self1 a b, encode_step q self enc_off hdr_off t = Loop.next self1 a b → P self1.enc) ∧
    (∀ self1 r, encode_step q self enc_off hdr_off t = Loop.raise r self1 → P self1.enc) := by
  unfold encode_step
  split
  · rename_i name value
    dsimp only
    split
    · exact ⟨fun _ _ _ h => by simp at h, fun _ _ h => by
        simp only [Loop.raise.injEq] at h; rw [← h.2]; exact h0⟩
    · split
      · exact ⟨fun _ _ _ h => by simp at h, fun _ _ h => by
          simp only [Loop.raise.injEq] at h; rw [← h.2]; exact h0⟩
      · rename_i xhdr_buf hx
        have hp := h1 (size_sub ENC_BUF_SZ enc_off) (size_sub HDR_BUF_SZ hdr_off)
          (buf_read xhdr_buf 0 name.length) (buf_read xhdr_buf name.length value.length)
        split
        · split
          · exact ⟨fun _ _ _ h => by simp at h, fun _ _ h => by
              simp only [Loop.raise.injEq] at h; rw [← h.2]; exact hp⟩
          · exact ⟨fun _ _ _ h => by
              simp only [Loop.next.injEq] at h; rw [← h.1]; exact hp,
              fun _ _ h => by simp at h⟩
        · exact ⟨fun _ _ _ h => by simp at h, fun _ _ h => by
            simp only [Loop.raise.injEq] at h; rw [← h.2]; exact hp⟩
  · exact ⟨fun _ _ _ h => by simp at h, fun _ _ h => by
      simp only [Loop.raise.injEq] at h; rw [← h.2]; exact h0⟩
  · exact ⟨fun _ _ _ h => by simp at h, fun _ _ h => by
      simp only [Loop.raise.injEq] at h; rw [← h.2]; exact h0⟩

theorem encode_loop_enc {E D : Type} (q : Lsqpack E D) (P : E → Prop)
    (hP : ∀ e, P e → ∀ a b n v, P (q.enc_encode e a b n v).2.2.2) (items : List PyObject) :
    ∀ (self : EncoderObject E) (enc_off hdr_off : Nat), P self.enc →
      (∀ self1 a b, encode_loop q self enc_off hdr_off items = Loop.next self1 a b →
        P self1.enc) ∧
      (∀ self1 r, encode_loop q self enc_off hdr_off items = Loop.raise r self1 →
        P self1.enc) := by
  induction items with
  | nil =>
    intro self enc_off hdr_off h0
    simp only [encode_loop]
    exact ⟨fun _ _ _ h => by simp only [Loop.next.injEq] at h; rw [← h.1]; exact h0,
      fun _ _ h => by simp at h⟩
  | cons t rest ih =>
    intro self enc_off hdr_off h0
    obtain ⟨s1, s2⟩ := encode_step_enc q P self enc_off hdr_off t h0 (hP _ h0)
    simp only [encode_loop]
    cases hs : encode_step q self enc_off hdr_off t with
    | next self2 a2 b2 =>
      simp only
      exact ih self2 a2 b2 (s1 self2 a2 b2 hs)
    | raise r self2 =>
      simp only
      exact ⟨fun _ _ _ h => by simp at h, fun _ _ h => by
        simp only [Loop.raise.injEq] at h; rw [← h.2]; exact s2 self2 r hs⟩

theorem encode_finish_of_fit {E D : Type} (q : Lsqpack E D) (self : EncoderObject E)
    (enc_off hdr_off n : Nat) (pfx_out : Bytes) (enc : E)
    (hq : q.enc_end_header self.enc PREFIX_MAX_SIZE = ((n : Int), pfx_out, enc))
    (hn1 : 1 ≤ n) (hn2 : n ≤ PREFIX_MAX_SIZE) (hp : pfx_out.length ≤ PREFIX_MAX_SIZE) :
    ∃ es hb, (encode_finish q self enc_off hdr_off).1 = EncoderResult.encoded es hb := by
  have h16 : PREFIX_MAX_SIZE = 16 := rfl
  obtain ⟨t1, _, _, t4⟩ := to_size_t_of_count (r := (n : Int)) (by omega) (by omega)
  simp only [Int.toNat_ofNat] at t1 t4
  rw [t1] at t4
  have c1 : 0 + pfx_out.length ≤ PREFIX_MAX_SIZE := by omega
  have c2 : ¬ (n ≤ 0) := by omega
  have c3 : ¬ (n > PREFIX_MAX_SIZE) := by omega
  have c4 : PREFIX_MAX_SIZE - n + (buf_read (buf_write self.pfx_buf 0 pfx_out) 0 n).length
      ≤ HDR_BUF_SZ := by
    rw [length_buf_read]
    have : HDR_BUF_SZ = 4096 := rfl
    omega
  simp only [encode_finish, hq, memcpy, if_pos c1, t1, if_neg c2, if_neg c3, t4, if_pos c4]
  exact ⟨_, _, rfl⟩

/-! ## The codec of the spec under repeated use -/

theorem qpack_enc_encode_cur (static : List (Bytes × Bytes)) (e : QEnc) (a b : Nat)
    (n v : Bytes) (h : e.cur.isSome = true) :
    ((qpack_codec static).enc_encode e a b n v).2.2.2.cur.isSome = true := by
  obtain ⟨blk, hb⟩ := Option.isSome_iff_exists.1 h
  rcases qpack_enc_encode_cases static e blk a b n v hb with hq | hq | ⟨_, _, hq⟩
  · rw [hq]; exact h
  · rw [hq]; exact h
  · rw [hq]; rfl

theorem block_start_bytes_ne_nil (e : QEnc) (blk : QBlock) : block_start_bytes e blk ≠ [] := by
  unfold block_start_bytes put_block_start
  split
  · simp [put_int_ne_nil]
  · split <;> simp [put_int_ne_nil]

theorem qpack_encode_outcome (static : List (Bytes × Bytes)) (self : EncoderObject QEnc)
    (stream_id : Nat) (fields : List (Bytes × Bytes)) :
    (∃ es hb, (Encoder_encode (qpack_codec static) self stream_id (headers_arg fields)).1
        = EncoderResult.encoded es hb) ∨
      (Encoder_encode (qpack_codec static) self stream_id (headers_arg fields)).2.enc
        = self.enc ∨
      (Encoder_encode (qpack_codec static) self stream_id (headers_arg fields)).2.enc.cur.isSome
        = true := by
  have hstart := qpack_start_header static self.enc stream_id 0
  by_cases hs : (!self.enc.ready || self.enc.cur.isSome) = true
  · rw [if_pos hs] at hstart
    refine Or.inr (Or.inl ?_)
    simp only [headers_arg, Encoder_encode, hstart]
    simp
  · rw [if_neg hs] at hstart
    simp only [headers_arg, Encoder_encode, hstart, ne_eq, not_true_eq_false, if_false]
    obtain ⟨l1, l2⟩ := encode_loop_enc (qpack_codec static) (fun e => e.cur.isSome = true)
      (fun e he a b n v => qpack_enc_encode_cur static e a b n v he)
      (fields.map header_tuple)
      { self with enc := { self.enc with
          cur := some { stream_id := stream_id, base := self.enc.table.inserted_count,
                        refs := none } } }
      0 PREFIX_MAX_SIZE rfl
    cases hl : encode_loop (qpack_codec static)
        { self with enc := { self.enc with
            cur := some { stream_id := stream_id, base := self.enc.table.inserted_count,
                          refs := none } } }
        0 PREFIX_MAX_SIZE (fields.map header_tuple) with
    | raise r self2 =>
      simp only
      exact Or.inr (Or.inr (l2 self2 r hl))
    | next self2 a b =>
      simp only
      have hc := l1 self2 a b hl
      obtain ⟨blk, hb⟩ := Option.isSome_iff_exists.1 hc
      have hend := qpack_end_header static self2.enc blk PREFIX_MAX_SIZE hb
      by_cases hfit : PREFIX_MAX_SIZE < (block_start_bytes self2.enc blk).length
      · rw [if_pos hfit] at hend
        refine Or.inr (Or.inr ?_)
        rw [encode_finish_enc, hend]
        exact hc
      · rw [if_neg hfit] at hend
        have hne := block_start_bytes_ne_nil self2.enc blk
        have hpos : 1 ≤ (block_start_bytes self2.enc blk).length := by
          rcases hbs : block_start_bytes self2.enc blk with _ | ⟨x, rest⟩
          · exact absurd hbs hne
          · simp
        exact Or.inl (encode_finish_of_fit _ self2 a b _ _ _ hend hpos (by omega) (by omega))

theorem qpack_end_header_table (static : List (Bytes × Bytes)) (e : QEnc) (buf_sz : Nat) :
    ((qpack_codec static).enc_end_header e buf_sz).2.2.table = e.table ∧
      ((qpack_codec static).enc_end_header e buf_sz).2.2.max_capacity = e.max_capacity := by
  simp only [qpack_codec]
  split
  · exact ⟨rfl, rfl⟩
  · split <;> exact ⟨rfl, rfl⟩

theorem in_sync_of_table {e e1 : QEnc} {d : QDec} (h : qpack_in_sync e d)
    (ht : e1.table = e.table) (hm : e1.max_capacity = e.max_capacity) : qpack_in_sync e1 d := by
  unfold qpack_in_sync at h ⊢
  rw [ht, hm]
  exact h

theorem apply_dec_instr_table (e e1 : QEnc) (i : DecInstr) (h : apply_dec_instr e i = some e1) :
    e1.table = e.table ∧ e1.max_capacity = e.max_capacity := by
  cases i with
  | header_ack stream_id =>
    simp only [apply_dec_instr] at h
    split at h
    · simp at h
    · simp only [Option.some.injEq] at h
      subst h
      exact ⟨rfl, rfl⟩
  | stream_cancel stream_id =>
    simp only [apply_dec_instr, Option.some.injEq] at h
    subst h
    exact ⟨rfl, rfl⟩
  | insert_count_increment increment =>
    simp only [apply_dec_instr] at h
    split at h
    · simp at h
    · simp only [Option.some.injEq] at h
      subst h
      exact ⟨rfl, rfl⟩

theorem apply_dec_instrs_table :
    ∀ (instrs : List DecInstr) (e e1 : QEnc), apply_dec_instrs e instrs = some e1 →
      e1.table = e.table ∧ e1.max_capacity = e.max_capacity
  | [], e, e1, h => by
    simp only [apply_dec_instrs, Option.some.injEq] at h
    subst h
    exact ⟨rfl, rfl⟩
  | i :: rest, e, e1, h => by
    simp only [apply_dec_instrs] at h
    rcases hi : apply_dec_instr e i with _ | e2
    · simp [hi] at h
    · simp only [hi] at h
      obtain ⟨a, b⟩ := apply_dec_instr_table e e2 i hi
      obtain ⟨c, d⟩ := apply_dec_instrs_table rest e2 e1 h
      exact ⟨c.trans a, d.trans b⟩

theorem feed_decoder_keeps_sync (static : List (Bytes × Bytes)) (self : EncoderObject QEnc)
    (data : Bytes) (d : QDec) (h : qpack_in_sync self.enc d) :
    qpack_in_sync (Encoder_feed_decoder (qpack_codec static) self data).2.enc d := by
  have henc : (Encoder_feed_decoder (qpack_codec static) self data).2.enc
      = ((qpack_codec static).enc_decoder_in self.enc data).2 := by
    simp only [Encoder_feed_decoder]
    split <;> rfl
  rw [henc]
  simp only [qpack_codec]
  split
  · exact h
  · rename_i instrs _
    split
    · exact h
    · rename_i e1 he
      obtain ⟨a, b⟩ := apply_dec_instrs_table instrs self.enc e1 he
      exact in_sync_of_table h a b

theorem round_keeps_sync (static : List (Bytes × Bytes)) (hstatic : static.length < QPACK_INT_MAX)
    (self : EncoderObject QEnc) (dself : DecoderObject QDec) (stream_id : Nat)
    (fields : List (Bytes × Bytes)) (es hb : Bytes)
    (henc : (Encoder_encode (qpack_codec static) self stream_id (headers_arg fields)).1
      = EncoderResult.encoded es hb)
    (hsync : qpack_in_sync self.enc dself.dec) (hpend : dself.pending_blocks = []) :
    ∃ control dself1,
      Decoder_feed_header (qpack_codec static)
          (Decoder_feed_encoder (qpack_codec static) dself es).2 stream_id hb
        = (DecoderResult.decoded control fields, dself1) ∧
      dself1.pending_blocks = [] ∧
      qpack_in_sync (Encoder_encode (qpack_codec static) self stream_id (headers_arg fields)).2.enc
        dself1.dec := by
  have hsess := session_of_encoded _ self stream_id fields es hb henc
    (qpack_end_header_convention static)
  obtain ⟨outs, e2, handles, d1, hrun, hs2, hin, h1, h2, h3⟩ :=
    qpack_session_detail static hstatic self.enc dself.dec stream_id fields (es, hb) hsync hsess
  obtain ⟨outs1, e3, hrun1, hstate⟩ :=
    Encoder_encode_encoded_enc _ self stream_id fields es hb henc
  rw [hrun] at hrun1
  simp only [Option.some.injEq, Prod.mk.injEq] at hrun1
  obtain ⟨_, rfl⟩ := hrun1
  have hfe : Decoder_feed_encoder (qpack_codec static) dself es
      = (DecoderResult.unblocked [], { dec := d1, pending_blocks := [] }) := by
    dsimp only at hin
    simp only [Decoder_feed_encoder, hin, hpend, apply_unblocked]
    simp
  rw [hfe]
  dsimp only at h1 h2 h3 ⊢
  have hst := (feed_header_of_status (qpack_codec static)
    { dec := d1, pending_blocks := [] } stream_id hb (by simp)).2.1 h1
  rw [hst]
  refine ⟨(feed_header_read (qpack_codec static) { dec := d1, pending_blocks := [] }
      stream_id hb).dec_out,
    { dec := (feed_header_read (qpack_codec static) { dec := d1, pending_blocks := [] }
        stream_id hb).dec, pending_blocks := [] }, ?_, rfl, ?_⟩
  · rw [headers_after_read_new]
    simp only [feed_header_read, h2]
  · simp only [feed_header_read, h3]
    rw [hstate]
    obtain ⟨a, b⟩ := qpack_end_header_table static e2 PREFIX_MAX_SIZE
    exact in_sync_of_table hs2 a b

theorem not_encoded_of_open_block (static : List (Bytes × Bytes)) (self : EncoderObject QEnc)
    (stream_id : Nat) (fields : List (Bytes × Bytes)) (h : self.enc.cur.isSome = true)
    (es hb : Bytes) :
    (Encoder_encode (qpack_codec static) self stream_id (headers_arg fields)).1
      ≠ EncoderResult.encoded es hb := by
  intro henc
  obtain ⟨_, _, _, _, hstart, _⟩ :=
    Encoder_encode_encoded _ self stream_id (fields.map header_tuple) es hb henc
  rw [qpack_start_header, if_pos (by simp [h])] at hstart
  simp at hstart

theorem use_round_keeps_step (static : List (Bytes × Bytes))
    (hstatic : static.length < QPACK_INT_MAX) (p : EncoderObject QEnc × DecoderObject QDec)
    (r : Nat × List (Bytes × Bytes) × Bool)
    (h : p.2.pending_blocks = [] ∧ (qpack_in_sync p.1.enc p.2.dec ∨ p.1.enc.cur.isSome = true)) :
    (use_round (qpack_codec static) p r).2.pending_blocks = [] ∧
      (qpack_in_sync (use_round (qpack_codec static) p r).1.enc
          (use_round (qpack_codec static) p r).2.dec ∨
        (use_round (qpack_codec static) p r).1.enc.cur.isSome = true) := by
  obtain ⟨hpend, hJ⟩ := h
  have hout := qpack_encode_outcome static p.1 r.1 r.2.1
  by_cases henc : ∃ es hb, (Encoder_encode (qpack_codec static) p.1 r.1 (headers_arg r.2.1)).1
      = EncoderResult.encoded es hb
  · obtain ⟨es, hb, henc⟩ := henc
    have hsync : qpack_in_sync p.1.enc p.2.dec := by
      rcases hJ with hJ | hJ
      · exact hJ
      · exact absurd henc (not_encoded_of_open_block static p.1 r.1 r.2.1 hJ es hb)
    obtain ⟨control, dself1, hdec, hp1, hs1⟩ :=
      round_keeps_sync static hstatic p.1 p.2 r.1 r.2.1 es hb henc hsync hpend
    rcases hE : Encoder_encode (qpack_codec static) p.1 r.1 (headers_arg r.2.1) with ⟨res, self1⟩
    rw [hE] at henc hs1
    dsimp only at henc hs1
    subst henc
    simp only [use_round, hE, hdec]
    by_cases hack : r.2.2 = true
    · rw [if_pos hack]
      exact ⟨hp1, Or.inl (feed_decoder_keeps_sync static self1 control dself1.dec hs1)⟩
    · rw [if_neg hack]
      exact ⟨hp1, Or.inl hs1⟩
  · have hstate : (use_round (qpack_codec static) p r)
        = ((Encoder_encode (qpack_codec static) p.1 r.1 (headers_arg r.2.1)).2, p.2) := by
      rcases hE : Encoder_encode (qpack_codec static) p.1 r.1 (headers_arg r.2.1) with
        ⟨res, self1⟩
      rw [hE] at henc
      cases res with
      | encoded es hb => exact absurd ⟨es, hb, rfl⟩ henc
      | _ => simp only [use_round, hE]
    rw [hstate]
    refine ⟨hpend, ?_⟩
    rcases hout with hout | hout | hout
    · exact absurd hout henc
    · dsimp only
      rw [hout]
      exact hJ
    · exact Or.inr hout

theorem use_rounds_keep_step (static : List (Bytes × Bytes))
    (hstatic : static.length < QPACK_INT_MAX) :
    ∀ (rounds : List (Nat × List (Bytes × Bytes) × Bool))
      (p : EncoderObject QEnc × DecoderObject QDec),
      (p.2.pending_blocks = [] ∧ (qpack_in_sync p.1.enc p.2.dec ∨ p.1.enc.cur.isSome = true)) →
      (use_rounds (qpack_codec static) p rounds).2.pending_blocks = [] ∧
        (qpack_in_sync (use_rounds (qpack_codec static) p rounds).1.enc
            (use_rounds (qpack_codec static) p rounds).2.dec ∨
          (use_rounds (qpack_codec static) p rounds).1.enc.cur.isSome = true)
  | [], p, h => h
  | r :: rest, p, h => by
    have h1 := use_round_keeps_step static hstatic p r h
    exact use_rounds_keep_step static hstatic rest (use_round (qpack_codec static) p r) h1

/-! ## The claims -/

/-- C2: in every decoder state, feed_header for a stream id that already has a pending header
block and resume_header for a stream id that has none raise the plain ValueError (which is
neither StreamBlocked nor DecompressionFailed) and return the decoder exactly as it was:
the codec state, the queue of pending blocks and every field of every block.  The equations
hold for every codec q, so the outcome does not depend on any codec function. -/
theorem decoder_usage_errors_are_noops {E D : Type} (q : Lsqpack E D) (self : DecoderObject D)
    (s : Nat) :
    ((∃ b ∈ self.pending_blocks, b.stream_id = s) →
      ∀ data, Decoder_feed_header q self s data = (DecoderResult.ValueError, self)) ∧
    ((∀ b ∈ self.pending_blocks, b.stream_id ≠ s) →
      Decoder_resume_header q self s = (DecoderResult.ValueError, self)) ∧
    DecoderResult.ValueError ≠ DecoderResult.StreamBlocked ∧
    DecoderResult.ValueError ≠ DecoderResult.DecompressionFailed := by
  refine ⟨?_, ?_, by simp, by simp⟩
  · rintro ⟨b, hb, hs⟩ data
    obtain ⟨c, hc⟩ := find_block_isSome_of_mem hb hs
    simp [Decoder_feed_header, hc]
  · intro h
    have hn := (find_block_eq_none_iff s self.pending_blocks).2 h
    simp [Decoder_resume_header, hn]

/-- Witness of C2 on the decoder in which stream 4 is blocked: a second feed_header(4, ...) and
a resume_header(5) both raise ValueError and leave the decoder as it was. -/
theorem decoder_usage_errors_are_noops_witness :
    (∃ b ∈ ref_decoder_blocked.pending_blocks, b.stream_id = 4) ∧
    Decoder_feed_header ref_codec ref_decoder_blocked 4 [0, 0]
      = (DecoderResult.ValueError, ref_decoder_blocked) ∧
    (∀ b ∈ ref_decoder_blocked.pending_blocks, b.stream_id ≠ 5) ∧
    Decoder_resume_header ref_codec ref_decoder_blocked 5
      = (DecoderResult.ValueError, ref_decoder_blocked) :=
  ⟨by decide,
   (decoder_usage_errors_are_noops ref_codec ref_decoder_blocked 4).1 (by decide) [0, 0],
   by decide,
   (decoder_usage_errors_are_noops ref_codec ref_decoder_blocked 5).2.1 (by decide)⟩

/-- C3: starting from a freshly constructed decoder, after every sequence of feed_header,
feed_encoder and resume_header calls, for every codec, no two blocks of the pending queue
have the same stream id. -/
theorem at_most_one_block_per_stream {E D : Type} (q : Lsqpack E D)
    (max_table_capacity blocked_streams : Nat) (calls : List DecoderCall) :
    (pending_ids (Decoder_run q (Decoder_init q max_table_capacity blocked_streams) calls)).Nodup :=
  nodup_pending_ids_run q calls _ (by simp [pending_ids, Decoder_init])

/-- C4, counterexample: on ref_codec, stream 4 is blocked by feed_header, a first feed_encoder
unblocks it and reports [4]; the block is then pending with its blocked flag clear, and a second
feed_encoder, whose empty input makes the codec unblock nothing, reports [4] again. -/
theorem feed_encoder_reports_again :
    (Decoder_feed_encoder ref_codec ref_decoder_blocked
        [1, 1, 97, 98, 0, 0, 1, 1, 97, 98]).1 = DecoderResult.unblocked [4] ∧
    find_block 4 ref_decoder_unblocked.pending_blocks
      = some { blocked := false, data := [3, 0, 0, 1, 2], data_ptr := 2, stream_id := 4,
               headers := [] } ∧
    (ref_codec.dec_enc_in ref_decoder_unblocked.dec []).2.1 = [] ∧
    (Decoder_feed_encoder ref_codec ref_decoder_unblocked []).1 = DecoderResult.unblocked [4] := by
  decide

/-- C4, amended: when feed_encoder succeeds, the returned list holds exactly the stream ids of
the pending blocks whose blocked flag is clear after the call.  These are the blocks that were
flagged blocked before the call and on which the codec called dhi_unblocked during it, together
with the blocks whose flag was already clear before the call (unblocked earlier and not yet
resumed): the latter are reported again. -/
theorem feed_encoder_reports_clear_flags {E D : Type} (q : Lsqpack E D) (self : DecoderObject D)
    (data : Bytes) (ids : List Nat) (self1 : DecoderObject D)
    (h : Decoder_feed_encoder q self data = (DecoderResult.unblocked ids, self1)) :
    ids = (self1.pending_blocks.filter fun b => !b.blocked).map header_block.stream_id ∧
    (∀ s, s ∈ ids ↔ ∃ b ∈ self.pending_blocks, b.stream_id = s ∧
      (b.blocked = true ∧ s ∈ (q.dec_enc_in self.dec data).2.1 ∨ b.blocked = false)) ∧
    (∀ b ∈ self.pending_blocks, b.blocked = false → b.stream_id ∈ ids) := by
  obtain ⟨h1, h2⟩ := feed_encoder_ids q self data ids self1 h
  have key : ∀ s, s ∈ ids ↔ ∃ b ∈ self.pending_blocks, b.stream_id = s ∧
      (b.blocked = true ∧ s ∈ (q.dec_enc_in self.dec data).2.1 ∨ b.blocked = false) := by
    intro s
    rw [h2, h1]
    simp only [apply_unblocked, List.mem_map, List.mem_filter, Bool.not_eq_true']
    constructor
    · rintro ⟨c, ⟨⟨b, hb, rfl⟩, hc⟩, rfl⟩
      refine ⟨b, hb, ?_, ?_⟩
      · split <;> rfl
      · by_cases hm : b.stream_id ∈ (q.dec_enc_in self.dec data).2.1
        · have hid : (if b.stream_id ∈ (q.dec_enc_in self.dec data).2.1
              then header_block_unblocked b else b).stream_id = b.stream_id := by
            split <;> rfl
          rw [hid]
          cases hbl : b.blocked
          · exact Or.inr rfl
          · exact Or.inl ⟨rfl, hm⟩
        · simp only [hm, if_false] at hc ⊢
          exact Or.inr hc
    · rintro ⟨b, hb, rfl, hcase⟩
      refine ⟨_, ⟨⟨b, hb, rfl⟩, ?_⟩, ?_⟩
      · rcases hcase with ⟨_, hm⟩ | hcl
        · simp [hm, header_block_unblocked]
        · split
          · rfl
          · exact hcl
      · split <;> rfl
  exact ⟨h2, key, fun b hb hcl => (key b.stream_id).2 ⟨b, hb, rfl, Or.inr hcl⟩⟩

/-- Witness of the amended C4 on the decoder whose stream 4 was unblocked and not resumed. -/
theorem feed_encoder_reports_clear_flags_witness :
    Decoder_feed_encoder ref_codec ref_decoder_unblocked []
      = (DecoderResult.unblocked [4], (Decoder_feed_encoder ref_codec ref_decoder_unblocked []).2) ∧
    ∀ b ∈ ref_decoder_unblocked.pending_blocks, b.blocked = false → b.stream_id ∈ [4] :=
  ⟨by decide,
   (feed_encoder_reports_clear_flags ref_codec ref_decoder_unblocked [] [4]
      (Decoder_feed_encoder ref_codec ref_decoder_unblocked []).2 (by decide)).2.2⟩

/-- C5: in every decoder state reached from a freshly constructed decoder by a sequence of
calls, the registration log (stream id and position of the registering feed_header call, for
every pending block in queue order) has ascending times; and the list returned by a successful
feed_encoder holds the stream ids of the unblocked pending blocks in queue order, which is the
ascending order of their registration times whatever the numeric order of the ids, and holds
no stream id twice. -/
theorem feed_encoder_order {E D : Type} (q : Lsqpack E D)
    (max_table_capacity blocked_streams : Nat) (calls : List DecoderCall) :
    ((registration_log q (Decoder_init q max_table_capacity blocked_streams) 0 [] calls).map
          Prod.fst
        = pending_ids (Decoder_run q (Decoder_init q max_table_capacity blocked_streams) calls) ∧
      ((registration_log q (Decoder_init q max_table_capacity blocked_streams) 0 [] calls).map
          Prod.snd).Pairwise (· < ·) ∧
      ∀ entry ∈ registration_log q (Decoder_init q max_table_capacity blocked_streams) 0 [] calls,
        ∃ data, calls[entry.2]? = some (DecoderCall.feed_header entry.1 data)) ∧
    (∀ data ids self1,
      Decoder_feed_encoder q
          (Decoder_run q (Decoder_init q max_table_capacity blocked_streams) calls) data
        = (DecoderResult.unblocked ids, self1) →
      ids = (self1.pending_blocks.filter fun b => !b.blocked).map header_block.stream_id ∧
      ids.Nodup ∧
      ∃ regs : List (Nat × Nat), regs.Sublist
          (registration_log q (Decoder_init q max_table_capacity blocked_streams) 0 [] calls) ∧
        regs.map Prod.fst = ids ∧ (regs.map Prod.snd).Pairwise (· < ·)) := by
  have hlog := log_matches_run q calls (Decoder_init q max_table_capacity blocked_streams) 0 []
    ⟨by simp [pending_ids, Decoder_init], by simp, by simp⟩
  obtain ⟨l1, _, l3⟩ := hlog
  refine ⟨⟨l1, l3, ?_⟩, ?_⟩
  · intro entry he
    rcases registration_log_origin q calls _ 0 [] entry he with h | ⟨_, data, h⟩
    · simp at h
    · exact ⟨data, by simpa using h⟩
  · intro data ids self1 h
    obtain ⟨h1, h2⟩ := feed_encoder_ids q _ data ids self1 h
    have hids : pending_ids (Decoder_run q (Decoder_init q max_table_capacity blocked_streams)
        calls) = self1.pending_blocks.map header_block.stream_id := by
      rw [h1, map_id_apply_unblocked]; rfl
    have hsub : ids.Sublist
        (pending_ids (Decoder_run q (Decoder_init q max_table_capacity blocked_streams)
          calls)) := by
      rw [h2, hids]
      exact List.Sublist.map _ (List.filter_sublist _)
    refine ⟨h2, hsub.nodup (nodup_pending_ids_reachable q max_table_capacity blocked_streams
      calls), ?_⟩
    rw [← l1] at hsub
    obtain ⟨regs, hregs, hmap⟩ := List.sublist_map_iff.1 hsub
    exact ⟨regs, hregs, hmap.symm, l3.sublist (hregs.map Prod.snd)⟩

/-- Witness of C5 on ref_codec: stream 8 is registered by call 0 and stream 4 by call 1; one
insertion unblocks both and feed_encoder reports [8, 4]. -/
theorem feed_encoder_order_witness :
    registration_log ref_codec (Decoder_init ref_codec 4096 16) 0 []
        [DecoderCall.feed_header 8 [1, 0, 0], DecoderCall.feed_header 4 [1, 0, 0]]
      = [(8, 0), (4, 1)] ∧
    Decoder_feed_encoder ref_codec
        (Decoder_run ref_codec (Decoder_init ref_codec 4096 16)
          [DecoderCall.feed_header 8 [1, 0, 0], DecoderCall.feed_header 4 [1, 0, 0]])
        [1, 1, 97, 98]
      = (DecoderResult.unblocked [8, 4],
         (Decoder_feed_encoder ref_codec ref_decoder_two_blocked [1, 1, 97, 98]).2) ∧
    [8, 4].Nodup ∧
    ∃ regs : List (Nat × Nat), regs.Sublist
        (registration_log ref_codec (Decoder_init ref_codec 4096 16) 0 []
          [DecoderCall.feed_header 8 [1, 0, 0], DecoderCall.feed_header 4 [1, 0, 0]]) ∧
      regs.map Prod.fst = [8, 4] ∧ (regs.map Prod.snd).Pairwise (· < ·) :=
  ⟨by decide, by decide,
   ((feed_encoder_order ref_codec 4096 16
      [DecoderCall.feed_header 8 [1, 0, 0], DecoderCall.feed_header 4 [1, 0, 0]]).2
      [1, 1, 97, 98] [8, 4]
      (Decoder_feed_encoder ref_codec ref_decoder_two_blocked [1, 1, 97, 98]).2 (by decide)).2⟩

/-- C6: in every decoder state reached from a freshly constructed decoder and for every stream
id s: after feed_header(s, data) or resume_header(s) returns the decoded headers or raises
DecompressionFailed, the pending queue holds no block for s, and a following feed_header(s, ...)
does not raise the duplicate-stream ValueError; after either call raises StreamBlocked, the
queue holds exactly one block for s and that block is flagged blocked. -/
theorem stream_state_machine {E D : Type} (q : Lsqpack E D)
    (max_table_capacity blocked_streams : Nat) (calls : List DecoderCall) (s : Nat)
    (call : DecoderCall)
    (hcall : (∃ data, call = DecoderCall.feed_header s data) ∨ call = DecoderCall.resume_header s) :
    ((Decoder_call q
        (Decoder_run q (Decoder_init q max_table_capacity blocked_streams) calls) call).1.terminal
        = true →
      (∀ b ∈ (Decoder_call q
          (Decoder_run q (Decoder_init q max_table_capacity blocked_streams) calls)
          call).2.pending_blocks, b.stream_id ≠ s) ∧
      ∀ data, (Decoder_feed_header q (Decoder_call q
          (Decoder_run q (Decoder_init q max_table_capacity blocked_streams) calls) call).2
          s data).1 ≠ DecoderResult.ValueError) ∧
    ((Decoder_call q
        (Decoder_run q (Decoder_init q max_table_capacity blocked_streams) calls) call).1
        = DecoderResult.StreamBlocked →
      (pending_ids (Decoder_call q
          (Decoder_run q (Decoder_init q max_table_capacity blocked_streams) calls) call).2).count s
        = 1 ∧
      ∀ b ∈ (Decoder_call q
          (Decoder_run q (Decoder_init q max_table_capacity blocked_streams) calls)
          call).2.pending_blocks, b.stream_id = s → b.blocked = true) := by
  have hnd := nodup_pending_ids_reachable q max_table_capacity blocked_streams calls
  exact state_machine_of_nodup q _ hnd s call hcall

/-- Witness of C6 on ref_codec: feed_header(4, ...) of a block that needs three insertions
raises StreamBlocked on the fresh decoder and leaves exactly one block for stream 4, flagged
blocked; after the insertions were fed, resume_header(4) returns the headers and leaves no block
for stream 4. -/
theorem stream_state_machine_witness :
    ((Decoder_call ref_codec (Decoder_run ref_codec (Decoder_init ref_codec 4096 16) [])
        (DecoderCall.feed_header 4 [3, 0, 0, 1, 2])).1 = DecoderResult.StreamBlocked ∧
      (pending_ids (Decoder_call ref_codec
          (Decoder_run ref_codec (Decoder_init ref_codec 4096 16) [])
          (DecoderCall.feed_header 4 [3, 0, 0, 1, 2])).2).count 4 = 1) ∧
    ((Decoder_call ref_codec
        (Decoder_run ref_codec (Decoder_init ref_codec 4096 16)
          [DecoderCall.feed_header 4 [3, 0, 0, 1, 2],
           DecoderCall.feed_encoder [1, 1, 97, 98, 0, 0, 1, 1, 97, 98]])
        (DecoderCall.resume_header 4)).1.terminal = true ∧
      ∀ b ∈ (Decoder_call ref_codec
          (Decoder_run ref_codec (Decoder_init ref_codec 4096 16)
            [DecoderCall.feed_header 4 [3, 0, 0, 1, 2],
             DecoderCall.feed_encoder [1, 1, 97, 98, 0, 0, 1, 1, 97, 98]])
          (DecoderCall.resume_header 4)).2.pending_blocks, b.stream_id ≠ 4) :=
  ⟨⟨by decide,
    ((stream_state_machine ref_codec 4096 16 [] 4 (DecoderCall.feed_header 4 [3, 0, 0, 1, 2])
      (Or.inl ⟨_, rfl⟩)).2 (by decide)).1⟩,
   ⟨by decide,
    ((stream_state_machine ref_codec 4096 16
      [DecoderCall.feed_header 4 [3, 0, 0, 1, 2],
       DecoderCall.feed_encoder [1, 1, 97, 98, 0, 0, 1, 1, 97, 98]]
      4 (DecoderCall.resume_header 4) (Or.inr rfl)).1 (by decide)).1⟩⟩

/-- C8: whenever encode succeeds, every element of the list is a two-tuple of bytes, and with
the codec output of the lsqpack_enc_encode calls made for the fields in input order: the
encoder-stream bytes returned are the concatenation of the per-field encoder output; the header
block returned is the prefix produced when the header is ended (between 1 and 16 bytes)
immediately followed by the concatenation of the per-field header output, so its length is the
prefix length plus the sum of the per-field lengths. -/
theorem encode_output_assembly {E D : Type} (q : Lsqpack E D) (self : EncoderObject E)
    (stream_id : Nat) (items : List PyObject) (es hb : Bytes)
    (h : (Encoder_encode q self stream_id (PyArg.list items)).1 = EncoderResult.encoded es hb) :
    ∃ (fields outs : List (Bytes × Bytes)) (e2 : E),
      items = fields.map header_tuple ∧
      lsqpack_encode_fields q (q.enc_start_header self.enc stream_id 0).2 0 PREFIX_MAX_SIZE fields
        = some (outs, e2) ∧
      outs.length = fields.length ∧
      es = (outs.map Prod.fst).flatten ∧
      hb = end_header_bytes q self.pfx_buf e2 ++ (outs.map Prod.snd).flatten ∧
      hb.length = (end_header_bytes q self.pfx_buf e2).length
        + (outs.map fun o => o.2.length).sum ∧
      1 ≤ (end_header_bytes q self.pfx_buf e2).length ∧
      (end_header_bytes q self.pfx_buf e2).length ≤ PREFIX_MAX_SIZE := by
  obtain ⟨fields, outs, e2, h1, _, h3, h4, h5, h6, _, h8, h9⟩ :=
    Encoder_encode_encoded q self stream_id items es hb h
  have hl : (end_header_bytes q self.pfx_buf e2).length
      = to_size_t (q.enc_end_header e2 PREFIX_MAX_SIZE).1 := length_buf_read _ _ _
  refine ⟨fields, outs, e2, h1, h3, h4, h8, h9, ?_, by omega, by omega⟩
  rw [h9, List.length_append, List.length_flatten, List.map_map]
  rfl

/-- Witness of C8 on ref_codec: three fields, the second with empty name and value and the third
equal to the first. -/
theorem encode_output_assembly_witness :
    (Encoder_encode ref_codec ref_encoder 4 (PyArg.list (ref_fields.map header_tuple))).1
      = EncoderResult.encoded [1, 1, 97, 98, 0, 0, 1, 1, 97, 98] [3, 0, 0, 1, 2] ∧
    ∃ (fields outs : List (Bytes × Bytes)) (e2 : RefEnc),
      ref_fields.map header_tuple = fields.map header_tuple ∧
      lsqpack_encode_fields ref_codec (ref_codec.enc_start_header ref_encoder.enc 4 0).2 0
        PREFIX_MAX_SIZE fields = some (outs, e2) ∧
      outs.length = fields.length ∧
      [1, 1, 97, 98, 0, 0, 1, 1, 97, 98] = (outs.map Prod.fst).flatten ∧
      [3, 0, 0, 1, 2] = end_header_bytes ref_codec ref_encoder.pfx_buf e2
        ++ (outs.map Prod.snd).flatten ∧
      [(3 : UInt8), 0, 0, 1, 2].length = (end_header_bytes ref_codec ref_encoder.pfx_buf e2).length
        + (outs.map fun o => o.2.length).sum ∧
      1 ≤ (end_header_bytes ref_codec ref_encoder.pfx_buf e2).length ∧
      (end_header_bytes ref_codec ref_encoder.pfx_buf e2).length ≤ PREFIX_MAX_SIZE :=
  ⟨by decide,
   encode_output_assembly ref_codec ref_encoder 4 (ref_fields.map header_tuple)
     [1, 1, 97, 98, 0, 0, 1, 1, 97, 98] [3, 0, 0, 1, 2] (by decide)⟩

/-- C1, counterexample: on an encoder that has had apply_settings applied, encode of the
one-element list holding a 4097-byte name and an empty value does not succeed: it raises
ValueError (the name and value are too long).  This is so with the small concrete codec and
with the codec of the spec: the check is made by the binding before the codec sees the
field. -/
theorem encode_rejects_long_header :
    long_name.length = 4097 ∧
    (Encoder_encode ref_codec ref_encoder 0 (headers_arg [(long_name, [])])).1
      = EncoderResult.ValueError ValueMsg.name_and_value_are_too_long ∧
    (Encoder_encode (qpack_codec sample_static)
        (Encoder_apply_settings (qpack_codec sample_static)
          (Encoder_init (qpack_codec sample_static)) 4096 16).2
        0 (headers_arg [(long_name, [])])).1
      = EncoderResult.ValueError ValueMsg.name_and_value_are_too_long :=
  ⟨length_long_name,
   Encoder_encode_too_long ref_codec ref_encoder 0 (long_name, []) [] (by decide)
    (by
      simp only [length_long_name, List.length_nil, Nat.add_zero]
      decide),
   Encoder_encode_too_long (qpack_codec sample_static) _ 0 (long_name, []) [] (by decide)
    (by
      simp only [length_long_name, List.length_nil, Nat.add_zero]
      decide)⟩

/-- C1, amended: with the codec as the spec describes it, over any static table whose size is
in the numeric range of the wire format, for every list of (name, value) byte pairs on which
encode succeeds, feed_encoder of the decoder succeeds on the returned encoder-stream bytes and
feed_header on the returned header block then returns the original list in the same order.
The encoder is the one set up by apply_settings(max_table_capacity, blocked_streams) and the
decoder the one created with the same settings, both new (no rounds) or after any sequence of
earlier rounds, in each of which the output of a successful encode was given to the decoder,
with or without the header acknowledgement given back to the encoder. -/
theorem encode_decode_round_trip (static : List (Bytes × Bytes))
    (hstatic : static.length < QPACK_INT_MAX)
    (max_table_capacity blocked_streams : Nat)
    (rounds : List (Nat × List (Bytes × Bytes) × Bool)) (stream_id : Nat)
    (fields : List (Bytes × Bytes)) (es hb : Bytes)
    (henc : (Encoder_encode (qpack_codec static)
        (use_rounds (qpack_codec static)
          (fresh_pair (qpack_codec static) max_table_capacity blocked_streams) rounds).1
        stream_id (headers_arg fields)).1 = EncoderResult.encoded es hb) :
    ∃ ids control,
      (Decoder_feed_encoder (qpack_codec static)
          (use_rounds (qpack_codec static)
            (fresh_pair (qpack_codec static) max_table_capacity blocked_streams) rounds).2 es).1
        = DecoderResult.unblocked ids ∧
      (Decoder_feed_header (qpack_codec static)
          (Decoder_feed_encoder (qpack_codec static)
            (use_rounds (qpack_codec static)
              (fresh_pair (qpack_codec static) max_table_capacity blocked_streams) rounds).2
            es).2
          stream_id hb).1
        = DecoderResult.decoded control fields := by
  obtain ⟨hpend, hJ⟩ := use_rounds_keep_step static hstatic rounds
    (fresh_pair (qpack_codec static) max_table_capacity blocked_streams)
    ⟨rfl, Or.inl (fresh_pair_in_sync static max_table_capacity blocked_streams)⟩
  have hsync : qpack_in_sync
      (use_rounds (qpack_codec static)
        (fresh_pair (qpack_codec static) max_table_capacity blocked_streams) rounds).1.enc
      (use_rounds (qpack_codec static)
        (fresh_pair (qpack_codec static) max_table_capacity blocked_streams) rounds).2.dec := by
    rcases hJ with hJ | hJ
    · exact hJ
    · exact absurd henc (not_encoded_of_open_block static _ stream_id fields hJ es hb)
  exact round_trip_of_sync static hstatic _ _ stream_id fields es hb henc hsync
    (fun b hb1 => by rw [hpend] at hb1; simp at hb1)

/-- Witness of the amended C1, with settings (4096, 16) and the sample static table.  On the new
pair, six fields, among them an entry of the static table, a pair of empty strings, a
duplicate and a name that is in the dynamic table by then, are encoded on stream 0 into the
bytes shown and come back from the decoder in the same order.  After that round, four fields
encoded on stream 4, two of them referring to entries that the first round inserted, come back
in the same order too. -/
theorem encode_decode_round_trip_witness :
    sample_static.length < QPACK_INT_MAX ∧
    ((Encoder_encode (qpack_codec sample_static)
          (use_rounds (qpack_codec sample_static)
            (fresh_pair (qpack_codec sample_static) 4096 16) []).1
          0 (headers_arg sample_fields)).1
        = EncoderResult.encoded [65, 97, 1, 98, 64, 0, 129, 1, 99]
            [4, 130, 193, 33, 97, 1, 98, 32, 0, 16, 18, 82, 1, 55] ∧
      ∃ ids control,
        (Decoder_feed_encoder (qpack_codec sample_static)
            (use_rounds (qpack_codec sample_static)
              (fresh_pair (qpack_codec sample_static) 4096 16) []).2
            [65, 97, 1, 98, 64, 0, 129, 1, 99]).1
          = DecoderResult.unblocked ids ∧
        (Decoder_feed_header (qpack_codec sample_static)
            (Decoder_feed_encoder (qpack_codec sample_static)
              (use_rounds (qpack_codec sample_static)
                (fresh_pair (qpack_codec sample_static) 4096 16) []).2
              [65, 97, 1, 98, 64, 0, 129, 1, 99]).2
            0 [4, 130, 193, 33, 97, 1, 98, 32, 0, 16, 18, 82, 1, 55]).1
          = DecoderResult.decoded control sample_fields) ∧
    ((Encoder_encode (qpack_codec sample_static)
          (use_rounds (qpack_codec sample_static)
            (fresh_pair (qpack_codec sample_static) 4096 16) [(0, sample_fields, true)]).1
          4 (headers_arg [([97], [98]), ([97], [100]), ([], []), ([120], [121])])).1
        = EncoderResult.encoded [130, 1, 100, 65, 120, 1, 121]
            [5, 128, 130, 16, 129, 33, 120, 1, 121] ∧
      ∃ ids control,
        (Decoder_feed_encoder (qpack_codec sample_static)
            (use_rounds (qpack_codec sample_static)
              (fresh_pair (qpack_codec sample_static) 4096 16) [(0, sample_fields, true)]).2
            [130, 1, 100, 65, 120, 1, 121]).1
          = DecoderResult.unblocked ids ∧
        (Decoder_feed_header (qpack_codec sample_static)
            (Decoder_feed_encoder (qpack_codec sample_static)
              (use_rounds (qpack_codec sample_static)
                (fresh_pair (qpack_codec sample_static) 4096 16) [(0, sample_fields, true)]).2
              [130, 1, 100, 65, 120, 1, 121]).2
            4 [5, 128, 130, 16, 129, 33, 120, 1, 121]).1
          = DecoderResult.decoded control
              [([97], [98]), ([97], [100]), ([], []), ([120], [121])]) :=
  ⟨by decide,
   ⟨by decide,
    encode_decode_round_trip sample_static (by decide) 4096 16 [] 0 sample_fields
      [65, 97, 1, 98, 64, 0, 129, 1, 99] [4, 130, 193, 33, 97, 1, 98, 32, 0, 16, 18, 82, 1, 55]
      (by decide)⟩,
   ⟨by decide,
    encode_decode_round_trip sample_static (by decide) 4096 16 [(0, sample_fields, true)] 4
      [([97], [98]), ([97], [100]), ([], []), ([120], [121])]
      [130, 1, 100, 65, 120, 1, 121] [5, 128, 130, 16, 129, 33, 120, 1, 121] (by decide)⟩⟩

/-- C9: encode raises the ValueError of the field-too-large check if and only if
lsqpack_enc_start_header succeeded and the loop, scanning the list in order, arrives at an
element i (the loop over the elements before i ran through) that is a two-tuple of bytes with
name length + value length > 4096.  A two-tuple of bytes is rejected by this check exactly when
name length + value length > 4096, so a sum of exactly 4096 passes; and every header within
the limit is copied into xhdr_buf by writes that stay inside its 4096 bytes: the copy is
defined, the name and the value are read back from it, and no cell from offset 4096 on
changes. -/
theorem field_too_large_rejection {E D : Type} (q : Lsqpack E D) (self : EncoderObject E)
    (stream_id : Nat) (items : List PyObject) :
    ((Encoder_encode q self stream_id (PyArg.list items)).1
        = EncoderResult.ValueError ValueMsg.name_and_value_are_too_long ↔
      (q.enc_start_header self.enc stream_id 0).1 = 0 ∧
      ∃ (i : Nat) (f : Bytes × Bytes) (self1 : EncoderObject E) (enc_off hdr_off : Nat),
        items[i]? = some (header_tuple f) ∧ XHDR_BUF_SZ < f.1.length + f.2.length ∧
        encode_loop q { self with enc := (q.enc_start_header self.enc stream_id 0).2 } 0
          PREFIX_MAX_SIZE (items.take i) = Loop.next self1 enc_off hdr_off) ∧
    (∀ (enc_off hdr_off : Nat) (f : Bytes × Bytes),
      (∃ self1, encode_step q self enc_off hdr_off (header_tuple f)
          = Loop.raise (EncoderResult.ValueError ValueMsg.name_and_value_are_too_long) self1) ↔
        4096 < f.1.length + f.2.length) ∧
    (∀ f : Bytes × Bytes, f.1.length + f.2.length ≤ 4096 →
      ∃ buf, xhdr_copy self.xhdr_buf f.1 f.2 = some buf ∧
        buf_read buf 0 f.1.length = f.1 ∧ buf_read buf f.1.length f.2.length = f.2 ∧
        ∀ i, 4096 ≤ i → buf i = self.xhdr_buf i) := by
  refine ⟨Encoder_encode_too_long_iff q self stream_id items, ?_, ?_⟩
  · intro enc_off hdr_off f
    rw [encode_step_too_long_iff]
    constructor
    · rintro ⟨g, hg, hlen⟩
      rw [header_tuple_injective hg]
      exact hlen
    · intro hlen
      exact ⟨f, rfl, hlen⟩
  · intro f hlen
    exact xhdr_copy_in_bounds self.xhdr_buf f hlen

/-- Witness of C9 on ref_codec: in a list whose second header has a 4097-byte name the loop
reaches that header and encode raises the ValueError; a header with a 4096-byte name and an
empty value is copied into xhdr_buf. -/
theorem field_too_large_rejection_witness :
    (Encoder_encode ref_codec ref_encoder 0
        (PyArg.list [header_tuple ([97], [98]), header_tuple (long_name, [])])).1
      = EncoderResult.ValueError ValueMsg.name_and_value_are_too_long ∧
    ∃ buf, xhdr_copy ref_encoder.xhdr_buf full_name [] = some buf ∧
      buf_read buf 0 full_name.length = full_name ∧ buf_read buf full_name.length 0 = [] ∧
      ∀ i, 4096 ≤ i → buf i = ref_encoder.xhdr_buf i :=
  ⟨(field_too_large_rejection ref_codec ref_encoder 0
      [header_tuple ([97], [98]), header_tuple (long_name, [])]).1.2
      ⟨by decide, 1, (long_name, []), _, _, _, rfl,
        by simp only [length_long_name, List.length_nil, Nat.add_zero]; decide,
        by simp only [List.take_succ_cons, List.take_zero]; rfl⟩,
   (field_too_large_rejection ref_codec ref_encoder 0 []).2.2 (full_name, [])
      (by simp only [full_name, List.length_replicate, List.length_nil, Nat.add_zero]; decide)⟩

/-- C10, the defect on ref_codec: encode(0, [(a, b), x]) with x no tuple raises the two-tuple
ValueError after lsqpack_enc_start_header and the lsqpack_enc_encode of the first field; the
codec is left with the header open and the field committed, so the following
encode(4, [(a, b)]) raises RuntimeError, whereas on the encoder as it was before the rejected
call it returns the two bytestrings.  For every codec, an encode rejected at its first element
leaves the codec in the state lsqpack_enc_start_header produced, never ended. -/
theorem rejected_encode_is_not_atomic :
    (Encoder_encode ref_codec ref_encoder 0
        (PyArg.list [header_tuple ([97], [98]), PyObject.other])).1
      = EncoderResult.ValueError ValueMsg.header_must_be_a_two_tuple ∧
    ref_encoder.enc = { ready := true, in_header := false, count := 0 } ∧
    (Encoder_encode ref_codec ref_encoder 0
        (PyArg.list [header_tuple ([97], [98]), PyObject.other])).2.enc
      = { ready := true, in_header := true, count := 1 } ∧
    (Encoder_encode ref_codec
        (Encoder_encode ref_codec ref_encoder 0
          (PyArg.list [header_tuple ([97], [98]), PyObject.other])).2
        4 (headers_arg [([97], [98])])).1
      = EncoderResult.RuntimeError RuntimeMsg.lsqpack_enc_start_header_failed ∧
    (Encoder_encode ref_codec ref_encoder 4 (headers_arg [([97], [98])])).1
      = EncoderResult.encoded [1, 1, 97, 98] [1, 0, 0] ∧
    (∀ (E D : Type) (q : Lsqpack E D) (self : EncoderObject E) (stream_id : Nat)
        (rest : List PyObject), (q.enc_start_header self.enc stream_id 0).1 = 0 →
      (Encoder_encode q self stream_id (PyArg.list (PyObject.other :: rest))).1
        = EncoderResult.ValueError ValueMsg.header_must_be_a_two_tuple ∧
      (Encoder_encode q self stream_id (PyArg.list (PyObject.other :: rest))).2.enc
        = (q.enc_start_header self.enc stream_id 0).2) := by
  refine ⟨by decide, by decide, by decide, by decide, by decide, ?_⟩
  intro E D q self stream_id rest hstart
  rcases hs : q.enc_start_header self.enc stream_id 0 with ⟨rc, e1⟩
  rw [hs] at hstart
  simp only at hstart
  subst hstart
  simp [Encoder_encode, hs, encode_loop, encode_step]

/-- C11, the defect: the test pfx_len <= 0 is made on the size_t value of the signed count, so
it holds only for the count 0.  On neg_codec, whose lsqpack_enc_end_header returns -1,
encode(0, []) does not raise RuntimeError: it arrives at the prefix copy with
pfx_len = 2^64 - 1 and pfx_off = 17, wrapped modulo 2^64, and the copy leaves the arrays
(result undefined).  For every codec, a negative count r of a ssize_t gives
pfx_len = r + 2^64 > 16 and pfx_off = 16 - r > 15 at the copy.  The rest of the claim holds: for
the count 0 encode raises RuntimeError with the header buffer as the loop left it, and for a
count from 1 to 16 the copy is reached with pfx_len equal to the count and
pfx_off = 16 - pfx_len. -/
theorem prefix_guard_misses_negative_count :
    (neg_codec.enc_end_header (neg_codec.enc_start_header neg_encoder.enc 0 0).2
        PREFIX_MAX_SIZE).1 = -1 ∧
    to_size_t (-1) = 2 ^ 64 - 1 ∧
    prefix_copy_args neg_codec
        { neg_encoder with enc := (neg_codec.enc_start_header neg_encoder.enc 0 0).2 }
      = some (2 ^ 64 - 1, 17) ∧
    (Encoder_encode neg_codec neg_encoder 0 (PyArg.list [])).1 = EncoderResult.undefined ∧
    (∀ (E D : Type) (q : Lsqpack E D) (self : EncoderObject E) (enc_off hdr_off : Nat),
      -(2 ^ 63 : Int) ≤ (q.enc_end_header self.enc PREFIX_MAX_SIZE).1 →
      (q.enc_end_header self.enc PREFIX_MAX_SIZE).1 < 0 →
      (q.enc_end_header self.enc PREFIX_MAX_SIZE).2.1.length ≤ PREFIX_MAX_SIZE →
      prefix_copy_args q self
          = some (to_size_t (q.enc_end_header self.enc PREFIX_MAX_SIZE).1,
              size_sub PREFIX_MAX_SIZE
                (to_size_t (q.enc_end_header self.enc PREFIX_MAX_SIZE).1)) ∧
      (to_size_t (q.enc_end_header self.enc PREFIX_MAX_SIZE).1 : Int)
          = (q.enc_end_header self.enc PREFIX_MAX_SIZE).1 + 2 ^ 64 ∧
      PREFIX_MAX_SIZE < to_size_t (q.enc_end_header self.enc PREFIX_MAX_SIZE).1 ∧
      (size_sub PREFIX_MAX_SIZE (to_size_t (q.enc_end_header self.enc PREFIX_MAX_SIZE).1) : Int)
          = 16 - (q.enc_end_header self.enc PREFIX_MAX_SIZE).1 ∧
      (encode_finish q self enc_off hdr_off).1 = EncoderResult.undefined) ∧
    (∀ (E D : Type) (q : Lsqpack E D) (self : EncoderObject E) (enc_off hdr_off : Nat),
      (q.enc_end_header self.enc PREFIX_MAX_SIZE).1 = 0 →
      (q.enc_end_header self.enc PREFIX_MAX_SIZE).2.1.length ≤ PREFIX_MAX_SIZE →
      (encode_finish q self enc_off hdr_off).1
          = EncoderResult.RuntimeError RuntimeMsg.lsqpack_enc_start_header_failed ∧
      (encode_finish q self enc_off hdr_off).2.hdr_buf = self.hdr_buf ∧
      prefix_copy_args q self = none) ∧
    (∀ (E D : Type) (q : Lsqpack E D) (self : EncoderObject E),
      1 ≤ (q.enc_end_header self.enc PREFIX_MAX_SIZE).1 →
      (q.enc_end_header self.enc PREFIX_MAX_SIZE).1 ≤ 16 →
      (q.enc_end_header self.enc PREFIX_MAX_SIZE).2.1.length ≤ PREFIX_MAX_SIZE →
      prefix_copy_args q self
        = some ((q.enc_end_header self.enc PREFIX_MAX_SIZE).1.toNat,
            PREFIX_MAX_SIZE - (q.enc_end_header self.enc PREFIX_MAX_SIZE).1.toNat)) := by
  refine ⟨by decide, by decide, by decide, by decide, ?_, ?_, ?_⟩
  · intro E D q self enc_off hdr_off hlo hneg hfit
    obtain ⟨a1, a2, a3⟩ := to_size_t_of_negative hlo hneg
    obtain ⟨b1, b2⟩ := encode_finish_of_negative q self enc_off hdr_off hlo hneg hfit
    exact ⟨b1, a1, a2, a3, b2⟩
  · intro E D q self enc_off hdr_off hr hfit
    exact encode_finish_of_zero q self enc_off hdr_off hr hfit
  · intro E D q self h1 h2 hfit
    exact prefix_copy_args_of_count q self h1 h2 hfit

end Pylsqpack
